import Mathlib

/-!
# Multi-scalar multiplication of `bw761` (`src/bw761/g1_multiexp.go`)

A shallow embedding of `G1Jac.MultiExp`, `msmReduceChunkG1`, `msmProcessChunkG1`
and the three specialised paths `msmC4`, `msmC8`, `msmC16`.

* Curve points (`G1Affine`, `G1Jac`, `g1JacExtended`) are elements of an abstract
  commutative group `G`; `AddAssign`/`mAdd` is `+`, `mSub` is `-`, `DoubleAssign`
  is `x + x`, `SetInfinity`/`g1Infinity` is `0`, and the test `ZZ.IsZero()` is `= 0`.
* `uint64` values are naturals with explicit reduction modulo `2 ^ 64`.
* A Go run-time panic (index out of range, division by zero) is `none`.
* A channel that receives exactly one value is that value; a goroutine that
  panics takes the whole call down, so the call yields `none`.
-/

namespace Bw761

/-! ## Machine words -/

/-- Reduction of a natural number to a `uint64`. -/
def u64 (x : Nat) : Nat := x % 2 ^ 64

/-- Go `x - y` on `uint64` (wraps around). -/
def subU64 (x y : Nat) : Nat := (x + 2 ^ 64 - y % 2 ^ 64) % 2 ^ 64

/-- Go `x << s` on `uint64`: bits shifted past bit 63 are lost, a count of 64 or more gives 0. -/
def shlU64 (x s : Nat) : Nat := if s < 64 then (x <<< s) % 2 ^ 64 else 0

/-- Go `x >> s` on `uint64`. -/
def shrU64 (x s : Nat) : Nat := if s < 64 then x >>> s else 0

/-- Go `^x` on `uint64` (bitwise complement). -/
def notU64 (x : Nat) : Nat := 2 ^ 64 - 1 - x % 2 ^ 64

/-- An `fr.Element`: its 64-bit words, least significant first (`fr.Limbs` of them). -/
abbrev Element := List Nat

/-- The integer a little-endian list of 64-bit words stands for. -/
def Element.value : Element → Nat
  | [] => 0
  | w :: ws => w + 2 ^ 64 * Element.value ws

/-! ## `msmReduceChunkG1` -/

section Group

variable {G : Type} [AddCommGroup G]

/-- The inner loop `for l := 0; l < c; l++ { p.DoubleAssign() }`, run `n` times. -/
def doubleAssignN : Nat → G → G
  | 0, p => p
  | n + 1, p => doubleAssignN n (p + p)

/-- The loop `for j := len(chChunks) - 2; j >= 0; j--` of `msmReduceChunkG1`; the list holds the
values still to be received, in the order they are received (`chChunks[j]` for descending `j`). -/
def reduceLoop (c : Int) : List G → G → G
  | [], p => p
  | totalj :: rest, p => reduceLoop c rest (doubleAssignN c.toNat p + totalj)

/-- Embedding of `msmReduceChunkG1(p, c, chChunks)`: `chChunks[j]` delivers the `j`-th entry of the
list. On an empty slice `chChunks[len(chChunks)-1]` is out of range. -/
def msmReduceChunkG1 (c : Int) (chChunks : List G) : Option G :=
  match chChunks.reverse with
  | [] => none
  | totalj :: rest => some (reduceLoop c rest totalj)

/-! ## `msmProcessChunkG1`: reduction of the buckets -/

/-- The loop `for k := len(buckets) - 1; k >= 0; k--` of `msmProcessChunkG1` on the state
`(runningSum, total)`; the list holds the buckets still to be visited, in visiting order. -/
def bucketLoop [DecidableEq G] : List G → G × G → G × G
  | [], st => st
  | b :: rest, (runningSum, total) =>
      let runningSum := if b ≠ 0 then runningSum + b else runningSum
      bucketLoop rest (runningSum, total + runningSum)

/-- The value `total` sent on `chRes` once the buckets are reduced. -/
def reduceBuckets [DecidableEq G] (buckets : List G) : G :=
  (bucketLoop buckets.reverse (0, 0)).2


/-- The same loop with the test `!buckets[k].ZZ.IsZero()` left out: every bucket is added into
`runningSum`. It is what the loop of `msmProcessChunkG1` is compared with. -/
def bucketLoopAddAll : List G → G × G → G × G
  | [], st => st
  | b :: rest, (runningSum, total) =>
      bucketLoopAddAll rest (runningSum + b, total + (runningSum + b))

/-! ## Weighted sums used in the statements -/

/-- Base-`2^c` evaluation of a list, least significant entry first: the sum of `2^(c·j)·xs[j]`. -/
def weighted (c : Nat) : List G → G
  | [] => 0
  | x :: xs => x + 2 ^ c • weighted c xs

/-- The sum of `(m - i)·bs[i]` for a list of length `m`: the weights fall from `m` to 1. -/
def descWeighted : List G → G
  | [] => 0
  | b :: bs => (bs.length + 1) • b + descWeighted bs

/-- The sum of `(k + 1)·bs[k]`: the weights rise from 1. -/
def ascWeighted : List G → G
  | [] => 0
  | b :: bs => b + bs.sum + ascWeighted bs

/-! ## `msmProcessChunkG1`: the selector and the scan of the scalars -/

/-- The `selector` of `msmProcessChunkG1`. Its type is declared in another file of the package;
the fields are the ones the function assigns, all `uint64` but the flag. -/
structure selector where
  index : Nat
  shift : Nat
  mask : Nat
  multiWordSelect : Bool
  maskHigh : Nat
  shiftHigh : Nat

/-- The selector `s` that `msmProcessChunkG1` builds for `chunk` and window width `c`
(`fr.Limbs` is a constant of package `fr`, taken as the parameter `Limbs`; a `selector{}` starts
with all fields zero, and `maskHigh`, `shiftHigh` are assigned only under `multiWordSelect`). -/
def mkSelector (Limbs chunk c : Nat) : selector :=
  let mask := subU64 (shlU64 1 c) 1
  let jc := u64 (chunk * c)
  let index := jc / 64
  let shift := subU64 jc (u64 (index * 64))
  let multiWordSelect :=
    decide (64 % c ≠ 0) && decide (subU64 64 c < shift) && decide (index < Limbs - 1)
  let nbBitsHigh := subU64 shift (subU64 64 c)
  { index := index
    shift := shift
    mask := shlU64 mask shift
    multiWordSelect := multiWordSelect
    maskHigh := if multiWordSelect then subU64 (shlU64 1 nbBitsHigh) 1 else 0
    shiftHigh := if multiWordSelect then subU64 c nbBitsHigh else 0 }

/-- The digit `bits` that the scan extracts from one scalar:
`bits := (scalars[i][s.index] & s.mask) >> s.shift`, and under `s.multiWordSelect`
`bits += (scalars[i][s.index+1] & s.maskHigh) << s.shiftHigh`. -/
def selectBits (s : selector) (scalar : Element) : Option Nat :=
  match scalar[s.index]? with
  | none => none
  | some w =>
    let bits := shrU64 (w &&& s.mask) s.shift
    if s.multiWordSelect then
      match scalar[s.index + 1]? with
      | none => none
      | some w1 => some (u64 (bits + shlU64 (w1 &&& s.maskHigh) s.shiftHigh))
    else some bits

/-- The update `buckets[k].mAdd(p)` (or `mSub`, through `f`); `none` when `k` is out of range. -/
def updateBucket (buckets : List G) (k : Nat) (f : G → G) : Option (List G) :=
  if k < buckets.length then some (buckets.set k (f (buckets.getD k 0))) else none

/-- The loop `for i := 0; i < len(scalars); i++` of `msmProcessChunkG1`, from index `i` on; the
list argument holds `scalars[i:]`. -/
def scanLoop (s : selector) (msbWindow : Nat) (points : List G) :
    Nat → List Element → List G → Option (List G)
  | _, [], buckets => some buckets
  | i, scalar :: scalars, buckets =>
    match selectBits s scalar with
    | none => none
    | some bits =>
      if bits = 0 then scanLoop s msbWindow points (i + 1) scalars buckets
      else
        match points[i]? with
        | none => none
        | some p =>
          if bits &&& msbWindow = 0 then
            match updateBucket buckets (subU64 bits 1) (fun b => b + p) with
            | none => none
            | some buckets => scanLoop s msbWindow points (i + 1) scalars buckets
          else
            match updateBucket buckets (bits &&& notU64 msbWindow) (fun b => b - p) with
            | none => none
            | some buckets => scanLoop s msbWindow points (i + 1) scalars buckets

/-- The buckets of `msmProcessChunkG1` when the scan loop is left: every bucket is first set to
infinity, then the scalars are scanned. `64 % c` panics for `c = 0`. -/
def scanBuckets (Limbs chunk : Nat) (buckets : List G) (c : Nat) (points : List G)
    (scalars : List Element) : Option (List G) :=
  if c = 0 then none
  else
    scanLoop (mkSelector Limbs chunk c) (shlU64 1 (subU64 c 1)) points 0 scalars
      (buckets.map fun _ => 0)

/-- Embedding of `msmProcessChunkG1`: the value sent on `chRes`, `none` if the goroutine panics. -/
def msmProcessChunkG1 [DecidableEq G] (Limbs chunk : Nat) (buckets : List G) (c : Nat)
    (points : List G) (scalars : List Element) : Option G :=
  match scanBuckets Limbs chunk buckets c points scalars with
  | none => none
  | some buckets => some (reduceBuckets buckets)

/-! ## What the scan reads, for the statements -/

/-- The digit the scan of `chunk` reads from a scalar (0 where the read is out of range). -/
def digitAt (Limbs c chunk : Nat) (scalar : Element) : Nat :=
  (selectBits (mkSelector Limbs chunk c) scalar).getD 0

/-- The effect on the buckets of one scanned pair when every index is in range: nothing for a
digit 0, `p` added to bucket `bits - 1` for a digit below `2^(c-1)`, `p` subtracted from bucket
`bits - 2^(c-1)` otherwise. -/
def applyDigit (c : Nat) (buckets : List G) (bits : Nat) (p : G) : List G :=
  if bits = 0 then buckets
  else if bits < 2 ^ (c - 1) then buckets.set (bits - 1) (buckets.getD (bits - 1) 0 + p)
  else buckets.set (bits - 2 ^ (c - 1)) (buckets.getD (bits - 2 ^ (c - 1)) 0 - p)

end Group

/-- The signed digit the bucket accumulator reads from a `c`-bit field: the field itself when
the bit `2^(c-1)` is clear, and `-((bits & ^msbWindow) + 1)` when it is set. -/
def signedDigit (c bits : Nat) : Int :=
  if bits &&& 2 ^ (c - 1) = 0 then (bits : Int)
  else -(((bits &&& notU64 (2 ^ (c - 1)) : Nat) : Int) + 1)

/-! ## `PartitionScalars` -/

/-- Modelled from the spec: the signed digits of `PartitionScalars` (a function of package `bw761`
that is not among the sources). Section 4.1: scan the chunks from the least significant one; a
window value, with the carry of the previous chunk added, that reaches `2^(c-1)` is emitted as
`value - 2^c` and carries 1 into the next chunk; one extra most-significant slot receives the
final carry. The value `2^(c-1)` itself is emitted as `-2^(c-1)`: a `c`-bit field whose bit
`2^(c-1)` is set is read by `msmProcessChunkG1` as a negative digit, so this is the side on
which the stored digit is read back as it is and the expansion reconstructs the scalar, as
section 4.1 requires. The window digits lie in `[-2^(c-1), 2^(c-1) - 1]`. -/
def signedDigits (c : Nat) : Nat → Nat → Nat → List Int
  | 0, _, carry => [(carry : Int)]
  | nbChunks + 1, s, carry =>
    let value := s % 2 ^ c + carry
    if 2 ^ (c - 1) ≤ value then
      ((value : Int) - 2 ^ c) :: signedDigits c nbChunks (s / 2 ^ c) 1
    else (value : Int) :: signedDigits c nbChunks (s / 2 ^ c) 0

/-- Modelled from the spec: the `c`-bit field `PartitionScalars` stores for a signed digit of
`[-2^(c-1), 2^(c-1) - 1]`, "the sign encoded by a high bit convention matching the Bucket
Accumulator's expectation": a digit that is not negative is stored as it is, a negative digit
of magnitude `m` as `m - 1` with the bit `2^(c-1)` set, which `msmProcessChunkG1` reads as
`-((bits & ^msbWindow) + 1) = -m`. -/
def encodeDigit (c : Nat) (d : Int) : Nat :=
  if 0 ≤ d then d.toNat else 2 ^ (c - 1) + (-d - 1).toNat

/-- The integer whose base-`2^c` digits, least significant first, are the given fields. -/
def packDigits (c : Nat) : List Nat → Nat
  | [] => 0
  | d :: ds => d + 2 ^ c * packDigits c ds

/-- The `n` least significant 64-bit words of a natural number. -/
def wordsOf : Nat → Nat → Element
  | 0, _ => []
  | n + 1, v => v % 2 ^ 64 :: wordsOf n (v / 2 ^ 64)

/-- Modelled from the spec: the number of chunks of the partition, `ceil(scalar_bits / c)` with
`scalar_bits = 64·Limbs` (the extra slot is not counted). -/
def partitionChunks (Limbs c : Nat) : Nat := (Limbs * 64 + c - 1) / c

/-- Modelled from the spec: the signed digits `PartitionScalars` computes for one scalar, the
extra most-significant slot last. -/
def digitsOf (Limbs c : Nat) (scalar : Element) : List Int :=
  signedDigits c (partitionChunks Limbs c) scalar.value 0

/-- Modelled from the spec: the replacement scalar `PartitionScalars` returns for one scalar:
every digit and the extra slot, each stored in the `c` bits of its chunk. -/
def partitionScalar (Limbs c : Nat) (scalar : Element) : Element :=
  wordsOf (((partitionChunks Limbs c + 1) * c + 63) / 64)
    (packDigits c ((digitsOf Limbs c scalar).map (encodeDigit c)))

/-- Modelled from the spec: `PartitionScalars(scalars, c)` of package `bw761`, which is not among
the sources (section 4.1 of the specification). -/
def PartitionScalars (Limbs : Nat) (scalars : List Element) (c : Nat) : List Element :=
  scalars.map (partitionScalar Limbs c)

/-! ## Reference values, for the statements -/

/-- The integer the chunk scans of a path of width `c` read back from a stored scalar: the sum
over the `Limbs·64/c` chunks `j` of the signed digit of chunk `j` times `2^(c·j)`. -/
def readback (Limbs c : Nat) (pScalar : Element) : Int :=
  weighted c ((List.range (Limbs * 64 / c)).map fun j => signedDigit c (digitAt Limbs c j pScalar))

/-- The re-expansion of a stored scalar over every slot of the partition, the extra one
included: the sum over `j` of the signed digit of slot `j`, as the bucket accumulator reads it,
times `2^(c·j)`. -/
def reexpand (Limbs c : Nat) (pScalar : Element) : Int :=
  weighted c ((List.range (partitionChunks Limbs c + 1)).map fun j =>
    signedDigit c (digitAt Limbs c j pScalar))

/-- Modelled from the spec: the digit of the extra most-significant slot of the partition of
a scalar, the final carry (0 or 1). -/
def finalCarry (Limbs c : Nat) (scalar : Element) : Int :=
  (digitsOf Limbs c scalar).getD (partitionChunks Limbs c) 0

/-- The largest integer a path of width `c` can read back from a stored scalar: each of the
`Limbs·64/c` windows holds the largest positive digit `2^(c-1) - 1` (`0x77..7` for `c = 4`,
`0x7F7F..7F` for `c = 8`, `0x7FFF..7FFF` for `c = 16`). -/
def maxExact (Limbs c : Nat) : Nat :=
  packDigits c (List.replicate (Limbs * 64 / c) (2 ^ (c - 1) - 1))

/-- A well-formed `fr.Element`: `Limbs` words, each a `uint64`. -/
def Element.wellFormed (Limbs : Nat) (scalar : Element) : Prop :=
  scalar.length = Limbs ∧ ∀ w ∈ scalar, w < 2 ^ 64

instance Element.wellFormed.decidable (Limbs : Nat) (scalar : Element) :
    Decidable (scalar.wellFormed Limbs) :=
  inferInstanceAs (Decidable (_ ∧ _))

/-- The naive sum of `scalars[i]·points[i]`, by independent scalar multiplications. -/
def naiveSum {G : Type} [AddCommGroup G] (points : List G) (scalars : List Element) : G :=
  ((scalars.zip points).map fun sp => sp.1.value • sp.2).sum

/-! ## The paths `msmC4`, `msmC8`, `msmC16` -/

section Group

variable {G : Type} [AddCommGroup G] [DecidableEq G]

/-- What the reducer receives from the channels `chChunks[0..]`: every value, unless a goroutine
panicked. -/
def recvAll : List (Option G) → Option (List G)
  | [] => some []
  | none :: _ => none
  | some x :: rest =>
    match recvAll rest with
    | none => none
    | some xs => some (x :: xs)

/-- The constant `nbChunks = (fr.Limbs * 64 / c)` of a path of width `c`, "number of c-bit
radixes in a scalar". -/
def nbChunks (c Limbs : Nat) : Nat := Limbs * 64 / c

/-- The array `chChunks` of a path of width `c` once every goroutine is done: for each chunk
`j < nbChunks` the value `msmProcessChunkG1` sends for it on `1 << (c-1)` fresh buckets, over the
partitioned scalars (`none` for a goroutine that panics). -/
def chChunks (c Limbs : Nat) (points : List G) (scalars : List Element) : List (Option G) :=
  (List.range (nbChunks c Limbs)).map fun j =>
    msmProcessChunkG1 Limbs j (List.replicate (1 <<< (c - 1)) (0 : G)) c points
      (PartitionScalars Limbs scalars c)

/-- The body shared by `msmC4`, `msmC8` and `msmC16` ("each of the msmCX method is the same,
except for the c constant it declares"): the scalars are partitioned, one goroutine per chunk
fills `chChunks`, and `msmReduceChunkG1` reduces what they send. -/
def msmCX (c Limbs : Nat) (points : List G) (scalars : List Element) : Option G :=
  match recvAll (chChunks c Limbs points scalars) with
  | none => none
  | some chChunks => msmReduceChunkG1 (c : Int) chChunks

/-- The body of `msmC4`, `msmC8` and `msmC16` after the call of `PartitionScalars`, run on any
replacement scalars `pScalars`: one goroutine per chunk, then `msmReduceChunkG1`. -/
def msmCXOn (c Limbs : Nat) (points : List G) (pScalars : List Element) : Option G :=
  match recvAll ((List.range (nbChunks c Limbs)).map fun j =>
      msmProcessChunkG1 Limbs j (List.replicate (1 <<< (c - 1)) (0 : G)) c points pScalars) with
  | none => none
  | some chChunks => msmReduceChunkG1 (c : Int) chChunks

/-- Embedding of `G1Jac.msmC4`. -/
def msmC4 (Limbs : Nat) (points : List G) (scalars : List Element) : Option G :=
  msmCX 4 Limbs points scalars

/-- Embedding of `G1Jac.msmC8`. -/
def msmC8 (Limbs : Nat) (points : List G) (scalars : List Element) : Option G :=
  msmCX 8 Limbs points scalars

/-- Embedding of `G1Jac.msmC16`. -/
def msmC16 (Limbs : Nat) (points : List G) (scalars : List Element) : Option G :=
  msmCX 16 Limbs points scalars

end Group

/-! ## `MultiExp`: the choice of the window width -/

/-- A Go `int` (64 bits): the value an integer result wraps around to. -/
def wrapInt64 (x : Int) : Int := (x + 2 ^ 63) % 2 ^ 64 - 2 ^ 63

/-- Rounding of a natural number to 53 significant bits, ties to the even significand: with
`e` the number of bits that do not fit, the quotient by `2^e` goes up by one when the remainder
is above the half, or is the half and the quotient is odd. -/
def roundToFloat64 (a : Nat) : Nat :=
  let e := a.log2 - 52
  let q := a / 2 ^ e
  let r := a % 2 ^ e
  let q := if 2 ^ e < 2 * r ∨ (2 * r = 2 ^ e ∧ q % 2 = 1) then q + 1 else q
  q * 2 ^ e

/-- The value of `float64(x)` for an integer `x`, as a rational number. -/
def float64OfInt (x : Int) : ℚ :=
  if x < 0 then -(roundToFloat64 x.natAbs : ℚ) else (roundToFloat64 x.natAbs : ℚ)

/-- The constant `math.MaxFloat64`. -/
def maxFloat64 : ℚ := (2 ^ 53 - 1) * 2 ^ 971

/-- The slice `implementedCs`. -/
def implementedCs : List Nat := [4, 8, 16]

/-- The value `cc := fr.Limbs * 64 * (nbPoints + (1 << (c - 1)))`, an `int`. -/
def ccOf (Limbs nbPoints c : Nat) : Int :=
  wrapInt64 ((Limbs : Int) * 64 * wrapInt64 ((nbPoints : Int) + wrapInt64 (1 <<< (c - 1) : Nat)))

/-- The value `cost := float64(cc) / float64(c)`. The candidates are powers of two, for which
the floating-point quotient is the exact quotient. -/
@[irreducible] def costOf (Limbs nbPoints c : Nat) : ℚ :=
  float64OfInt (ccOf Limbs nbPoints c) / float64OfInt (c : Int)

/-- The loop `for _, c := range implementedCs` on the state `(min, bestC)`. -/
def selectLoop (Limbs nbPoints : Nat) : List Nat → ℚ × Nat → ℚ × Nat
  | [], st => st
  | c :: cs, (min, bestC) =>
    let cost := costOf Limbs nbPoints c
    if cost < min then selectLoop Limbs nbPoints cs (cost, c)
    else selectLoop Limbs nbPoints cs (min, bestC)

/-- The value of `bestC` when the loop over the candidates `cs` is left, started as in
`MultiExp` with `min := math.MaxFloat64` and `bestC := 0`. -/
def selectC (Limbs nbPoints : Nat) (cs : List Nat) : Nat :=
  (selectLoop Limbs nbPoints cs (maxFloat64, 0)).2

/-- The value of `bestC` that `MultiExp` switches on. -/
def bestC (Limbs nbPoints : Nat) : Nat :=
  selectC Limbs nbPoints implementedCs

/-- The cost of the specification for a candidate `c`, computed exactly:
`64·fr.Limbs·(n + 2^(c-1)) / c`. -/
def exactCost (Limbs n c : Nat) : ℚ := (64 * Limbs * (n + 2 ^ (c - 1)) : ℚ) / c

/-- The statement `switch bestC` of `MultiExp`; the `default` branch `panic("unimplemented")` is
`none`. -/
def switchBestC {G : Type} [AddCommGroup G] [DecidableEq G] (bestC Limbs : Nat) (points : List G)
    (scalars : List Element) : Option G :=
  match bestC with
  | 4 => msmC4 Limbs points scalars
  | 8 => msmC8 Limbs points scalars
  | 16 => msmC16 Limbs points scalars
  | _ => none

/-- Embedding of `G1Jac.MultiExp`: the width is chosen for `nbPoints := len(points)`, then the
switch runs the path of that width. -/
def MultiExp {G : Type} [AddCommGroup G] [DecidableEq G] (Limbs : Nat) (points : List G)
    (scalars : List Element) : Option G :=
  switchBestC (bestC Limbs points.length) Limbs points scalars

end Bw761

/-!
# Polynomials of `iop` (`src/ecc/bn254/fr/iop/polynomial.go`, `utils.go`)

* `fr.Element` is an element of an abstract commutative ring `F`; `SetOne` is `1`, the zero value
  `fr.Element{}` is `0`, `Mul`, `Add`, `Square` are the ring operations and `Exp(x, k)` is `x ^ k`.
* A Go `int` is an integer reduced to 64 bits; a run-time panic is `none`.
* A `*Polynomial` is an address in a memory of polynomials, and a slice of coefficients is the
  address of its backing vector in a memory of vectors, so that copies and in-place transforms
  are told apart.
-/

namespace Iop

/-- A Go `int` (64 bits): the value an integer result wraps around to. -/
def wrapInt (x : Int) : Int := (x + 2 ^ 63) % 2 ^ 64 - 2 ^ 63

/-! ## Multivariate polynomials -/

/-- The struct `monomial`: `coeff*X₁^{i₁}*..*X_n^{i_n}` for `exponents = [i₁,..iₙ]`. -/
structure monomial (F : Type) where
  coeff : F
  exponents : List Int

/-- The type `MultivariatePolynomial`, a list of monomials. -/
abbrev MultivariatePolynomial (F : Type) := List (monomial F)

/-- The errors of the package. -/
inductive Error where
  | ErrInconsistantNumberOfVariable
  deriving DecidableEq

section Ring

variable {F : Type} [CommRing F]

/-- Embedding of `exp0`. -/
def exp0 (_x : F) : F := 1

/-- Embedding of `exp1`. -/
def exp1 (x : F) : F := x

/-- Embedding of `exp2`: `x.Square(&x)`. -/
def exp2 (x : F) : F := x * x

/-- Embedding of `exp3`: `res.Square(&x).Mul(&res, &x)`. -/
def exp3 (x : F) : F := x * x * x

/-- Embedding of `exp4`: `x.Square(&x).Square(&x)`. -/
def exp4 (x : F) : F := x * x * (x * x)

/-- Embedding of `exp5`: `res.Square(&x).Square(&res).Mul(&res, &x)`. -/
def exp5 (x : F) : F := x * x * (x * x) * x

/-- Embedding of `smallExp`; an exponent outside `0..5` gives `fr.Element{}`. -/
def smallExp (x : F) (n : Int) : F :=
  if n = 0 then exp0 x
  else if n = 1 then exp1 x
  else if n = 2 then exp2 x
  else if n = 3 then exp3 x
  else if n = 4 then exp4 x
  else if n = 5 then exp5 x
  else 0

/-- The loop `for i := 0; i < nbVars; i++` of `monomial.evaluate`, from index `i` on; the list
holds `x[i:]`. Above 5 the exponent passed to `Exp` is `big.NewInt(int64(i))`. -/
def monomial.evaluateLoop (m : monomial F) : Nat → List F → F → Option F
  | _, [], res => some res
  | i, xi :: xs, res =>
    match m.exponents[i]? with
    | none => none
    | some e =>
      if e ≤ 5 then monomial.evaluateLoop m (i + 1) xs (res * smallExp xi e)
      else monomial.evaluateLoop m (i + 1) xs (res * xi ^ i)

/-- Embedding of `monomial.evaluate`. -/
def monomial.evaluate (m : monomial F) (x : List F) : Option F :=
  match monomial.evaluateLoop m 0 x 1 with
  | none => none
  | some res => some (res * m.coeff)

/-- The loop of `MultivariatePolynomial.Evaluate` on the monomials still to be added. -/
def evaluateSum (x : List F) : List (monomial F) → F → Option F
  | [], res => some res
  | m :: ms, res =>
    match m.evaluate x with
    | none => none
    | some tmp => evaluateSum x ms (res + tmp)

/-- Embedding of `MultivariatePolynomial.Evaluate`. -/
def Evaluate (m : MultivariatePolynomial F) (x : List F) : Option F :=
  evaluateSum x m 0

/-- The value the doc comment of `monomial` gives it at `x`: `coeff` times the product of the
`x[i]^(exponents[i])`. -/
def monomial.value (m : monomial F) (x : List F) : F :=
  m.coeff * ((List.zipWith (fun xi (e : Int) => xi ^ e.toNat) x m.exponents).prod)

end Ring

/-- The inner loop of `Degree`: `t += m[i].exponents[j]`. -/
def degreeInner : List Int → Int → Int
  | [], t => t
  | e :: es, t => degreeInner es (wrapInt (t + e))

/-- The outer loop of `Degree` on the monomials still to be visited. -/
def degreeLoop {F : Type} : List (monomial F) → Int → Int
  | [], r => r
  | m :: ms, r =>
    let t := degreeInner m.exponents 0
    degreeLoop ms (if t > r then t else r)

/-- Embedding of `MultivariatePolynomial.Degree`; the result is `uint64(r)`. -/
def Degree {F : Type} (m : MultivariatePolynomial F) : Nat :=
  ((degreeLoop m 0) % 2 ^ 64).toNat

/-- The total degree: the maximum over the monomials of the sum of the exponents, 0 when there
is no monomial. -/
def totalDegree {F : Type} (m : MultivariatePolynomial F) : Int :=
  (m.map fun mono => mono.exponents.sum).foldr max 0

/-- Embedding of `MultivariatePolynomial.AddMonomial`: the polynomial `*m` after the call and
the error returned. -/
def AddMonomial {F : Type} (m : MultivariatePolynomial F) (c : F) (e : List Int) :
    MultivariatePolynomial F × Option Error :=
  match m with
  | [] => ([⟨c, e⟩], none)
  | m0 :: _ =>
    if m0.exponents.length ≠ e.length then (m, some Error.ErrInconsistantNumberOfVariable)
    else (m ++ [⟨c, e⟩], none)

/-- The polynomials reachable from the empty one by calls of `AddMonomial`. -/
inductive Reachable {F : Type} : MultivariatePolynomial F → Prop where
  | empty : Reachable []
  | add (m : MultivariatePolynomial F) (c : F) (e : List Int) :
      Reachable m → Reachable (AddMonomial m c e).1

/-! ## Univariate polynomials and their forms -/

/-- The enum `Basis`. -/
inductive Basis where
  | Canonical
  | Lagrange
  | LagrangeCoset
  deriving DecidableEq

/-- The enum `Layout`. -/
inductive Layout where
  | Regular
  | BitReverse
  deriving DecidableEq

/-- The enum `Status`. -/
inductive Status where
  | Locked
  | Unlocked
  deriving DecidableEq

/-- The value of a `Basis` as an integer (`iota`). -/
def Basis.toNat : Basis → Nat
  | Basis.Canonical => 0
  | Basis.Lagrange => 1
  | Basis.LagrangeCoset => 2

/-- The value of a `Layout` as an integer. -/
def Layout.toNat : Layout → Nat
  | Layout.Regular => 0
  | Layout.BitReverse => 1

/-- The value of a `Status` as an integer. -/
def Status.toNat : Status → Nat
  | Status.Locked => 0
  | Status.Unlocked => 1

/-- The struct `Form`. -/
structure Form where
  Basis : Iop.Basis
  Layout : Iop.Layout
  Status : Iop.Status
  deriving DecidableEq

/-- The struct `Polynomial` as `utils.go` uses it, with the `Form` embedded; `Coefficients` is
the address of the backing vector of the slice. -/
structure Polynomial where
  Coefficients : Nat
  Form : Iop.Form
  deriving DecidableEq

/-- The argument `decimation` of the transforms of package `fft`. -/
inductive Decimation where
  | DIT
  | DIF

/-- An `fft.Domain`, a type of package `fft` that is not among the sources: its two in-place
transforms `FFT(a, decimation, coset...)` and `FFTInverse(a, decimation, coset...)`, as the
vector they leave in `a`. -/
structure Domain (F : Type) where
  FFT : List F → Decimation → Bool → List F
  FFTInverse : List F → Decimation → Bool → List F

/-- The memory: the backing vectors of the coefficient slices and the polynomials, by address. -/
structure Memory (F : Type) where
  vectors : List (List F)
  polys : List Polynomial

section Memory

variable {F : Type}

/-- Embedding of `copyPoly`: a vector of the same size is made, the coefficients are copied
into it, and the form is copied. -/
def copyPoly (mem : Memory F) (p : Polynomial) : Option (Memory F × Polynomial) :=
  match mem.vectors[p.Coefficients]? with
  | none => none
  | some v =>
    some ({ mem with vectors := mem.vectors ++ [v] },
      { Coefficients := mem.vectors.length, Form := p.Form })

/-- An in-place transform of the vector at an address. -/
def transform (mem : Memory F) (a : Nat) (f : List F → List F) : Option (Memory F) :=
  match mem.vectors[a]? with
  | none => none
  | some v => some { mem with vectors := mem.vectors.set a (f v) }

/-- The shape of the functions for a locked polynomial: `_p := copyPoly(*p)`, the fields of
`_p` are set, its coefficients are transformed, and `&_p` is returned. -/
def onCopy (mem : Memory F) (p : Nat) (setForm : Form → Form) (f : List F → List F) :
    Option (Memory F × Nat) :=
  match mem.polys[p]? with
  | none => none
  | some P =>
    match copyPoly mem P with
    | none => none
    | some (mem1, _p) =>
      match transform mem1 _p.Coefficients f with
      | none => none
      | some mem2 =>
        some ({ mem2 with polys := mem2.polys ++ [{ _p with Form := setForm _p.Form }] },
          mem2.polys.length)

/-- The shape of the functions for an unlocked polynomial: the fields of `p` are set, its
coefficients are transformed in place, and `p` is returned. -/
def inPlace (mem : Memory F) (p : Nat) (setForm : Form → Form) (f : List F → List F) :
    Option (Memory F × Nat) :=
  match mem.polys[p]? with
  | none => none
  | some P =>
    match transform mem P.Coefficients f with
    | none => none
    | some mem1 =>
      some ({ mem1 with polys := mem1.polys.set p { P with Form := setForm P.Form } }, p)

/-- Embedding of `getShapeID`. -/
def getShapeID (p : Polynomial) : Nat :=
  p.Form.Basis.toNat * 4 + p.Form.Layout.toNat * 2 + p.Form.Status.toNat

/-- Embedding of `toLagrange0` (CANONICAL REGULAR LOCKED). -/
def toLagrange0 (d : Domain F) (mem : Memory F) (p : Nat) : Option (Memory F × Nat) :=
  onCopy mem p (fun _ => ⟨Basis.Lagrange, Layout.BitReverse, Status.Unlocked⟩)
    (fun a => d.FFT a Decimation.DIF false)

/-- Embedding of `toLagrange1` (CANONICAL REGULAR UNLOCKED). -/
def toLagrange1 (d : Domain F) (mem : Memory F) (p : Nat) : Option (Memory F × Nat) :=
  inPlace mem p (fun f => { f with Basis := Basis.Lagrange, Layout := Layout.BitReverse })
    (fun a => d.FFT a Decimation.DIF false)

/-- Embedding of `toLagrange2` (CANONICAL BITREVERSE LOCKED). -/
def toLagrange2 (d : Domain F) (mem : Memory F) (p : Nat) : Option (Memory F × Nat) :=
  onCopy mem p (fun _ => ⟨Basis.Lagrange, Layout.Regular, Status.Unlocked⟩)
    (fun a => d.FFT a Decimation.DIT false)

/-- Embedding of `toLagrange3` (CANONICAL BITREVERSE UNLOCKED). -/
def toLagrange3 (d : Domain F) (mem : Memory F) (p : Nat) : Option (Memory F × Nat) :=
  inPlace mem p (fun f => { f with Basis := Basis.Lagrange, Layout := Layout.Regular })
    (fun a => d.FFT a Decimation.DIT false)

/-- Embedding of `toLagrange4` to `toLagrange7` (LAGRANGE, any layout and status):
`return p`. -/
def toLagrangeId (_d : Domain F) (mem : Memory F) (p : Nat) : Option (Memory F × Nat) :=
  match mem.polys[p]? with
  | none => none
  | some _ => some (mem, p)

/-- Embedding of `toLagrange8` (LAGRANGE_COSET REGULAR LOCKED). -/
def toLagrange8 (d : Domain F) (mem : Memory F) (p : Nat) : Option (Memory F × Nat) :=
  onCopy mem p (fun _ => ⟨Basis.Lagrange, Layout.Regular, Status.Unlocked⟩)
    (fun a => d.FFT (d.FFTInverse a Decimation.DIF true) Decimation.DIT false)

/-- Embedding of `toLagrange9` (LAGRANGE_COSET REGULAR UNLOCKED). -/
def toLagrange9 (d : Domain F) (mem : Memory F) (p : Nat) : Option (Memory F × Nat) :=
  inPlace mem p (fun f => { f with Basis := Basis.Lagrange })
    (fun a => d.FFT (d.FFTInverse a Decimation.DIF true) Decimation.DIT false)

/-- Embedding of `toLagrange10` (LAGRANGE_COSET BITREVERSE LOCKED). -/
def toLagrange10 (d : Domain F) (mem : Memory F) (p : Nat) : Option (Memory F × Nat) :=
  onCopy mem p (fun _ => ⟨Basis.Lagrange, Layout.BitReverse, Status.Unlocked⟩)
    (fun a => d.FFT (d.FFTInverse a Decimation.DIT true) Decimation.DIF false)

/-- Embedding of `toLagrange11` (LAGRANGE_COSET BITREVERSE UNLOCKED). -/
def toLagrange11 (d : Domain F) (mem : Memory F) (p : Nat) : Option (Memory F × Nat) :=
  inPlace mem p (fun _ => ⟨Basis.Lagrange, Layout.BitReverse, Status.Unlocked⟩)
    (fun a => d.FFT (d.FFTInverse a Decimation.DIT true) Decimation.DIF false)

/-- Embedding of `Polynomial.ToLagrange`: the memory after the call and the pointer returned;
`panic("unknown ID")` is `none`. -/
def ToLagrange (d : Domain F) (mem : Memory F) (p : Nat) : Option (Memory F × Nat) :=
  match mem.polys[p]? with
  | none => none
  | some P =>
    match getShapeID P with
    | 0 => toLagrange0 d mem p
    | 1 => toLagrange1 d mem p
    | 2 => toLagrange2 d mem p
    | 3 => toLagrange3 d mem p
    | 4 => toLagrangeId d mem p
    | 5 => toLagrangeId d mem p
    | 6 => toLagrangeId d mem p
    | 7 => toLagrangeId d mem p
    | 8 => toLagrange8 d mem p
    | 9 => toLagrange9 d mem p
    | 10 => toLagrange10 d mem p
    | 11 => toLagrange11 d mem p
    | _ => none

/-- Embedding of `toCanonical0` to `toCanonical3` (CANONICAL, any layout and status):
`return p`. -/
def toCanonicalId (_d : Domain F) (mem : Memory F) (p : Nat) : Option (Memory F × Nat) :=
  match mem.polys[p]? with
  | none => none
  | some _ => some (mem, p)

/-- Embedding of `toCanonical4` (LAGRANGE REGULAR LOCKED). -/
def toCanonical4 (d : Domain F) (mem : Memory F) (p : Nat) : Option (Memory F × Nat) :=
  onCopy mem p (fun _ => ⟨Basis.Canonical, Layout.BitReverse, Status.Unlocked⟩)
    (fun a => d.FFTInverse a Decimation.DIF false)

/-- Embedding of `toCanonical5` (LAGRANGE REGULAR UNLOCKED). -/
def toCanonical5 (d : Domain F) (mem : Memory F) (p : Nat) : Option (Memory F × Nat) :=
  inPlace mem p (fun f => { f with Basis := Basis.Canonical, Layout := Layout.BitReverse })
    (fun a => d.FFTInverse a Decimation.DIF false)

/-- Embedding of `toCanonical6` (LAGRANGE BITREVERSE LOCKED). -/
def toCanonical6 (d : Domain F) (mem : Memory F) (p : Nat) : Option (Memory F × Nat) :=
  onCopy mem p (fun _ => ⟨Basis.Canonical, Layout.Regular, Status.Unlocked⟩)
    (fun a => d.FFTInverse a Decimation.DIT false)

/-- Embedding of `toCanonical7` (LAGRANGE BITREVERSE UNLOCKED). -/
def toCanonical7 (d : Domain F) (mem : Memory F) (p : Nat) : Option (Memory F × Nat) :=
  inPlace mem p (fun f => { f with Basis := Basis.Canonical, Layout := Layout.Regular })
    (fun a => d.FFTInverse a Decimation.DIT false)

/-- Embedding of `toCanonical8` (LAGRANGE_COSET REGULAR LOCKED). -/
def toCanonical8 (d : Domain F) (mem : Memory F) (p : Nat) : Option (Memory F × Nat) :=
  onCopy mem p (fun _ => ⟨Basis.Canonical, Layout.BitReverse, Status.Unlocked⟩)
    (fun a => d.FFTInverse a Decimation.DIF true)

/-- Embedding of `toCanonical9` (LAGRANGE_COSET REGULAR UNLOCKED). -/
def toCanonical9 (d : Domain F) (mem : Memory F) (p : Nat) : Option (Memory F × Nat) :=
  inPlace mem p (fun f => { f with Basis := Basis.Canonical, Layout := Layout.BitReverse })
    (fun a => d.FFTInverse a Decimation.DIF true)

/-- Embedding of `toCanonical10` (LAGRANGE_COSET BITREVERSE LOCKED); the status of the copy is
not set. -/
def toCanonical10 (d : Domain F) (mem : Memory F) (p : Nat) : Option (Memory F × Nat) :=
  onCopy mem p (fun f => { f with Basis := Basis.Canonical, Layout := Layout.Regular })
    (fun a => d.FFTInverse a Decimation.DIT true)

/-- Embedding of `toCanonical11` (LAGRANGE_COSET BITREVERSE UNLOCKED). -/
def toCanonical11 (d : Domain F) (mem : Memory F) (p : Nat) : Option (Memory F × Nat) :=
  inPlace mem p (fun f => { f with Basis := Basis.Canonical, Layout := Layout.Regular })
    (fun a => d.FFTInverse a Decimation.DIT true)

/-- Embedding of `Polynomial.ToCanonical`. -/
def ToCanonical (d : Domain F) (mem : Memory F) (p : Nat) : Option (Memory F × Nat) :=
  match mem.polys[p]? with
  | none => none
  | some P =>
    match getShapeID P with
    | 0 => toCanonicalId d mem p
    | 1 => toCanonicalId d mem p
    | 2 => toCanonicalId d mem p
    | 3 => toCanonicalId d mem p
    | 4 => toCanonical4 d mem p
    | 5 => toCanonical5 d mem p
    | 6 => toCanonical6 d mem p
    | 7 => toCanonical7 d mem p
    | 8 => toCanonical8 d mem p
    | 9 => toCanonical9 d mem p
    | 10 => toCanonical10 d mem p
    | 11 => toCanonical11 d mem p
    | _ => none

/-- A pointer to a polynomial of the memory whose coefficient slice has its backing vector
there. -/
def validPointer (mem : Memory F) (p : Nat) (P : Polynomial) : Prop :=
  mem.polys[p]? = some P ∧ P.Coefficients < mem.vectors.length

/-- The frame of a call on a locked polynomial `P` at address `p`, from memory `mem` to `mem1`
with `q` returned: `p` still holds `P` (same slice, `Basis`, `Layout`, `Status`), the
coefficient vector of `P` and every other vector of `mem` are as before, and either `q` is `p`
and the memory is as before, or `q` is a new polynomial whose coefficients are a new vector. -/
def lockedFrame (mem mem1 : Memory F) (p : Nat) (P : Polynomial) (q : Nat) : Prop :=
  mem1.polys[p]? = some P
    ∧ mem1.vectors[P.Coefficients]? = mem.vectors[P.Coefficients]?
    ∧ (∀ a, a < mem.vectors.length → mem1.vectors[a]? = mem.vectors[a]?)
    ∧ ((q = p ∧ mem1.vectors = mem.vectors ∧ mem1.polys = mem.polys)
      ∨ (q = mem.polys.length ∧ q ≠ p
        ∧ ∃ Q, mem1.polys[q]? = some Q ∧ Q.Coefficients = mem.vectors.length
          ∧ mem1.vectors.length = mem.vectors.length + 1))

end Memory

end Iop

namespace Bw761

/-! ## The reducer `msmReduceChunkG1` -/

section Reduce

variable {G : Type} [AddCommGroup G]

theorem doubleAssignN_eq (n : Nat) (p : G) : doubleAssignN n p = 2 ^ n • p := by
  induction n generalizing p with
  | zero => simp [doubleAssignN]
  | succ n ih =>
    rw [doubleAssignN, ih, pow_succ, mul_smul, two_smul]

theorem weighted_append (c : Nat) (xs ys : List G) :
    weighted c (xs ++ ys) = weighted c xs + 2 ^ (c * xs.length) • weighted c ys := by
  induction xs with
  | nil => simp [weighted]
  | cons x xs ih =>
    show weighted c (x :: (xs ++ ys)) = _
    simp only [weighted, ih, List.length_cons, smul_add, smul_smul, ← pow_add, Nat.mul_succ,
      add_comm (c * xs.length) c, add_assoc]

theorem reduceLoop_eq (c : Int) (rest : List G) (p : G) :
    reduceLoop c rest p
      = weighted c.toNat rest.reverse + 2 ^ (c.toNat * rest.length) • p := by
  induction rest generalizing p with
  | nil => simp [reduceLoop, weighted]
  | cons t rest ih =>
    rw [reduceLoop, ih, doubleAssignN_eq, List.reverse_cons, weighted_append]
    simp only [weighted, List.length_reverse, List.length_cons, smul_add, smul_smul, smul_zero,
      add_zero]
    rw [← pow_add, Nat.mul_succ]
    abel

theorem msmReduceChunkG1_eq_weighted (c : Int) (chChunks : List G) (h : chChunks ≠ []) :
    msmReduceChunkG1 c chChunks = some (weighted c.toNat chChunks) := by
  have hrev : chChunks = chChunks.reverse.reverse := by simp
  unfold msmReduceChunkG1
  cases hr : chChunks.reverse with
  | nil => simp at hr; exact absurd hr h
  | cons t rest =>
    rw [hrev, hr]
    simp only [List.reverse_cons, List.reverse_reverse]
    rw [reduceLoop_eq, weighted_append]
    simp [weighted]

theorem weighted_eq_sum (c : Nat) (xs : List G) :
    weighted c xs = ∑ j in Finset.range xs.length, 2 ^ (c * j) • xs.getD j 0 := by
  induction xs with
  | nil => simp [weighted]
  | cons x xs ih =>
    rw [weighted, List.length_cons, Finset.sum_range_succ', ih, Finset.smul_sum]
    simp only [List.getD_cons_succ, List.getD_cons_zero, Nat.mul_zero, pow_zero, one_smul,
      smul_smul, ← pow_add, Nat.mul_succ]
    rw [add_comm]
    congr 1
    apply Finset.sum_congr rfl
    intro j _
    rw [add_comm c (c * j)]

/-- C2. For every window width `c ≥ 0` and every non-empty sequence of chunk results
`R_0 .. R_{m-1}` (`R_0` least significant), `msmReduceChunkG1` returns the sum over `j` of
`2^(c·j)·R_j`. -/
theorem msmReduceChunkG1_horner (c : Int) (chChunks : List G) (hc : 0 ≤ c)
    (hne : chChunks ≠ []) :
    msmReduceChunkG1 c chChunks
      = some (∑ j in Finset.range chChunks.length, (2 : Int) ^ (c * j).toNat • chChunks.getD j 0) := by
  rw [msmReduceChunkG1_eq_weighted c chChunks hne, weighted_eq_sum]
  congr 1
  apply Finset.sum_congr rfl
  intro j _
  have h1 : (c * (j : Int)).toNat = c.toNat * j := by
    obtain ⟨n, rfl⟩ := Int.eq_ofNat_of_zero_le hc
    rw [← Int.natCast_mul, Int.toNat_natCast, Int.toNat_natCast]
  rw [h1, ← natCast_zsmul]
  congr 1
  exact Nat.cast_pow 2 _

theorem msmReduceChunkG1_horner_witness :
    (0 : Int) ≤ 4 ∧ ([3, 5, 7] : List Int) ≠ [] ∧
      msmReduceChunkG1 4 ([3, 5, 7] : List Int)
        = some (∑ j in Finset.range ([3, 5, 7] : List Int).length,
            (2 : Int) ^ ((4 : Int) * j).toNat • ([3, 5, 7] : List Int).getD j 0) :=
  ⟨by decide, by decide, msmReduceChunkG1_horner 4 [3, 5, 7] (by decide) (by decide)⟩

end Reduce

/-! ## The reduction of the buckets -/

section Buckets

variable {G : Type} [AddCommGroup G]

theorem bucketLoop_eq_addAll [DecidableEq G] (bs : List G) (st : G × G) :
    bucketLoop bs st = bucketLoopAddAll bs st := by
  induction bs generalizing st with
  | nil => rfl
  | cons b bs ih =>
    obtain ⟨runningSum, total⟩ := st
    have hb : (if b ≠ 0 then runningSum + b else runningSum) = runningSum + b := by
      by_cases h : b = 0 <;> simp [h]
    simp only [bucketLoop, bucketLoopAddAll, hb, ih]

theorem bucketLoop_total [DecidableEq G] (bs : List G) (runningSum total : G) :
    (bucketLoop bs (runningSum, total)).2 = total + bs.length • runningSum + descWeighted bs := by
  induction bs generalizing runningSum total with
  | nil => simp [bucketLoop, descWeighted]
  | cons b bs ih =>
    have hb : (if b ≠ 0 then runningSum + b else runningSum) = runningSum + b := by
      by_cases h : b = 0 <;> simp [h]
    simp only [bucketLoop, hb, ih, descWeighted, List.length_cons, succ_nsmul, smul_add]
    abel

theorem descWeighted_append_singleton (bs : List G) (x : G) :
    descWeighted (bs ++ [x]) = descWeighted bs + bs.sum + x := by
  induction bs with
  | nil => simp [descWeighted]
  | cons b bs ih =>
    show descWeighted (b :: (bs ++ [x])) = _
    simp only [descWeighted, ih, List.length_append, List.length_singleton,
      List.sum_cons, succ_nsmul]
    abel

theorem descWeighted_reverse (bs : List G) :
    descWeighted bs.reverse = ascWeighted bs := by
  induction bs with
  | nil => simp [descWeighted, ascWeighted]
  | cons b bs ih =>
    rw [List.reverse_cons, descWeighted_append_singleton, ih, ascWeighted, List.sum_reverse]
    abel

theorem ascWeighted_eq_sum (bs : List G) :
    ascWeighted bs = ∑ k in Finset.range bs.length, (k + 1) • bs.getD k 0 := by
  induction bs with
  | nil => simp [ascWeighted]
  | cons b bs ih =>
    have hs : ∀ l : List G, l.sum = ∑ k in Finset.range l.length, l.getD k 0 := by
      intro l
      induction l with
      | nil => simp
      | cons a as ih2 =>
        rw [List.sum_cons, List.length_cons, Finset.sum_range_succ', ih2]
        simp [add_comm]
    rw [ascWeighted, List.length_cons, Finset.sum_range_succ', ih, hs bs]
    simp only [List.getD_cons_succ, List.getD_cons_zero, zero_add, one_smul]
    have h2 : ∀ k, (k + 1 + 1) • bs.getD k 0 = (k + 1) • bs.getD k 0 + bs.getD k 0 :=
      fun k => succ_nsmul _ _
    simp only [h2, Finset.sum_add_distrib]
    abel

theorem reduceBuckets_eq_ascWeighted [DecidableEq G] (buckets : List G) :
    reduceBuckets buckets = ascWeighted buckets := by
  rw [reduceBuckets, bucketLoop_total, descWeighted_reverse]
  simp

/-- C4. For every bucket array `b` of length `m`, the reduction loop of `msmProcessChunkG1`
(descending `k`, `bucket[k]` added into `runningSum` only when it is not the identity, then
`runningSum` always added into `total`) yields the weighted sum over `k` in `0..m-1` of
`(k+1)·b[k]`, the value the same loop yields when every bucket is added without the test. -/
theorem reduceBuckets_weighted_sum [DecidableEq G] (buckets : List G) :
    reduceBuckets buckets = ∑ k in Finset.range buckets.length, (k + 1) • buckets.getD k 0
      ∧ reduceBuckets buckets = (bucketLoopAddAll buckets.reverse (0, 0)).2 :=
  ⟨by rw [reduceBuckets_eq_ascWeighted, ascWeighted_eq_sum],
    by rw [reduceBuckets, bucketLoop_eq_addAll]⟩

end Buckets

end Bw761

namespace Bw761

/-! ## Machine-word facts -/

theorem subU64_eq (x y : Nat) (hy : y ≤ x) (hx : x < 2 ^ 64) : subU64 x y = x - y := by
  unfold subU64
  have h1 : y % 2 ^ 64 = y := Nat.mod_eq_of_lt (by omega)
  rw [h1]
  omega

theorem shlU64_one (s : Nat) (hs : s < 64) : shlU64 1 s = 2 ^ s := by
  unfold shlU64
  rw [if_pos hs, Nat.shiftLeft_eq, one_mul]
  exact Nat.mod_eq_of_lt (Nat.pow_lt_pow_right (by decide) hs)

theorem msbWindow_eq (c : Nat) (h1 : 1 ≤ c) (h64 : c ≤ 64) :
    shlU64 1 (subU64 c 1) = 2 ^ (c - 1) := by
  rw [subU64_eq c 1 h1 (by omega), shlU64_one _ (by omega)]

theorem windowMask_eq (c : Nat) (h1 : 1 ≤ c) (h64 : c ≤ 64) :
    subU64 (shlU64 1 c) 1 = 2 ^ c - 1 := by
  rcases Nat.lt_or_ge c 64 with h | h
  · rw [shlU64_one c h]
    have hp : 2 ^ c < 2 ^ 64 := Nat.pow_lt_pow_right (by decide) h
    have hp1 : 1 ≤ 2 ^ c := Nat.one_le_two_pow
    exact subU64_eq _ _ hp1 hp
  · have hc : c = 64 := by omega
    subst hc
    decide

theorem testBit_msb_iff (bits k : Nat) (hlt : bits < 2 ^ (k + 1)) :
    bits.testBit k = true ↔ 2 ^ k ≤ bits := by
  rw [Nat.testBit_to_div_mod, decide_eq_true_iff]
  have hpos : 0 < 2 ^ k := Nat.two_pow_pos k
  have h2 : bits / 2 ^ k < 2 := by
    rw [Nat.div_lt_iff_lt_mul hpos, ← pow_succ']
    exact hlt
  have h3 : 1 ≤ bits / 2 ^ k ↔ 2 ^ k ≤ bits := by
    rw [Nat.le_div_iff_mul_le hpos, one_mul]
  rw [← h3]
  generalize bits / 2 ^ k = q at h2
  omega

theorem land_two_pow_eq_zero_iff (bits k : Nat) :
    bits &&& 2 ^ k = 0 ↔ bits.testBit k = false := by
  constructor
  · intro h
    have := Nat.testBit_and bits (2 ^ k) k
    rw [h, Nat.zero_testBit, Nat.testBit_two_pow_self, Bool.and_true] at this
    exact this.symm
  · intro h
    apply Nat.eq_of_testBit_eq
    intro i
    rw [Nat.testBit_and, Nat.zero_testBit, Nat.testBit_two_pow]
    by_cases hik : k = i
    · subst hik; simp [h]
    · simp [hik]

theorem land_notU64_msb (bits k : Nat) (hk : k < 64) (hge : 2 ^ k ≤ bits)
    (hlt : bits < 2 ^ (k + 1)) : bits &&& notU64 (2 ^ k) = bits - 2 ^ k := by
  have hp : 2 ^ k < 2 ^ 64 := Nat.pow_lt_pow_right (by decide) hk
  have hnot : notU64 (2 ^ k) = 2 ^ 64 - (2 ^ k + 1) := by
    unfold notU64
    rw [Nat.mod_eq_of_lt hp]
    omega
  have hmod : bits - 2 ^ k = bits % 2 ^ k := by
    have h1 : bits = 2 ^ k + (bits - 2 ^ k) := by omega
    have h2 : bits - 2 ^ k < 2 ^ k := by
      rw [pow_succ] at hlt
      omega
    conv_rhs => rw [h1]
    rw [Nat.add_mod_left, Nat.mod_eq_of_lt h2]
  rw [hnot, hmod]
  apply Nat.eq_of_testBit_eq
  intro i
  rw [Nat.testBit_and, Nat.testBit_two_pow_sub_succ hp, Nat.testBit_mod_two_pow,
    Nat.testBit_two_pow]
  rcases Nat.lt_trichotomy i k with h | h | h
  · have h64 : i < 64 := by omega
    have hne : ¬ k = i := by omega
    simp [h, h64, hne]
  · subst h
    simp
  · have hfalse : bits.testBit i = false :=
      Nat.testBit_lt_two_pow (lt_of_lt_of_le hlt (Nat.pow_le_pow_right (by decide) h))
    have hnlt : ¬ i < k := by omega
    simp [hfalse, hnlt]

end Bw761

namespace Bw761

/-! ## The selector -/

theorem mkSelector_index (Limbs chunk c : Nat) :
    (mkSelector Limbs chunk c).index = u64 (chunk * c) / 64 := rfl

theorem mkSelector_shift (Limbs chunk c : Nat) :
    (mkSelector Limbs chunk c).shift = u64 (chunk * c) % 64 := by
  show subU64 (u64 (chunk * c)) (u64 (u64 (chunk * c) / 64 * 64)) = _
  have hlt : u64 (chunk * c) < 2 ^ 64 := Nat.mod_lt _ (by decide)
  generalize u64 (chunk * c) = jc at hlt
  have h1 : u64 (jc / 64 * 64) = jc / 64 * 64 := by
    unfold u64
    apply Nat.mod_eq_of_lt
    omega
  rw [h1, subU64_eq _ _ (by omega) hlt]
  omega

theorem mkSelector_mask (Limbs chunk c : Nat) (h1 : 1 ≤ c) (h64 : c ≤ 64) :
    (mkSelector Limbs chunk c).mask
      = ((2 ^ c - 1) <<< (u64 (chunk * c) % 64)) % 2 ^ 64 := by
  show shlU64 (subU64 (shlU64 1 c) 1) (mkSelector Limbs chunk c).shift = _
  rw [mkSelector_shift, windowMask_eq c h1 h64]
  unfold shlU64
  rw [if_pos (Nat.mod_lt _ (by decide))]

theorem mkSelector_multi (Limbs chunk c : Nat) (h64 : c ≤ 64)
    (hm : (mkSelector Limbs chunk c).multiWordSelect = true) :
    u64 (chunk * c) / 64 + 1 < Limbs ∧ 64 - c < u64 (chunk * c) % 64
      ∧ (mkSelector Limbs chunk c).maskHigh = 2 ^ (u64 (chunk * c) % 64 + c - 64) - 1
      ∧ (mkSelector Limbs chunk c).shiftHigh = 64 - u64 (chunk * c) % 64 := by
  have hsub : subU64 64 c = 64 - c := subU64_eq 64 c h64 (by decide)
  have hsh := mkSelector_shift Limbs chunk c
  have hm' : (decide (64 % c ≠ 0) && decide (subU64 64 c < (mkSelector Limbs chunk c).shift)
      && decide ((mkSelector Limbs chunk c).index < Limbs - 1)) = true := hm
  rw [Bool.and_eq_true, Bool.and_eq_true, decide_eq_true_iff, decide_eq_true_iff,
    decide_eq_true_iff, hsub, hsh, mkSelector_index] at hm'
  obtain ⟨⟨_, hgt⟩, hidx⟩ := hm'
  have hlt : u64 (chunk * c) % 64 < 64 := Nat.mod_lt _ (by decide)
  have hnb : subU64 (u64 (chunk * c) % 64) (64 - c) = u64 (chunk * c) % 64 + c - 64 := by
    rw [subU64_eq _ _ (by omega) (by omega)]
    omega
  refine ⟨by omega, hgt, ?_, ?_⟩
  · show (if (mkSelector Limbs chunk c).multiWordSelect = true then
        subU64 (shlU64 1 (subU64 (mkSelector Limbs chunk c).shift (subU64 64 c))) 1 else 0) = _
    rw [if_pos hm, hsub, hsh, hnb]
    have hlt2 : u64 (chunk * c) % 64 + c - 64 < 64 := by omega
    rw [shlU64_one _ hlt2]
    exact subU64_eq _ _ Nat.one_le_two_pow (Nat.pow_lt_pow_right (by decide) hlt2)
  · show (if (mkSelector Limbs chunk c).multiWordSelect = true then
        subU64 c (subU64 (mkSelector Limbs chunk c).shift (subU64 64 c)) else 0) = _
    rw [if_pos hm, hsub, hsh, hnb, subU64_eq _ _ (by omega) (by omega)]
    omega

theorem low_bits_le (w m s : Nat) : (w &&& m) >>> s ≤ m / 2 ^ s := by
  rw [Nat.shiftRight_eq_div_pow]
  exact Nat.div_le_div_right Nat.and_le_right

/-- The digit extracted for a chunk inside the scalar exists and fits in `c` bits. -/
theorem selectBits_lt (Limbs chunk c : Nat) (scalar : Element) (h1 : 1 ≤ c) (h64 : c ≤ 64)
    (hj : chunk * c < 64 * Limbs) (hlen : Limbs ≤ scalar.length) :
    ∃ bits, selectBits (mkSelector Limbs chunk c) scalar = some bits ∧ bits < 2 ^ c := by
  have hjc : u64 (chunk * c) ≤ chunk * c := Nat.mod_le _ _
  have hidx : u64 (chunk * c) / 64 < scalar.length := by omega
  have hshift : u64 (chunk * c) % 64 < 64 := Nat.mod_lt _ (by decide)
  have hpos : 0 < 2 ^ (u64 (chunk * c) % 64) := Nat.two_pow_pos _
  unfold selectBits
  rw [mkSelector_index, List.getElem?_eq_getElem hidx]
  simp only [mkSelector_shift, mkSelector_mask Limbs chunk c h1 h64]
  unfold shrU64
  rw [if_pos hshift]
  have hlo1 := low_bits_le (scalar[u64 (chunk * c) / 64])
    ((2 ^ c - 1) <<< (u64 (chunk * c) % 64) % 2 ^ 64) (u64 (chunk * c) % 64)
  have hlo2 : (2 ^ c - 1) <<< (u64 (chunk * c) % 64) % 2 ^ 64 / 2 ^ (u64 (chunk * c) % 64)
      ≤ 2 ^ c - 1 := by
    apply Nat.div_le_of_le_mul
    rw [Nat.shiftLeft_eq, Nat.mul_comm]
    exact Nat.mod_le _ _
  have hc1 : 1 ≤ 2 ^ c := Nat.one_le_two_pow
  by_cases hm : (mkSelector Limbs chunk c).multiWordSelect = true
  · obtain ⟨hi1, hgt, hmh, hsh⟩ := mkSelector_multi Limbs chunk c h64 hm
    have hidx1 : u64 (chunk * c) / 64 + 1 < scalar.length := by omega
    rw [if_pos hm, List.getElem?_eq_getElem hidx1]
    refine ⟨_, rfl, ?_⟩
    rw [hmh, hsh]
    have hlo3 : (2 ^ c - 1) <<< (u64 (chunk * c) % 64) % 2 ^ 64 / 2 ^ (u64 (chunk * c) % 64)
        < 2 ^ (64 - u64 (chunk * c) % 64) := by
      rw [Nat.div_lt_iff_lt_mul hpos, ← pow_add]
      have : 64 - u64 (chunk * c) % 64 + u64 (chunk * c) % 64 = 64 := by omega
      rw [this]
      exact Nat.mod_lt _ (by decide)
    have hhi : shlU64 (scalar[u64 (chunk * c) / 64 + 1]
          &&& (2 ^ (u64 (chunk * c) % 64 + c - 64) - 1)) (64 - u64 (chunk * c) % 64)
        ≤ (2 ^ (u64 (chunk * c) % 64 + c - 64) - 1) * 2 ^ (64 - u64 (chunk * c) % 64) := by
      unfold shlU64
      split
      · rw [Nat.shiftLeft_eq]
        exact le_trans (Nat.mod_le _ _) (Nat.mul_le_mul_right _ Nat.and_le_right)
      · exact Nat.zero_le _
    have hsplit : 2 ^ c
        = 2 ^ (u64 (chunk * c) % 64 + c - 64) * 2 ^ (64 - u64 (chunk * c) % 64) := by
      rw [← pow_add]
      congr 1
      omega
    have hnb1 : 1 ≤ 2 ^ (u64 (chunk * c) % 64 + c - 64) := Nat.one_le_two_pow
    apply lt_of_le_of_lt (Nat.mod_le _ _)
    have hsum := Nat.add_lt_add_of_lt_of_le (lt_of_le_of_lt hlo1 hlo3) hhi
    have hAB : ∀ A B : Nat, 1 ≤ A → B + (A - 1) * B = A * B := by
      intro A B hA
      obtain ⟨A', rfl⟩ : ∃ A', A = A' + 1 := ⟨A - 1, by omega⟩
      simp [Nat.succ_mul, Nat.add_comm]
    rw [hAB _ _ hnb1, ← hsplit] at hsum
    exact hsum
  · rw [if_neg hm]
    exact ⟨_, rfl, by omega⟩

end Bw761

namespace Bw761

/-! ## The scan of the scalars -/

section Scan

variable {G : Type} [AddCommGroup G]

theorem getD_set_eq (l : List G) (k j : Nat) (x : G) (hk : k < l.length) :
    (l.set k x).getD j 0 = if j = k then x else l.getD j 0 := by
  rw [List.getD_eq_getElem?_getD, List.getD_eq_getElem?_getD, List.getElem?_set]
  by_cases h : j = k
  · subst h
    simp [hk]
  · have h' : ¬ k = j := fun e => h e.symm
    simp [h, h']

theorem length_applyDigit (c : Nat) (buckets : List G) (bits : Nat) (p : G) :
    (applyDigit c buckets bits p).length = buckets.length := by
  unfold applyDigit
  split
  · rfl
  · split <;> simp

theorem signedDigit_eq (c bits : Nat) (h1 : 1 ≤ c) (h64 : c ≤ 64) (hlt : bits < 2 ^ c) :
    signedDigit c bits
      = if bits < 2 ^ (c - 1) then (bits : Int) else -(((bits - 2 ^ (c - 1) : Nat) : Int) + 1) := by
  have hc : c - 1 + 1 = c := by omega
  have hlt' : bits < 2 ^ (c - 1 + 1) := by rw [hc]; exact hlt
  have hiff := testBit_msb_iff bits (c - 1) hlt'
  unfold signedDigit
  by_cases h : bits < 2 ^ (c - 1)
  · have hz : bits &&& 2 ^ (c - 1) = 0 := by
      rw [land_two_pow_eq_zero_iff]
      cases hb : bits.testBit (c - 1) with
      | false => rfl
      | true => exact absurd (hiff.mp hb) (by omega)
    rw [if_pos hz, if_pos h]
  · have hz : ¬ bits &&& 2 ^ (c - 1) = 0 := by
      rw [land_two_pow_eq_zero_iff]
      have := hiff.mpr (by omega)
      simp [this]
    rw [if_neg hz, if_neg h, land_notU64_msb bits (c - 1) (by omega) (by omega) hlt']

/-- One step of the scan loop, all indices in range. -/
theorem scanLoop_cons (s : selector) (c : Nat) (h1 : 1 ≤ c) (h64 : c ≤ 64) (points : List G)
    (i : Nat) (scalar : Element) (scalars : List Element) (buckets : List G) (bits : Nat) (p : G)
    (hb : buckets.length = 2 ^ (c - 1)) (hp : points[i]? = some p)
    (hsel : selectBits s scalar = some bits) (hlt : bits < 2 ^ c) :
    scanLoop s (2 ^ (c - 1)) points i (scalar :: scalars) buckets
      = scanLoop s (2 ^ (c - 1)) points (i + 1) scalars (applyDigit c buckets bits p) := by
  have hc : c - 1 + 1 = c := by omega
  have hlt' : bits < 2 ^ (c - 1 + 1) := by rw [hc]; exact hlt
  have hpow : 2 ^ c = 2 * 2 ^ (c - 1) := by rw [← hc, pow_succ']; simp
  have hp64 : 2 ^ c ≤ 2 ^ 64 := Nat.pow_le_pow_right (by decide) h64
  have hiff := testBit_msb_iff bits (c - 1) hlt'
  rw [scanLoop]
  simp only [hsel, hp]
  unfold applyDigit
  by_cases h0 : bits = 0
  · simp [h0]
  · rw [if_neg h0, if_neg h0]
    by_cases h : bits < 2 ^ (c - 1)
    · have hz : bits &&& 2 ^ (c - 1) = 0 := by
        rw [land_two_pow_eq_zero_iff]
        cases hb' : bits.testBit (c - 1) with
        | false => rfl
        | true => exact absurd (hiff.mp hb') (by omega)
      have hsub : subU64 bits 1 = bits - 1 := subU64_eq bits 1 (by omega) (by omega)
      have hk : bits - 1 < buckets.length := by omega
      rw [if_pos hz, if_pos h, hsub]
      simp [updateBucket, hk]
    · have hz : ¬ bits &&& 2 ^ (c - 1) = 0 := by
        rw [land_two_pow_eq_zero_iff]
        have := hiff.mpr (by omega)
        simp [this]
      have hk : bits - 2 ^ (c - 1) < buckets.length := by omega
      rw [if_neg hz, if_neg h, land_notU64_msb bits (c - 1) (by omega) (by omega) hlt']
      simp [updateBucket, hk]

/-- The scan loop as a fold: with enough points and digits that fit in `c` bits it never panics,
and its buckets are the ones `applyDigit` builds pair by pair. -/
theorem scanLoop_eq_foldl (s : selector) (c : Nat) (h1 : 1 ≤ c) (h64 : c ≤ 64)
    (points : List G) (scalars : List Element) :
    ∀ (i : Nat) (buckets : List G), buckets.length = 2 ^ (c - 1) →
      i + scalars.length ≤ points.length →
      (∀ sc ∈ scalars, ∃ bits, selectBits s sc = some bits ∧ bits < 2 ^ c) →
      scanLoop s (2 ^ (c - 1)) points i scalars buckets
        = some ((scalars.zip (points.drop i)).foldl
            (fun b sp => applyDigit c b ((selectBits s sp.1).getD 0) sp.2) buckets) := by
  induction scalars with
  | nil => intro i buckets _ _ _; simp [scanLoop]
  | cons sc scs ih =>
    intro i buckets hb hlen hsel
    obtain ⟨bits, hbits, hlt⟩ := hsel sc (List.mem_cons_self _ _)
    have hi : i < points.length := by
      simp only [List.length_cons] at hlen
      omega
    have hp : points[i]? = some points[i] := List.getElem?_eq_getElem hi
    rw [scanLoop_cons s c h1 h64 points i sc scs buckets bits points[i] hb hp hbits hlt,
      ih (i + 1) _ (by rw [length_applyDigit]; exact hb)
        (by simp only [List.length_cons] at hlen; omega)
        (fun sc' hsc' => hsel sc' (List.mem_cons_of_mem _ hsc'))]
    rw [List.drop_eq_getElem_cons hi, List.zip_cons_cons, List.foldl_cons, hbits]
    rfl

end Scan

end Bw761

namespace Bw761

section ScanInvariant

variable {G : Type} [AddCommGroup G]

theorem getD_applyDigit (c : Nat) (h1 : 1 ≤ c) (buckets : List G) (bits : Nat) (p : G) (k : Nat)
    (hb : buckets.length = 2 ^ (c - 1)) (hlt : bits < 2 ^ c) (hk : k < 2 ^ (c - 1)) :
    (applyDigit c buckets bits p).getD k 0
      = buckets.getD k 0
        + (if bits.testBit (c - 1) = false ∧ bits = k + 1 then p else 0)
        - (if bits.testBit (c - 1) = true ∧ bits % 2 ^ (c - 1) = k then p else 0) := by
  have hc : c - 1 + 1 = c := by omega
  have hlt' : bits < 2 ^ (c - 1 + 1) := by rw [hc]; exact hlt
  have hpow : 2 ^ c = 2 * 2 ^ (c - 1) := by rw [← hc, pow_succ']; simp
  have hiff := testBit_msb_iff bits (c - 1) hlt'
  unfold applyDigit
  by_cases h0 : bits = 0
  · subst h0
    simp
  · rw [if_neg h0]
    by_cases h : bits < 2 ^ (c - 1)
    · have htb : bits.testBit (c - 1) = false := by
        cases hb' : bits.testBit (c - 1) with
        | false => rfl
        | true => exact absurd (hiff.mp hb') (by omega)
      rw [if_pos h, getD_set_eq _ _ _ _ (by omega), htb,
        if_neg (fun hh : false = true ∧ bits % 2 ^ (c - 1) = k => Bool.false_ne_true hh.1)]
      by_cases hkk : k = bits - 1
      · have hb1 : bits = k + 1 := by omega
        rw [if_pos hkk, if_pos ⟨rfl, hb1⟩, ← hkk, sub_zero]
      · have hb1 : ¬ bits = k + 1 := by omega
        rw [if_neg hkk, if_neg (fun hh => hb1 hh.2), add_zero, sub_zero]
    · have htb : bits.testBit (c - 1) = true := hiff.mpr (by omega)
      have hmod : bits % 2 ^ (c - 1) = bits - 2 ^ (c - 1) := by
        have h2 : bits = 2 ^ (c - 1) + (bits - 2 ^ (c - 1)) := by omega
        conv_lhs => rw [h2]
        rw [Nat.add_mod_left, Nat.mod_eq_of_lt (by omega)]
      rw [if_neg h, getD_set_eq _ _ _ _ (by omega), htb, hmod,
        if_neg (fun hh : true = false ∧ bits = k + 1 => Bool.false_ne_true hh.1.symm), add_zero]
      by_cases hkk : k = bits - 2 ^ (c - 1)
      · rw [if_pos hkk, if_pos ⟨rfl, hkk.symm⟩, ← hkk]
      · rw [if_neg hkk, if_neg (fun hh => hkk hh.2.symm), sub_zero]

theorem sum_filter_cons {α : Type} (q : α → Prop) [DecidablePred q] (f : α → G) (a : α)
    (l : List α) :
    ((List.filter (fun x => decide (q x)) (a :: l)).map f).sum
      = (if q a then f a else 0) + ((List.filter (fun x => decide (q x)) l).map f).sum := by
  rw [List.filter_cons]
  by_cases h : q a
  · simp [h]
  · simp [h]

theorem getD_foldl_applyDigit (c : Nat) (h1 : 1 ≤ c) (digit : Element → Nat) (k : Nat)
    (hk : k < 2 ^ (c - 1)) (pairs : List (Element × G)) :
    ∀ buckets : List G, buckets.length = 2 ^ (c - 1) →
      (∀ sp ∈ pairs, digit sp.1 < 2 ^ c) →
      (pairs.foldl (fun b sp => applyDigit c b (digit sp.1) sp.2) buckets).getD k 0
        = buckets.getD k 0
          + ((pairs.filter fun sp =>
              decide ((digit sp.1).testBit (c - 1) = false ∧ digit sp.1 = k + 1)).map
                Prod.snd).sum
          - ((pairs.filter fun sp =>
              decide ((digit sp.1).testBit (c - 1) = true ∧ digit sp.1 % 2 ^ (c - 1) = k)).map
                Prod.snd).sum := by
  induction pairs with
  | nil => intro buckets _ _; simp
  | cons sp pairs ih =>
    intro buckets hb hlt
    rw [List.foldl_cons, ih _ (by rw [length_applyDigit]; exact hb)
      (fun sp' h' => hlt sp' (List.mem_cons_of_mem _ h')),
      getD_applyDigit c h1 buckets _ _ k hb (hlt sp (List.mem_cons_self _ _)) hk]
    rw [sum_filter_cons
        (fun sp : Element × G => (digit sp.1).testBit (c - 1) = false ∧ digit sp.1 = k + 1)
        Prod.snd,
      sum_filter_cons
        (fun sp : Element × G =>
          (digit sp.1).testBit (c - 1) = true ∧ digit sp.1 % 2 ^ (c - 1) = k)
        Prod.snd]
    abel

theorem ascWeighted_set (l : List G) (k : Nat) (d : G) (hk : k < l.length) :
    ascWeighted (l.set k (l.getD k 0 + d)) = ascWeighted l + (k + 1) • d := by
  rw [ascWeighted_eq_sum, ascWeighted_eq_sum, List.length_set]
  have h : ∀ j ∈ Finset.range l.length,
      (j + 1) • (l.set k (l.getD k 0 + d)).getD j 0
        = (j + 1) • l.getD j 0 + (if k = j then (j + 1) • d else 0) := by
    intro j _
    rw [getD_set_eq _ _ _ _ hk]
    by_cases hjk : j = k
    · subst hjk
      simp [smul_add]
    · have : ¬ k = j := fun e => hjk e.symm
      simp [hjk, this]
  rw [Finset.sum_congr rfl h, Finset.sum_add_distrib, Finset.sum_ite_eq]
  simp [hk]

theorem ascWeighted_applyDigit (c : Nat) (h1 : 1 ≤ c) (h64 : c ≤ 64) (buckets : List G)
    (bits : Nat) (p : G) (hb : buckets.length = 2 ^ (c - 1)) (hlt : bits < 2 ^ c) :
    ascWeighted (applyDigit c buckets bits p) = ascWeighted buckets + signedDigit c bits • p := by
  have hc : c - 1 + 1 = c := by omega
  have hpow : 2 ^ c = 2 * 2 ^ (c - 1) := by rw [← hc, pow_succ']; simp
  rw [signedDigit_eq c bits h1 h64 hlt]
  unfold applyDigit
  by_cases h0 : bits = 0
  · subst h0
    simp
  · rw [if_neg h0]
    by_cases h : bits < 2 ^ (c - 1)
    · rw [if_pos h, if_pos h, ascWeighted_set _ _ _ (by omega), natCast_zsmul]
      congr 2
      omega
    · rw [if_neg h, if_neg h, sub_eq_add_neg, ascWeighted_set _ _ _ (by omega), neg_smul,
        smul_neg]
      congr 2
      rw [← natCast_zsmul]
      congr 1

theorem ascWeighted_foldl_applyDigit (c : Nat) (h1 : 1 ≤ c) (h64 : c ≤ 64)
    (digit : Element → Nat) (pairs : List (Element × G)) :
    ∀ buckets : List G, buckets.length = 2 ^ (c - 1) →
      (∀ sp ∈ pairs, digit sp.1 < 2 ^ c) →
      ascWeighted (pairs.foldl (fun b sp => applyDigit c b (digit sp.1) sp.2) buckets)
        = ascWeighted buckets + (pairs.map fun sp => signedDigit c (digit sp.1) • sp.2).sum := by
  induction pairs with
  | nil => intro buckets _ _; simp
  | cons sp pairs ih =>
    intro buckets hb hlt
    rw [List.foldl_cons, ih _ (by rw [length_applyDigit]; exact hb)
      (fun sp' h' => hlt sp' (List.mem_cons_of_mem _ h')),
      ascWeighted_applyDigit c h1 h64 buckets _ _ hb (hlt sp (List.mem_cons_self _ _)),
      List.map_cons, List.sum_cons, add_assoc]

theorem ascWeighted_zeros (bs : List G) (h : ∀ b ∈ bs, b = 0) : ascWeighted bs = 0 := by
  induction bs with
  | nil => rfl
  | cons b bs ih =>
    have hb : b = 0 := h b (List.mem_cons_self _ _)
    have hbs : ∀ x ∈ bs, x = 0 := fun x hx => h x (List.mem_cons_of_mem _ hx)
    have hsum : bs.sum = 0 := List.sum_eq_zero hbs
    rw [ascWeighted, ih hbs, hb, hsum]
    simp

end ScanInvariant

end Bw761

namespace Bw761

/-! ## The chunk result and the paths `msmCX` -/

section Chunk

variable {G : Type} [AddCommGroup G]

theorem digitAt_lt (Limbs chunk c : Nat) (scalar : Element) (h1 : 1 ≤ c) (h64 : c ≤ 64)
    (hj : chunk * c < 64 * Limbs) (hlen : Limbs ≤ scalar.length) :
    digitAt Limbs c chunk scalar < 2 ^ c := by
  obtain ⟨bits, hbits, hlt⟩ := selectBits_lt Limbs chunk c scalar h1 h64 hj hlen
  unfold digitAt
  rw [hbits]
  exact hlt

theorem scanBuckets_eq_foldl (Limbs chunk c : Nat) (buckets points : List G)
    (scalars : List Element) (h1 : 1 ≤ c) (h64 : c ≤ 64) (hb : buckets.length = 2 ^ (c - 1))
    (hj : chunk * c < 64 * Limbs) (hs : ∀ sc ∈ scalars, Limbs ≤ sc.length)
    (hp : scalars.length ≤ points.length) :
    scanBuckets Limbs chunk buckets c points scalars
      = some ((scalars.zip points).foldl
          (fun b sp => applyDigit c b (digitAt Limbs c chunk sp.1) sp.2)
          (buckets.map fun _ => 0)) := by
  unfold scanBuckets
  rw [if_neg (by omega), msbWindow_eq c h1 h64,
    scanLoop_eq_foldl (mkSelector Limbs chunk c) c h1 h64 points scalars 0 _
      (by rw [List.length_map]; exact hb) (by omega)
      (fun sc hsc => selectBits_lt Limbs chunk c sc h1 h64 hj (hs sc hsc))]
  rfl

/-- C3. After the scan loop of `msmProcessChunkG1` for chunk `j`, over buckets set to the
identity, bucket `k` (for every `k` in `0..2^(c-1)-1`) is the sum of the points whose digit has
the sign bit `2^(c-1)` clear and equals `k+1`, minus the sum of the points whose digit has the
sign bit set and low bits `k`; a point whose digit is 0 is in neither sum. -/
theorem scanBuckets_invariant (Limbs chunk c : Nat) (buckets points : List G)
    (scalars : List Element) (h1 : 1 ≤ c) (h64 : c ≤ 64) (hb : buckets.length = 2 ^ (c - 1))
    (hj : chunk * c < 64 * Limbs) (hs : ∀ sc ∈ scalars, Limbs ≤ sc.length)
    (hp : scalars.length ≤ points.length) :
    ∃ b, scanBuckets Limbs chunk buckets c points scalars = some b ∧ b.length = 2 ^ (c - 1) ∧
      ∀ k, k < 2 ^ (c - 1) →
        b.getD k 0
          = (((scalars.zip points).filter fun sp =>
                decide ((digitAt Limbs c chunk sp.1).testBit (c - 1) = false
                  ∧ digitAt Limbs c chunk sp.1 = k + 1)).map Prod.snd).sum
            - (((scalars.zip points).filter fun sp =>
                decide ((digitAt Limbs c chunk sp.1).testBit (c - 1) = true
                  ∧ digitAt Limbs c chunk sp.1 % 2 ^ (c - 1) = k)).map Prod.snd).sum := by
  have hdig : ∀ sp ∈ scalars.zip points, digitAt Limbs c chunk sp.1 < 2 ^ c := by
    intro sp hsp
    obtain ⟨sc, p⟩ := sp
    exact digitAt_lt Limbs chunk c sc h1 h64 hj (hs sc (List.of_mem_zip hsp).1)
  have hlen0 : (buckets.map fun _ => (0 : G)).length = 2 ^ (c - 1) := by
    rw [List.length_map]; exact hb
  refine ⟨_, scanBuckets_eq_foldl Limbs chunk c buckets points scalars h1 h64 hb hj hs hp, ?_, ?_⟩
  · have hl : ∀ (pairs : List (Element × G)) (b : List G),
        (pairs.foldl (fun b sp => applyDigit c b (digitAt Limbs c chunk sp.1) sp.2) b).length
          = b.length := by
      intro pairs
      induction pairs with
      | nil => intro b; rfl
      | cons sp pairs ih => intro b; rw [List.foldl_cons, ih, length_applyDigit]
    rw [hl, hlen0]
  · intro k hk
    rw [getD_foldl_applyDigit c h1 (digitAt Limbs c chunk) k hk _ _ hlen0 hdig]
    have hz : (buckets.map fun _ => (0 : G)).getD k 0 = 0 := by
      rw [List.getD_eq_getElem?_getD, List.getElem?_map]
      cases buckets[k]? <;> rfl
    rw [hz, zero_add]

theorem scanBuckets_invariant_witness :
    (1 : Nat) ≤ 4 ∧ 4 ≤ 64 ∧ ([0, 0, 0, 0, 0, 0, 0, 0] : List Int).length = 2 ^ (4 - 1)
      ∧ 0 * 4 < 64 * 1 ∧ (∀ sc ∈ ([[3], [11], [3]] : List Element), 1 ≤ sc.length)
      ∧ ([[3], [11], [3]] : List Element).length ≤ ([5, 7, 9] : List Int).length
      ∧ ∃ b, scanBuckets 1 0 ([0, 0, 0, 0, 0, 0, 0, 0] : List Int) 4 [5, 7, 9] [[3], [11], [3]]
            = some b ∧ b.length = 2 ^ (4 - 1) ∧
          ∀ k, k < 2 ^ (4 - 1) →
            b.getD k 0
              = (((([[3], [11], [3]] : List Element).zip ([5, 7, 9] : List Int)).filter fun sp =>
                    decide ((digitAt 1 4 0 sp.1).testBit (4 - 1) = false
                      ∧ digitAt 1 4 0 sp.1 = k + 1)).map Prod.snd).sum
                - (((([[3], [11], [3]] : List Element).zip ([5, 7, 9] : List Int)).filter fun sp =>
                    decide ((digitAt 1 4 0 sp.1).testBit (4 - 1) = true
                      ∧ digitAt 1 4 0 sp.1 % 2 ^ (4 - 1) = k)).map Prod.snd).sum :=
  ⟨by decide, by decide, by decide, by decide, by decide, by decide,
    scanBuckets_invariant 1 0 4 [0, 0, 0, 0, 0, 0, 0, 0] [5, 7, 9] [[3], [11], [3]]
      (by decide) (by decide) (by decide) (by decide) (by decide) (by decide)⟩

/-- The value a chunk sends: the sum over the scanned pairs of the signed digit times the
point. -/
theorem msmProcessChunkG1_eq [DecidableEq G] (Limbs chunk c : Nat) (buckets points : List G)
    (scalars : List Element) (h1 : 1 ≤ c) (h64 : c ≤ 64) (hb : buckets.length = 2 ^ (c - 1))
    (hj : chunk * c < 64 * Limbs) (hs : ∀ sc ∈ scalars, Limbs ≤ sc.length)
    (hp : scalars.length ≤ points.length) :
    msmProcessChunkG1 Limbs chunk buckets c points scalars
      = some ((scalars.zip points).map fun sp =>
          signedDigit c (digitAt Limbs c chunk sp.1) • sp.2).sum := by
  have hdig : ∀ sp ∈ scalars.zip points, digitAt Limbs c chunk sp.1 < 2 ^ c := by
    intro sp hsp
    obtain ⟨sc, p⟩ := sp
    exact digitAt_lt Limbs chunk c sc h1 h64 hj (hs sc (List.of_mem_zip hsp).1)
  have hlen0 : (buckets.map fun _ => (0 : G)).length = 2 ^ (c - 1) := by
    rw [List.length_map]; exact hb
  unfold msmProcessChunkG1
  rw [scanBuckets_eq_foldl Limbs chunk c buckets points scalars h1 h64 hb hj hs hp]
  simp only
  rw [reduceBuckets_eq_ascWeighted,
    ascWeighted_foldl_applyDigit c h1 h64 (digitAt Limbs c chunk) _ _ hlen0 hdig,
    ascWeighted_zeros _ (by simp), zero_add]

end Chunk

end Bw761

namespace Bw761

theorem recvAll_map {G α : Type} (l : List α) (g : α → Option G) (f : α → G)
    (h : ∀ j ∈ l, g j = some (f j)) : recvAll (l.map g) = some (l.map f) := by
  induction l with
  | nil => rfl
  | cons a l ih =>
    rw [List.map_cons, h a (List.mem_cons_self _ _), recvAll,
      ih (fun j hj => h j (List.mem_cons_of_mem _ hj))]
    rfl

section Paths

variable {G : Type} [AddCommGroup G]

theorem length_wordsOf (n v : Nat) : (wordsOf n v).length = n := by
  induction n generalizing v with
  | zero => rfl
  | succ n ih => rw [wordsOf, List.length_cons, ih]

theorem ceil_mul_ge (a c : Nat) (h1 : 1 ≤ c) : a ≤ (a + c - 1) / c * c := by
  have h := Nat.div_add_mod (a + c - 1) c
  have hlt := Nat.mod_lt (a + c - 1) (show c > 0 by omega)
  rw [Nat.mul_comm] at h
  omega

theorem length_partitionScalar (Limbs c : Nat) (scalar : Element) (h1 : 1 ≤ c) :
    Limbs ≤ (partitionScalar Limbs c scalar).length := by
  unfold partitionScalar partitionChunks
  simp only [length_wordsOf]
  have h := ceil_mul_ge (Limbs * 64) c h1
  rw [Nat.le_div_iff_mul_le (by decide), Nat.add_mul]
  omega

theorem weighted_map_zero {α : Type} (c : Nat) (l : List α) :
    weighted c (l.map fun _ => (0 : G)) = 0 := by
  induction l with
  | nil => rfl
  | cons a l ih => rw [List.map_cons, weighted, ih]; simp

theorem weighted_map_add {α : Type} (c : Nat) (l : List α) (f g : α → G) :
    weighted c (l.map fun j => f j + g j) = weighted c (l.map f) + weighted c (l.map g) := by
  induction l with
  | nil => simp [weighted]
  | cons a l ih =>
    simp only [List.map_cons, weighted, ih, smul_add]
    abel

theorem weighted_map_zsmul {α : Type} (c : Nat) (l : List α) (a : α → Int) (p : G) :
    weighted c (l.map fun j => a j • p) = weighted c (l.map a) • p := by
  induction l with
  | nil => simp [weighted]
  | cons x l ih =>
    simp only [List.map_cons, weighted, ih, add_smul]
    congr 1
    exact (smul_assoc _ _ _).symm

/-- Exchange of the sum over the chunks with the sum over the pairs. -/
theorem weighted_map_sum {α : Type} (c : Nat) (l : List α) (a : α → Element → Int)
    (pairs : List (Element × G)) :
    weighted c (l.map fun j => (pairs.map fun sp => a j sp.1 • sp.2).sum)
      = (pairs.map fun sp => weighted c (l.map fun j => a j sp.1) • sp.2).sum := by
  induction pairs with
  | nil =>
    simp only [List.map_nil, List.sum_nil]
    exact weighted_map_zero c l
  | cons sp pairs ih =>
    simp only [List.map_cons, List.sum_cons]
    rw [weighted_map_add, ih, weighted_map_zsmul]

/-- The result of a path of width `c`: every scalar counts with the integer its stored form
reads back as. -/
theorem msmCX_eq [DecidableEq G] (c Limbs : Nat) (points : List G) (scalars : List Element)
    (h1 : 1 ≤ c) (h64 : c ≤ 64) (hL : 1 ≤ Limbs) (hp : scalars.length ≤ points.length) :
    msmCX c Limbs points scalars
      = some ((scalars.zip points).map fun sp =>
          readback Limbs c (partitionScalar Limbs c sp.1) • sp.2).sum := by
  have hlenP : (PartitionScalars Limbs scalars c).length ≤ points.length := by
    unfold PartitionScalars
    rw [List.length_map]; exact hp
  have hsP : ∀ sc ∈ PartitionScalars Limbs scalars c, Limbs ≤ sc.length := by
    intro sc hsc
    unfold PartitionScalars at hsc
    obtain ⟨s, _, rfl⟩ := List.mem_map.mp hsc
    exact length_partitionScalar Limbs c s h1
  have hrep : (List.replicate (1 <<< (c - 1)) (0 : G)).length = 2 ^ (c - 1) := by
    rw [List.length_replicate, Nat.shiftLeft_eq, one_mul]
  have hchunks : ∀ j ∈ List.range (Limbs * 64 / c),
      msmProcessChunkG1 Limbs j (List.replicate (1 <<< (c - 1)) (0 : G)) c points
          (PartitionScalars Limbs scalars c)
        = some (((PartitionScalars Limbs scalars c).zip points).map fun sp =>
            signedDigit c (digitAt Limbs c j sp.1) • sp.2).sum := by
    intro j hj
    rw [List.mem_range] at hj
    have hjc : j * c < 64 * Limbs := by
      have h2 : (j + 1) * c ≤ Limbs * 64 := by
        rw [← Nat.le_div_iff_mul_le (by omega)]
        omega
      rw [Nat.add_mul] at h2
      omega
    exact msmProcessChunkG1_eq Limbs j c _ points _ h1 h64 hrep hjc hsP hlenP
  have hne : (List.range (Limbs * 64 / c)).map (fun j =>
      (((PartitionScalars Limbs scalars c).zip points).map fun sp =>
        signedDigit c (digitAt Limbs c j sp.1) • sp.2).sum) ≠ [] := by
    intro h
    have h0 := congrArg List.length h
    rw [List.length_map, List.length_range, List.length_nil] at h0
    have : 1 ≤ Limbs * 64 / c := by
      rw [Nat.le_div_iff_mul_le (by omega)]
      omega
    omega
  unfold msmCX chChunks nbChunks
  rw [recvAll_map _ _ _ hchunks]
  simp only
  rw [msmReduceChunkG1_eq_weighted _ _ hne, Int.toNat_natCast,
    weighted_map_sum c _ (fun j sc => signedDigit c (digitAt Limbs c j sc))]
  unfold PartitionScalars
  rw [List.zip_map_left, List.map_map]
  rfl

/-- The result of a path of width `c` run on any replacement scalars of at least `Limbs` words:
every point counts with the integer its stored scalar reads back as. -/
theorem msmCXOn_eq [DecidableEq G] (c Limbs : Nat) (points : List G) (pScalars : List Element)
    (h1 : 1 ≤ c) (h64 : c ≤ 64) (hL : 1 ≤ Limbs) (hlenP : pScalars.length ≤ points.length)
    (hsP : ∀ sc ∈ pScalars, Limbs ≤ sc.length) :
    msmCXOn c Limbs points pScalars
      = some ((pScalars.zip points).map fun sp => readback Limbs c sp.1 • sp.2).sum := by
  have hrep : (List.replicate (1 <<< (c - 1)) (0 : G)).length = 2 ^ (c - 1) := by
    rw [List.length_replicate, Nat.shiftLeft_eq, one_mul]
  have hchunks : ∀ j ∈ List.range (Limbs * 64 / c),
      msmProcessChunkG1 Limbs j (List.replicate (1 <<< (c - 1)) (0 : G)) c points pScalars
        = some ((pScalars.zip points).map fun sp =>
            signedDigit c (digitAt Limbs c j sp.1) • sp.2).sum := by
    intro j hj
    rw [List.mem_range] at hj
    have hjc : j * c < 64 * Limbs := by
      have h2 : (j + 1) * c ≤ Limbs * 64 := by
        rw [← Nat.le_div_iff_mul_le (by omega)]
        omega
      rw [Nat.add_mul] at h2
      omega
    exact msmProcessChunkG1_eq Limbs j c _ points _ h1 h64 hrep hjc hsP hlenP
  have hne : (List.range (Limbs * 64 / c)).map (fun j =>
      ((pScalars.zip points).map fun sp =>
        signedDigit c (digitAt Limbs c j sp.1) • sp.2).sum) ≠ [] := by
    intro h
    have h0 := congrArg List.length h
    rw [List.length_map, List.length_range, List.length_nil] at h0
    have : 1 ≤ Limbs * 64 / c := by
      rw [Nat.le_div_iff_mul_le (by omega)]
      omega
    omega
  unfold msmCXOn nbChunks
  rw [recvAll_map _ _ _ hchunks]
  simp only
  rw [msmReduceChunkG1_eq_weighted _ _ hne, Int.toNat_natCast,
    weighted_map_sum c _ (fun j sc => signedDigit c (digitAt Limbs c j sc))]
  rfl

end Paths

end Bw761

namespace Bw761

/-! ## The choice of the window width -/

theorem roundToFloat64_exact (a : Nat) (h : a < 2 ^ 53) : roundToFloat64 a = a := by
  have he : a.log2 - 52 = 0 := by
    by_cases h0 : a = 0
    · subst h0
      have : Nat.log2 0 = 0 := by simp [Nat.log2]
      omega
    · have := (Nat.log2_lt h0).mpr h
      omega
  unfold roundToFloat64
  simp only [he, pow_zero, Nat.div_one, Nat.mod_one, Nat.mul_zero, Nat.mul_one]
  simp

/-- The rounding error is at most `a / 2^53`. -/
theorem roundToFloat64_error (a : Nat) :
    2 ^ 53 * roundToFloat64 a ≤ (2 ^ 53 + 1) * a
      ∧ (2 ^ 53 - 1) * a ≤ 2 ^ 53 * roundToFloat64 a := by
  rcases Nat.lt_or_ge a (2 ^ 53) with h | h
  · rw [roundToFloat64_exact a h]
    constructor
    · exact Nat.mul_le_mul_right _ (by omega)
    · exact Nat.mul_le_mul_right _ (by omega)
  · have h0 : a ≠ 0 := by
      intro e; rw [e] at h; exact absurd h (by decide)
    have hlog : 53 ≤ a.log2 := (Nat.le_log2 h0).mpr h
    have hle : 2 ^ a.log2 ≤ a := Nat.log2_self_le h0
    have hsplit : 2 ^ a.log2 = 2 ^ 52 * 2 ^ (a.log2 - 52) := by
      rw [← pow_add]; congr 1; omega
    have hdm := Nat.div_add_mod a (2 ^ (a.log2 - 52))
    have hmod := Nat.mod_lt a (Nat.two_pow_pos (a.log2 - 52))
    unfold roundToFloat64
    simp only
    generalize 2 ^ (a.log2 - 52) = E at *
    generalize a / E = q at *
    generalize a % E = r at *
    rw [Nat.mul_comm E q] at hdm
    split
    · rw [Nat.add_mul]
      generalize q * E = qE at *
      constructor <;> omega
    · generalize q * E = qE at *
      constructor <;> omega

theorem log2_two_mul (a : Nat) (h0 : a ≠ 0) : (2 * a).log2 = a.log2 + 1 := by
  have h20 : 2 * a ≠ 0 := by omega
  apply Nat.le_antisymm
  · have : (2 * a).log2 < a.log2 + 2 := by
      rw [Nat.log2_lt h20, pow_succ']
      have := @Nat.lt_log2_self a
      omega
    omega
  · rw [Nat.le_log2 h20, pow_succ']
    have := Nat.log2_self_le h0
    omega

theorem roundToFloat64_two_mul (a : Nat) : roundToFloat64 (2 * a) = 2 * roundToFloat64 a := by
  by_cases h0 : a = 0
  · subst h0
    rw [Nat.mul_zero, roundToFloat64_exact 0 (by decide)]
  rcases Nat.lt_or_ge a (2 ^ 52) with h | h
  · rw [roundToFloat64_exact a (by omega), roundToFloat64_exact (2 * a) (by omega)]
  · have hlog : 52 ≤ a.log2 := (Nat.le_log2 h0).mpr h
    have he : (2 * a).log2 - 52 = (a.log2 - 52) + 1 := by
      rw [log2_two_mul a h0]; omega
    unfold roundToFloat64
    simp only [he]
    have hq : 2 * a / 2 ^ (a.log2 - 52 + 1) = a / 2 ^ (a.log2 - 52) := by
      rw [pow_succ', Nat.mul_div_mul_left _ _ (by decide)]
    have hr : 2 * a % 2 ^ (a.log2 - 52 + 1) = 2 * (a % 2 ^ (a.log2 - 52)) := by
      rw [pow_succ', Nat.mul_mod_mul_left]
    rw [hq, hr]
    have hc : (2 ^ (a.log2 - 52 + 1) < 2 * (2 * (a % 2 ^ (a.log2 - 52)))
          ∨ (2 * (2 * (a % 2 ^ (a.log2 - 52))) = 2 ^ (a.log2 - 52 + 1)
              ∧ a / 2 ^ (a.log2 - 52) % 2 = 1))
        ↔ (2 ^ (a.log2 - 52) < 2 * (a % 2 ^ (a.log2 - 52))
          ∨ (2 * (a % 2 ^ (a.log2 - 52)) = 2 ^ (a.log2 - 52)
              ∧ a / 2 ^ (a.log2 - 52) % 2 = 1)) := by
      rw [pow_succ']
      constructor <;> (intro hh; omega)
    simp only [hc]
    rw [pow_succ']
    ring

theorem float64OfInt_natCast (a : Nat) : float64OfInt (a : Int) = (roundToFloat64 a : ℚ) := by
  unfold float64OfInt
  rw [if_neg (by omega), Int.natAbs_ofNat]

theorem float64OfInt_candidate (c : Nat) (hc : c ∈ implementedCs) :
    float64OfInt (c : Int) = (c : ℚ) := by
  rw [float64OfInt_natCast, roundToFloat64_exact]
  simp only [implementedCs, List.mem_cons, List.mem_singleton, List.not_mem_nil, or_false] at hc
  rcases hc with rfl | rfl | rfl <;> decide

end Bw761

namespace Bw761

theorem wrapInt64_eq (x : Int) (h0 : 0 ≤ x) (h : x < 2 ^ 63) : wrapInt64 x = x := by
  unfold wrapInt64
  rw [Int.emod_eq_of_lt (by omega) (by omega)]
  omega

theorem ccOf_aux (Limbs n k : Nat) (hk : k ≤ 2 ^ 15) (hL : 1 ≤ Limbs)
    (hfit : Limbs * 64 * (n + 2 ^ 15) < 2 ^ 63) :
    wrapInt64 ((Limbs : Int) * 64 * wrapInt64 ((n : Int) + wrapInt64 ((k : Nat) : Int)))
      = ((Limbs * 64 * (n + k) : Nat) : Int) := by
  have hpos : 0 < Limbs * 64 := by omega
  have hn : n + 2 ^ 15 ≤ Limbs * 64 * (n + 2 ^ 15) := Nat.le_mul_of_pos_left _ hpos
  have hmono : Limbs * 64 * (n + k) ≤ Limbs * 64 * (n + 2 ^ 15) :=
    Nat.mul_le_mul_left _ (by omega)
  have hk1 : wrapInt64 ((k : Nat) : Int) = (k : Int) := wrapInt64_eq _ (by omega) (by omega)
  have hnk : wrapInt64 ((n : Int) + (k : Int)) = (n : Int) + (k : Int) :=
    wrapInt64_eq _ (by omega) (by omega)
  have hcast : (Limbs : Int) * 64 * ((n : Int) + (k : Int))
      = ((Limbs * 64 * (n + k) : Nat) : Int) := by
    push_cast; ring
  rw [hk1, hnk, hcast]
  exact wrapInt64_eq _ (by omega) (by omega)

/-- The product `cc` when it fits an `int`. -/
theorem ccOf_eq (Limbs n c : Nat) (hc : c ∈ implementedCs) (hL : 1 ≤ Limbs)
    (hfit : Limbs * 64 * (n + 2 ^ 15) < 2 ^ 63) :
    ccOf Limbs n c = ((Limbs * 64 * (n + 2 ^ (c - 1)) : Nat) : Int) := by
  simp only [implementedCs, List.mem_cons, List.mem_singleton, List.not_mem_nil, or_false] at hc
  unfold ccOf
  rcases hc with rfl | rfl | rfl
  · exact ccOf_aux Limbs n 8 (by decide) hL hfit
  · exact ccOf_aux Limbs n 128 (by decide) hL hfit
  · exact ccOf_aux Limbs n 32768 (by decide) hL hfit

theorem costOf_eq (Limbs n c : Nat) (hc : c ∈ implementedCs) (hL : 1 ≤ Limbs)
    (hfit : Limbs * 64 * (n + 2 ^ 15) < 2 ^ 63) :
    costOf Limbs n c = (roundToFloat64 (Limbs * 64 * (n + 2 ^ (c - 1))) : ℚ) / (c : ℚ) := by
  unfold costOf
  rw [ccOf_eq Limbs n c hc hL hfit, float64OfInt_natCast, float64OfInt_candidate c hc]

theorem cost_lt_8_4 (a b : Nat) : ((a : ℚ) / ((8 : Nat) : ℚ) < (b : ℚ) / ((4 : Nat) : ℚ)) ↔ a < 2 * b := by
  rw [div_lt_div_iff₀ (by norm_num) (by norm_num)]
  constructor
  · intro h
    have h' : ((a * 4 : Nat) : ℚ) < ((b * 8 : Nat) : ℚ) := by push_cast; exact h
    have := Nat.cast_lt.mp h'
    omega
  · intro h
    have h' : ((a * 4 : Nat) : ℚ) < ((b * 8 : Nat) : ℚ) := Nat.cast_lt.mpr (by omega)
    push_cast at h'
    exact h'

theorem cost_lt_16_4 (a b : Nat) : ((a : ℚ) / ((16 : Nat) : ℚ) < (b : ℚ) / ((4 : Nat) : ℚ)) ↔ a < 4 * b := by
  rw [div_lt_div_iff₀ (by norm_num) (by norm_num)]
  constructor
  · intro h
    have h' : ((a * 4 : Nat) : ℚ) < ((b * 16 : Nat) : ℚ) := by push_cast; exact h
    have := Nat.cast_lt.mp h'
    omega
  · intro h
    have h' : ((a * 4 : Nat) : ℚ) < ((b * 16 : Nat) : ℚ) := Nat.cast_lt.mpr (by omega)
    push_cast at h'
    exact h'

theorem cost_lt_16_8 (a b : Nat) : ((a : ℚ) / ((16 : Nat) : ℚ) < (b : ℚ) / ((8 : Nat) : ℚ)) ↔ a < 2 * b := by
  rw [div_lt_div_iff₀ (by norm_num) (by norm_num)]
  constructor
  · intro h
    have h' : ((a * 8 : Nat) : ℚ) < ((b * 16 : Nat) : ℚ) := by push_cast; exact h
    have := Nat.cast_lt.mp h'
    omega
  · intro h
    have h' : ((a * 8 : Nat) : ℚ) < ((b * 16 : Nat) : ℚ) := Nat.cast_lt.mpr (by omega)
    push_cast at h'
    exact h'

/-- The first candidate always beats `math.MaxFloat64`, whatever the `int` product is. -/
theorem costOf_4_lt_max (Limbs n : Nat) : costOf Limbs n 4 < maxFloat64 := by
  have hfl : ∀ x : Int, -(2 ^ 63) ≤ x → x < 2 ^ 63 → float64OfInt x ≤ 2 ^ 64 := by
    intro x hlo hhi
    have habs : x.natAbs ≤ 2 ^ 63 := by omega
    have herr := (roundToFloat64_error x.natAbs).1
    have hr : roundToFloat64 x.natAbs ≤ 2 ^ 64 := by omega
    have hq : (roundToFloat64 x.natAbs : ℚ) ≤ 2 ^ 64 := by exact_mod_cast hr
    have hq0 : (0 : ℚ) ≤ (roundToFloat64 x.natAbs : ℚ) := Nat.cast_nonneg _
    unfold float64OfInt
    split
    · have : (0 : ℚ) ≤ 2 ^ 64 := by norm_num
      linarith
    · exact hq
  have hw : ∀ x : Int, -(2 ^ 63) ≤ wrapInt64 x ∧ wrapInt64 x < 2 ^ 63 := by
    intro x
    unfold wrapInt64
    have h1 := Int.emod_nonneg (x + 2 ^ 63) (show (2 : Int) ^ 64 ≠ 0 by norm_num)
    have h2 := Int.emod_lt_of_pos (x + 2 ^ 63) (show (0 : Int) < 2 ^ 64 by norm_num)
    constructor <;> omega
  unfold costOf
  rw [float64OfInt_candidate 4 (by decide)]
  have h := hfl (ccOf Limbs n 4) (hw _).1 (hw _).2
  have h4 : float64OfInt (ccOf Limbs n 4) / ((4 : Nat) : ℚ) ≤ 2 ^ 64 / 4 := by
    push_cast
    exact div_le_div_of_nonneg_right h (by norm_num)
  refine lt_of_le_of_lt h4 ?_
  unfold maxFloat64
  norm_num

end Bw761

namespace Bw761

/-- The value of `bestC` from the three comparisons of the loop. -/
theorem bestC_unfold (Limbs n : Nat) :
    bestC Limbs n
      = if costOf Limbs n 8 < costOf Limbs n 4 then
          (if costOf Limbs n 16 < costOf Limbs n 8 then 16 else 8)
        else (if costOf Limbs n 16 < costOf Limbs n 4 then 16 else 4) := by
  have h4 := costOf_4_lt_max Limbs n
  unfold bestC
  rw [selectC, implementedCs, selectLoop, if_pos h4, selectLoop]
  by_cases h1 : costOf Limbs n 8 < costOf Limbs n 4
  · rw [if_pos h1, if_pos h1, selectLoop]
    by_cases h2 : costOf Limbs n 16 < costOf Limbs n 8
    · rw [if_pos h2, if_pos h2, selectLoop]
    · rw [if_neg h2, if_neg h2, selectLoop]
  · rw [if_neg h1, if_neg h1, selectLoop]
    by_cases h2 : costOf Limbs n 16 < costOf Limbs n 4
    · rw [if_pos h2, if_pos h2, selectLoop]
    · rw [if_neg h2, if_neg h2, selectLoop]

/-- The thresholds of the choice, when the largest product fits an `int` and converts exactly. -/
theorem bestC_eq (Limbs n : Nat) (hL : 1 ≤ Limbs) (hfit : Limbs * 64 * (n + 2 ^ 15) < 2 ^ 63)
    (hexact : roundToFloat64 (Limbs * 64 * (n + 2 ^ 15)) = Limbs * 64 * (n + 2 ^ 15)) :
    bestC Limbs n = if n ≤ 112 then 4 else if n ≤ 32512 then 8 else 16 := by
  have hA : 1 ≤ Limbs * 64 := by omega
  have h84 : costOf Limbs n 8 < costOf Limbs n 4
      ↔ roundToFloat64 (Limbs * 64 * (n + 2 ^ (8 - 1)))
          < 2 * roundToFloat64 (Limbs * 64 * (n + 2 ^ (4 - 1))) := by
    rw [costOf_eq Limbs n 8 (by decide) hL hfit, costOf_eq Limbs n 4 (by decide) hL hfit]
    exact cost_lt_8_4 _ _
  have h164 : costOf Limbs n 16 < costOf Limbs n 4
      ↔ roundToFloat64 (Limbs * 64 * (n + 2 ^ (16 - 1)))
          < 4 * roundToFloat64 (Limbs * 64 * (n + 2 ^ (4 - 1))) := by
    rw [costOf_eq Limbs n 16 (by decide) hL hfit, costOf_eq Limbs n 4 (by decide) hL hfit]
    exact cost_lt_16_4 _ _
  have h168 : costOf Limbs n 16 < costOf Limbs n 8
      ↔ roundToFloat64 (Limbs * 64 * (n + 2 ^ (16 - 1)))
          < 2 * roundToFloat64 (Limbs * 64 * (n + 2 ^ (8 - 1))) := by
    rw [costOf_eq Limbs n 16 (by decide) hL hfit, costOf_eq Limbs n 8 (by decide) hL hfit]
    exact cost_lt_16_8 _ _
  have e4 := roundToFloat64_error (Limbs * 64 * (n + 2 ^ (4 - 1)))
  have e8 := roundToFloat64_error (Limbs * 64 * (n + 2 ^ (8 - 1)))
  have s4 := roundToFloat64_two_mul (Limbs * 64 * (n + 2 ^ (4 - 1)))
  have s8 := roundToFloat64_two_mul (Limbs * 64 * (n + 2 ^ (8 - 1)))
  have x4 : Limbs * 64 * (n + 2 ^ (4 - 1)) = Limbs * 64 * n + 8 * (Limbs * 64) := by
    rw [Nat.mul_add, Nat.mul_comm (Limbs * 64) (2 ^ (4 - 1))]; norm_num
  have x8 : Limbs * 64 * (n + 2 ^ (8 - 1)) = Limbs * 64 * n + 128 * (Limbs * 64) := by
    rw [Nat.mul_add, Nat.mul_comm (Limbs * 64) (2 ^ (8 - 1))]; norm_num
  have x16 : Limbs * 64 * (n + 2 ^ (16 - 1)) = Limbs * 64 * n + 32768 * (Limbs * 64) := by
    rw [Nat.mul_add, Nat.mul_comm (Limbs * 64) (2 ^ (16 - 1))]; norm_num
  have hex16 : roundToFloat64 (Limbs * 64 * (n + 2 ^ (16 - 1)))
      = Limbs * 64 * (n + 2 ^ (16 - 1)) := hexact
  have hle : ∀ k, n ≤ k → Limbs * 64 * n ≤ k * (Limbs * 64) := by
    intro k hk
    rw [Nat.mul_comm k]; exact Nat.mul_le_mul_left _ hk
  have hge : ∀ k, k ≤ n → k * (Limbs * 64) ≤ Limbs * 64 * n := by
    intro k hk
    rw [Nat.mul_comm k]; exact Nat.mul_le_mul_left _ hk
  rw [hex16] at h164 h168
  rw [x16] at hex16 h164 h168
  rw [x4] at e4 s4 h84 h164
  rw [x8] at e8 s8 h84 h168
  rw [bestC_unfold]
  clear hexact hfit x4 x8 x16
  generalize Limbs * 64 * n = u at *
  generalize Limbs * 64 = A at *
  generalize hR4 : roundToFloat64 (u + 8 * A) = R4 at *
  generalize hR8 : roundToFloat64 (u + 128 * A) = R8 at *
  rcases Nat.lt_or_ge n 112 with h | h
  · have h1 := hle 111 (by omega)
    rw [if_neg (fun hh => absurd (h84.mp hh) (by omega)),
      if_neg (fun hh => absurd (h164.mp hh) (by omega)), if_pos (by omega)]
  · rcases Nat.eq_or_lt_of_le h with h | h
    · have h1 := hle 112 (by omega)
      have h2 := hge 112 (by omega)
      have h3 : 2 * (u + 8 * A) = u + 128 * A := by omega
      rw [h3, hR8] at s4
      rw [if_neg (fun hh => absurd (h84.mp hh) (by omega)),
        if_neg (fun hh => absurd (h164.mp hh) (by omega)), if_pos (by omega)]
    · rcases Nat.lt_or_ge n 32512 with h' | h'
      · have h1 := hle 32511 (by omega)
        have h2 := hge 113 (by omega)
        rw [if_pos (h84.mpr (by omega)),
          if_neg (fun hh => absurd (h168.mp hh) (by omega)), if_neg (by omega),
          if_pos (by omega)]
      · rcases Nat.eq_or_lt_of_le h' with h' | h'
        · have h1 := hle 32512 (by omega)
          have h2 := hge 32512 (by omega)
          have h3 : 2 * (u + 128 * A) = u + 32768 * A := by omega
          rw [h3, hex16] at s8
          rw [if_pos (h84.mpr (by omega)),
            if_neg (fun hh => absurd (h168.mp hh) (by omega)), if_neg (by omega),
            if_pos (by omega)]
        · have h2 := hge 32513 (by omega)
          rw [if_pos (h84.mpr (by omega)), if_pos (h168.mpr (by omega)), if_neg (by omega),
            if_neg (by omega)]

end Bw761

namespace Bw761

theorem bestC_cases (Limbs n : Nat) :
    bestC Limbs n = 4 ∨ bestC Limbs n = 8 ∨ bestC Limbs n = 16 := by
  rw [bestC_unfold]
  split
  · split
    · exact Or.inr (Or.inr rfl)
    · exact Or.inr (Or.inl rfl)
  · split
    · exact Or.inr (Or.inr rfl)
    · exact Or.inl rfl

theorem costOf_zero_limbs (n c : Nat) : costOf 0 n c = 0 := by
  unfold costOf ccOf
  have h0 : wrapInt64 (((0 : Nat) : Int) * 64
      * wrapInt64 ((n : Int) + wrapInt64 ((1 <<< (c - 1) : Nat) : Int))) = ((0 : Nat) : Int) := by
    rw [Nat.cast_zero, zero_mul, zero_mul]
    decide
  rw [h0, float64OfInt_natCast, roundToFloat64_exact 0 (by decide)]
  simp

theorem exactCost_4 (Limbs n : Nat) : exactCost Limbs n 4 = 16 * Limbs * (n + 8) := by
  unfold exactCost
  norm_num
  ring

theorem exactCost_8 (Limbs n : Nat) : exactCost Limbs n 8 = 8 * Limbs * (n + 128) := by
  unfold exactCost
  norm_num
  ring

theorem exactCost_16 (Limbs n : Nat) : exactCost Limbs n 16 = 4 * Limbs * (n + 32768) := by
  unfold exactCost
  norm_num
  ring

/-- C5. For every number of points `n` for which `64·fr.Limbs·(n+2^15)` fits an `int` and is
exactly representable as a `float64`, the width chosen by `MultiExp` is a candidate `c*` of
`{4, 8, 16}` with `cost(c*) ≤ cost(c)` for every candidate `c`, for the exact cost
`64·fr.Limbs·(n + 2^(c-1)) / c`; on a tie the smaller width is chosen. -/
theorem bestC_minimises_cost (Limbs n : Nat)
    (hfit : ((Limbs * 64 * (n + 2 ^ 15) : Nat) : Int) < 2 ^ 63)
    (hexact : float64OfInt ((Limbs * 64 * (n + 2 ^ 15) : Nat) : Int)
      = ((Limbs * 64 * (n + 2 ^ 15) : Nat) : ℚ)) :
    bestC Limbs n ∈ implementedCs
      ∧ ∀ c ∈ implementedCs,
          exactCost Limbs n (bestC Limbs n) ≤ exactCost Limbs n c
            ∧ (exactCost Limbs n c = exactCost Limbs n (bestC Limbs n) → bestC Limbs n ≤ c) := by
  rcases Nat.eq_zero_or_pos Limbs with h0 | hpos
  · subst h0
    have hb : bestC 0 n = 4 := by
      rw [bestC_unfold, costOf_zero_limbs, costOf_zero_limbs, costOf_zero_limbs]
      simp
    rw [hb]
    refine ⟨by decide, ?_⟩
    intro c hc
    simp only [implementedCs, List.mem_cons, List.mem_singleton, List.not_mem_nil,
      or_false] at hc
    rcases hc with rfl | rfl | rfl <;> simp [exactCost]
  · have hfit' : Limbs * 64 * (n + 2 ^ 15) < 2 ^ 63 := by exact_mod_cast hfit
    have hexact' : roundToFloat64 (Limbs * 64 * (n + 2 ^ 15)) = Limbs * 64 * (n + 2 ^ 15) := by
      rw [float64OfInt_natCast] at hexact
      exact_mod_cast hexact
    have hb := bestC_eq Limbs n hpos hfit' hexact'
    have hL : (1 : ℚ) ≤ (Limbs : ℚ) := by exact_mod_cast hpos
    have hn0 : (0 : ℚ) ≤ (n : ℚ) := Nat.cast_nonneg n
    rcases Nat.lt_or_ge 112 n with h1 | h1
    · rcases Nat.lt_or_ge 32512 n with h2 | h2
      · rw [if_neg (by omega), if_neg (by omega)] at hb
        have hn : (32513 : ℚ) ≤ (n : ℚ) := by exact_mod_cast h2
        rw [hb]
        refine ⟨by decide, ?_⟩
        intro c hc
        simp only [implementedCs, List.mem_cons, List.mem_singleton, List.not_mem_nil,
          or_false] at hc
        have hp : (0 : ℚ) ≤ ((Limbs : ℚ) - 1) * ((n : ℚ) - 32513) :=
          mul_nonneg (by linarith) (by linarith)
        rcases hc with rfl | rfl | rfl
        · rw [exactCost_4, exactCost_16]
          constructor
          · nlinarith
          · intro he; exfalso; nlinarith
        · rw [exactCost_8, exactCost_16]
          constructor
          · nlinarith
          · intro he; exfalso; nlinarith
        · exact ⟨le_refl _, fun _ => le_refl _⟩
      · rw [if_neg (by omega), if_pos h2] at hb
        have hn : (113 : ℚ) ≤ (n : ℚ) := by exact_mod_cast h1
        have hn' : (n : ℚ) ≤ 32512 := by exact_mod_cast h2
        rw [hb]
        refine ⟨by decide, ?_⟩
        intro c hc
        simp only [implementedCs, List.mem_cons, List.mem_singleton, List.not_mem_nil,
          or_false] at hc
        have hp : (0 : ℚ) ≤ ((Limbs : ℚ) - 1) * ((n : ℚ) - 113) :=
          mul_nonneg (by linarith) (by linarith)
        have hp' : (0 : ℚ) ≤ ((Limbs : ℚ) - 1) * (32512 - (n : ℚ)) :=
          mul_nonneg (by linarith) (by linarith)
        rcases hc with rfl | rfl | rfl
        · rw [exactCost_4, exactCost_8]
          constructor
          · nlinarith
          · intro he; exfalso; nlinarith
        · exact ⟨le_refl _, fun _ => le_refl _⟩
        · rw [exactCost_8, exactCost_16]
          constructor
          · nlinarith
          · intro _; decide
    · rw [if_pos h1] at hb
      have hn' : (n : ℚ) ≤ 112 := by exact_mod_cast h1
      rw [hb]
      refine ⟨by decide, ?_⟩
      intro c hc
      simp only [implementedCs, List.mem_cons, List.mem_singleton, List.not_mem_nil,
        or_false] at hc
      have hp' : (0 : ℚ) ≤ ((Limbs : ℚ) - 1) * (112 - (n : ℚ)) :=
        mul_nonneg (by linarith) (by linarith)
      have hp2 : (0 : ℚ) ≤ ((Limbs : ℚ) - 1) * (n : ℚ) := mul_nonneg (by linarith) hn0
      rcases hc with rfl | rfl | rfl
      · exact ⟨le_refl _, fun _ => le_refl _⟩
      · rw [exactCost_4, exactCost_8]
        constructor
        · nlinarith
        · intro _; decide
      · rw [exactCost_4, exactCost_16]
        constructor
        · nlinarith
        · intro _; decide

theorem bestC_minimises_cost_witness :
    (((6 * 64 * (1000 + 2 ^ 15) : Nat) : Int) < 2 ^ 63)
      ∧ float64OfInt ((6 * 64 * (1000 + 2 ^ 15) : Nat) : Int)
          = ((6 * 64 * (1000 + 2 ^ 15) : Nat) : ℚ)
      ∧ (bestC 6 1000 ∈ implementedCs
        ∧ ∀ c ∈ implementedCs,
            exactCost 6 1000 (bestC 6 1000) ≤ exactCost 6 1000 c
              ∧ (exactCost 6 1000 c = exactCost 6 1000 (bestC 6 1000) → bestC 6 1000 ≤ c)) :=
  ⟨by decide,
    by rw [float64OfInt_natCast, roundToFloat64_exact _ (by decide)],
    bestC_minimises_cost 6 1000 (by decide)
      (by rw [float64OfInt_natCast, roundToFloat64_exact _ (by decide)])⟩

/-- C10. For every input size `n = len(points)`, the width `bestC` computed by the selection loop
of `MultiExp` is one of 4, 8, 16: the `default` branch of the switch is never taken. -/
theorem bestC_implemented (Limbs n : Nat) :
    bestC Limbs n = 4 ∨ bestC Limbs n = 8 ∨ bestC Limbs n = 16 :=
  bestC_cases Limbs n

end Bw761

namespace Bw761

/-! ## The partition of the scalars -/

theorem getElem?_wordsOf (n v i : Nat) (h : i < n) :
    (wordsOf n v)[i]? = some (v / 2 ^ (64 * i) % 2 ^ 64) := by
  induction n generalizing v i with
  | zero => omega
  | succ n ih =>
    cases i with
    | zero => simp [wordsOf]
    | succ i =>
      rw [wordsOf, List.getElem?_cons_succ, ih _ _ (by omega), Nat.div_div_eq_div_mul,
        Nat.mul_succ, pow_add, Nat.mul_comm (2 ^ (64 * i))]

theorem mkSelector_single (Limbs chunk c : Nat) (hdiv : 64 % c = 0) :
    (mkSelector Limbs chunk c).multiWordSelect = false := by
  show (decide (64 % c ≠ 0) && decide (subU64 64 c < (mkSelector Limbs chunk c).shift)
      && decide ((mkSelector Limbs chunk c).index < Limbs - 1)) = false
  simp [hdiv]

theorem shift_add_le (chunk c : Nat) (hdiv : 64 % c = 0) :
    chunk * c % 64 + c ≤ 64 := by
  obtain ⟨m, hm⟩ := Nat.dvd_of_mod_eq_zero hdiv
  have hmpos : 0 < m := by
    rcases Nat.eq_zero_or_pos m with h | h
    · rw [h] at hm; omega
    · exact h
  rw [hm, Nat.mul_comm chunk c, Nat.mul_mod_mul_left]
  have hlt : chunk % m < m := Nat.mod_lt _ hmpos
  calc c * (chunk % m) + c = c * (chunk % m + 1) := by ring
    _ ≤ c * m := Nat.mul_le_mul_left _ hlt

/-- For a width that divides 64 the scan reads the `c` bits of the chunk. -/
theorem selectBits_wordsOf (Limbs chunk c N T : Nat) (h1 : 1 ≤ c) (hdiv : 64 % c = 0)
    (hnw : chunk * c < 2 ^ 64) (hidx : chunk * c / 64 < N) :
    selectBits (mkSelector Limbs chunk c) (wordsOf N T)
      = some (T / 2 ^ (chunk * c) % 2 ^ c) := by
  have h64 : c ≤ 64 := Nat.le_of_dvd (by decide) (Nat.dvd_of_mod_eq_zero hdiv)
  have hu : u64 (chunk * c) = chunk * c := Nat.mod_eq_of_lt hnw
  have hsc := shift_add_le chunk c hdiv
  have hshift : chunk * c % 64 < 64 := Nat.mod_lt _ (by decide)
  unfold selectBits
  rw [mkSelector_index, hu, getElem?_wordsOf N T _ hidx]
  simp only [mkSelector_single Limbs chunk c hdiv, mkSelector_shift,
    mkSelector_mask Limbs chunk c h1 h64, hu]
  unfold shrU64
  rw [if_pos hshift]
  simp only [Bool.false_eq_true, if_false, Option.some.injEq]
  have hmask : (2 ^ c - 1) <<< (chunk * c % 64) % 2 ^ 64 = (2 ^ c - 1) <<< (chunk * c % 64) := by
    apply Nat.mod_eq_of_lt
    rw [Nat.shiftLeft_eq]
    have hp : 2 ^ c * 2 ^ (chunk * c % 64) ≤ 2 ^ 64 := by
      rw [← pow_add]
      exact Nat.pow_le_pow_right (by decide) (by omega)
    have hpos : 0 < 2 ^ (chunk * c % 64) := Nat.two_pow_pos _
    have h2 : (2 ^ c - 1) * 2 ^ (chunk * c % 64) < 2 ^ c * 2 ^ (chunk * c % 64) :=
      Nat.mul_lt_mul_of_pos_right (by have := @Nat.one_le_two_pow c; omega) hpos
    omega
  rw [hmask]
  have hjc : 64 * (chunk * c / 64) + chunk * c % 64 = chunk * c := Nat.div_add_mod _ _
  apply Nat.eq_of_testBit_eq
  intro i
  rw [Nat.testBit_shiftRight, Nat.testBit_and, Nat.testBit_shiftLeft, Nat.testBit_mod_two_pow,
    Nat.testBit_mod_two_pow, Nat.testBit_two_pow_sub_one, ← Nat.shiftRight_eq_div_pow,
    ← Nat.shiftRight_eq_div_pow, Nat.testBit_shiftRight, Nat.testBit_shiftRight]
  have e1 : chunk * c % 64 + i - chunk * c % 64 = i := by omega
  have e2 : 64 * (chunk * c / 64) + (chunk * c % 64 + i) = chunk * c + i := by omega
  rw [e1, e2]
  by_cases hi : i < c
  · have h3 : chunk * c % 64 + i < 64 := by omega
    have h4 : chunk * c % 64 + i ≥ chunk * c % 64 := by omega
    simp [hi, h3, h4]
  · simp [hi]

theorem packDigits_digit (c : Nat) (ds : List Nat) (hall : ∀ d ∈ ds, d < 2 ^ c) (j : Nat) :
    packDigits c ds / 2 ^ (c * j) % 2 ^ c = ds.getD j 0 := by
  induction ds generalizing j with
  | nil => simp [packDigits]
  | cons d ds ih =>
    have hd : d < 2 ^ c := hall d (List.mem_cons_self _ _)
    have hds : ∀ x ∈ ds, x < 2 ^ c := fun x hx => hall x (List.mem_cons_of_mem _ hx)
    have hpos : 0 < 2 ^ c := Nat.two_pow_pos c
    cases j with
    | zero =>
      rw [packDigits, Nat.mul_zero, pow_zero, Nat.div_one, Nat.add_mul_mod_self_left,
        Nat.mod_eq_of_lt hd]
      rfl
    | succ j =>
      rw [packDigits, Nat.mul_succ, Nat.add_comm (c * j) c, pow_add, ← Nat.div_div_eq_div_mul,
        Nat.add_mul_div_left _ _ hpos, Nat.div_eq_of_lt hd, Nat.zero_add, ih hds j]
      rfl

theorem length_signedDigits (c nbChunks s carry : Nat) :
    (signedDigits c nbChunks s carry).length = nbChunks + 1 := by
  induction nbChunks generalizing s carry with
  | zero => rfl
  | succ n ih =>
    rw [signedDigits]
    split <;> rw [List.length_cons, ih]

theorem signedDigits_range (c : Nat) (h2 : 2 ≤ c) (nbChunks s carry : Nat) (hcarry : carry ≤ 1) :
    ∀ d ∈ signedDigits c nbChunks s carry, -(2 ^ (c - 1) : Int) ≤ d ∧ d < 2 ^ (c - 1) := by
  have hpowN : 2 ^ c = 2 * 2 ^ (c - 1) := by
    rw [← pow_succ']; congr 1; omega
  have hpowM : 2 ^ (c - 1) = 2 * 2 ^ (c - 2) := by
    rw [← pow_succ']; congr 1; omega
  have hp2 : 1 ≤ 2 ^ (c - 2) := Nat.one_le_two_pow
  have hcast : ((2 ^ (c - 1) : Nat) : Int) = 2 ^ (c - 1) := by push_cast; rfl
  have hcastc : ((2 ^ c : Nat) : Int) = 2 ^ c := by push_cast; rfl
  induction nbChunks generalizing s carry with
  | zero =>
    intro d hd
    rw [signedDigits, List.mem_singleton] at hd
    subst hd
    rw [← hcast]
    constructor <;> omega
  | succ n ih =>
    intro d hd
    have hmod : s % 2 ^ c < 2 ^ c := Nat.mod_lt _ (Nat.two_pow_pos c)
    rw [signedDigits] at hd
    split at hd
    · rename_i hge
      rcases List.mem_cons.mp hd with rfl | hd'
      · rw [← hcast, ← hcastc]
        constructor <;> omega
      · exact ih _ 1 (le_refl _) d hd'
    · rename_i hge
      rcases List.mem_cons.mp hd with rfl | hd'
      · rw [← hcast]
        constructor <;> omega
      · exact ih _ 0 (by omega) d hd'

theorem weighted_int_cons (c : Nat) (x : Int) (xs : List Int) :
    weighted c (x :: xs) = x + 2 ^ c * weighted c xs := by
  rw [weighted, nsmul_eq_mul]
  push_cast
  rfl

/-- The signed digits stand for the scalar: their base-`2^c` value is the value of the windows
they come from, plus the carry that entered. -/
theorem weighted_signedDigits (c nbChunks s carry : Nat) :
    weighted c (signedDigits c nbChunks s carry)
      = ((s % 2 ^ (c * nbChunks) + carry : Nat) : Int) := by
  induction nbChunks generalizing s carry with
  | zero =>
    rw [signedDigits, weighted, weighted]
    simp [Nat.mod_one]
  | succ n ih =>
    have hsplit : s % 2 ^ (c * (n + 1)) = s % 2 ^ c + 2 ^ c * (s / 2 ^ c % 2 ^ (c * n)) := by
      rw [Nat.mul_succ, Nat.add_comm (c * n) c, pow_add, Nat.mod_mul]
    rw [signedDigits]
    split
    · rw [weighted_int_cons, ih, hsplit]
      push_cast
      ring
    · rw [weighted_int_cons, ih, hsplit]
      push_cast
      ring

theorem encodeDigit_lt (c : Nat) (h1 : 1 ≤ c) (d : Int) (hlo : -(2 ^ (c - 1) : Int) ≤ d)
    (hhi : d < 2 ^ (c - 1)) : encodeDigit c d < 2 ^ c := by
  have hpowN : 2 ^ c = 2 * 2 ^ (c - 1) := by
    rw [← pow_succ']; congr 1; omega
  have hp1 : 1 ≤ 2 ^ (c - 1) := Nat.one_le_two_pow
  have hcast : ((2 ^ (c - 1) : Nat) : Int) = 2 ^ (c - 1) := by push_cast; rfl
  unfold encodeDigit
  split
  · rw [hpowN]
    omega
  · rw [hpowN]
    omega

/-- Every digit of `[-2^(c-1), 2^(c-1) - 1]` is read back by the accumulator from its stored
field. -/
theorem signedDigit_encodeDigit (c : Nat) (h1 : 1 ≤ c) (h64 : c ≤ 64) (d : Int)
    (hlo : -(2 ^ (c - 1) : Int) ≤ d) (hhi : d < 2 ^ (c - 1)) :
    signedDigit c (encodeDigit c d) = d := by
  have hcast : ((2 ^ (c - 1) : Nat) : Int) = 2 ^ (c - 1) := by push_cast; rfl
  rw [signedDigit_eq c _ h1 h64 (encodeDigit_lt c h1 d hlo hhi)]
  unfold encodeDigit
  by_cases h0 : 0 ≤ d
  · rw [if_pos h0]
    have hlt : d.toNat < 2 ^ (c - 1) := by omega
    rw [if_pos hlt]
    omega
  · rw [if_neg h0]
    have hge : ¬ 2 ^ (c - 1) + (-d - 1).toNat < 2 ^ (c - 1) := by omega
    rw [if_neg hge]
    omega

theorem map_range_getD {α : Type} (l : List α) (a : α) :
    (List.range l.length).map (fun j => l.getD j a) = l := by
  induction l with
  | nil => rfl
  | cons x xs ih =>
    rw [List.length_cons, List.range_succ_eq_map, List.map_cons, List.map_map]
    simp only [List.getD_cons_zero]
    congr 1

end Bw761

namespace Bw761

theorem implementedCs_facts (c : Nat) (hc : c ∈ implementedCs) :
    2 ≤ c ∧ c ≤ 64 ∧ 64 % c = 0 := by
  simp only [implementedCs, List.mem_cons, List.mem_singleton, List.not_mem_nil, or_false] at hc
  rcases hc with rfl | rfl | rfl <;> decide

theorem partitionChunks_eq (Limbs c : Nat) (hc : c ∈ implementedCs) :
    partitionChunks Limbs c = Limbs * 64 / c ∧ partitionChunks Limbs c * c = Limbs * 64 := by
  obtain ⟨h2, _, hdiv⟩ := implementedCs_facts c hc
  obtain ⟨m, hm⟩ := Nat.dvd_of_mod_eq_zero hdiv
  have hcpos : 0 < c := by omega
  have e1 : Limbs * 64 = c * (Limbs * m) := by rw [hm]; ring
  have e2 : partitionChunks Limbs c = Limbs * m := by
    unfold partitionChunks
    rw [e1, Nat.add_sub_assoc (by omega), Nat.mul_add_div hcpos,
      Nat.div_eq_of_lt (by omega), Nat.add_zero]
  constructor
  · rw [e2, e1, Nat.mul_div_cancel_left _ hcpos]
  · rw [e2, e1, Nat.mul_comm]

theorem value_lt (Limbs : Nat) (scalar : Element) (hwf : scalar.wellFormed Limbs) :
    scalar.value < 2 ^ (64 * Limbs) := by
  obtain ⟨hlen, hw⟩ := hwf
  subst hlen
  induction scalar with
  | nil => simp [Element.value]
  | cons w ws ih =>
    have hw0 : w < 2 ^ 64 := hw w (List.mem_cons_self _ _)
    have hws := ih (fun x hx => hw x (List.mem_cons_of_mem _ hx))
    rw [Element.value, List.length_cons, Nat.mul_succ, pow_add]
    have h1 : 2 ^ 64 * (Element.value ws + 1) ≤ 2 ^ 64 * 2 ^ (64 * ws.length) :=
      Nat.mul_le_mul_left _ hws
    rw [Nat.mul_comm (2 ^ (64 * ws.length))]
    rw [Nat.mul_add] at h1
    omega

theorem digitsOf_range (Limbs c : Nat) (hc : c ∈ implementedCs) (scalar : Element) :
    ∀ d ∈ digitsOf Limbs c scalar, -(2 ^ (c - 1) : Int) ≤ d ∧ d < 2 ^ (c - 1) :=
  signedDigits_range c (implementedCs_facts c hc).1 _ _ 0 (by omega)

/-- What the scan reads from a partitioned scalar in slot `j`: the stored field of digit `j`. -/
theorem digitAt_partitionScalar (Limbs c : Nat) (scalar : Element) (j : Nat)
    (hc : c ∈ implementedCs) (hL : Limbs * 64 < 2 ^ 63) (hj : j ≤ partitionChunks Limbs c) :
    digitAt Limbs c j (partitionScalar Limbs c scalar)
      = encodeDigit c ((digitsOf Limbs c scalar).getD j 0) := by
  obtain ⟨h2, h64, hdiv⟩ := implementedCs_facts c hc
  obtain ⟨_, hmul⟩ := partitionChunks_eq Limbs c hc
  have hjc : j * c ≤ partitionChunks Limbs c * c := Nat.mul_le_mul_right _ hj
  have hlen : (digitsOf Limbs c scalar).length = partitionChunks Limbs c + 1 :=
    length_signedDigits _ _ _ _
  have hjl : j < (digitsOf Limbs c scalar).length := by omega
  have hall : ∀ d ∈ (digitsOf Limbs c scalar).map (encodeDigit c), d < 2 ^ c := by
    intro d hd
    obtain ⟨x, hx, rfl⟩ := List.mem_map.mp hd
    obtain ⟨hlo, hhi⟩ := digitsOf_range Limbs c hc scalar x hx
    exact encodeDigit_lt c (by omega) x hlo hhi
  have hN : j * c / 64 < ((partitionChunks Limbs c + 1) * c + 63) / 64 := by
    rw [Nat.add_mul, Nat.one_mul]
    omega
  unfold digitAt partitionScalar
  rw [selectBits_wordsOf Limbs j c _ _ (by omega) hdiv (by omega) hN, Option.getD_some,
    Nat.mul_comm j c, packDigits_digit c _ hall j, List.getD_eq_getElem?_getD,
    List.getD_eq_getElem?_getD, List.getElem?_map, List.getElem?_eq_getElem hjl]
  rfl

/-- The re-expansion of a partitioned scalar over every slot, the extra one included, is the
scalar. -/
theorem reexpand_partitionScalar (Limbs c : Nat) (scalar : Element) (hc : c ∈ implementedCs)
    (hL : Limbs * 64 < 2 ^ 63) (hv : scalar.value < 2 ^ (64 * Limbs)) :
    reexpand Limbs c (partitionScalar Limbs c scalar) = (scalar.value : Int) := by
  obtain ⟨h2, h64, hdiv⟩ := implementedCs_facts c hc
  obtain ⟨_, hmul⟩ := partitionChunks_eq Limbs c hc
  have hlen : (digitsOf Limbs c scalar).length = partitionChunks Limbs c + 1 :=
    length_signedDigits _ _ _ _
  have hmap : (List.range (partitionChunks Limbs c + 1)).map (fun j =>
        signedDigit c (digitAt Limbs c j (partitionScalar Limbs c scalar)))
      = (List.range (digitsOf Limbs c scalar).length).map (fun j =>
        (digitsOf Limbs c scalar).getD j 0) := by
    rw [hlen]
    apply List.map_congr_left
    intro j hj
    rw [List.mem_range] at hj
    have hjl : j < (digitsOf Limbs c scalar).length := by omega
    have hmem : (digitsOf Limbs c scalar).getD j 0 ∈ digitsOf Limbs c scalar := by
      rw [List.getD_eq_getElem?_getD, List.getElem?_eq_getElem hjl]
      exact List.getElem_mem _
    obtain ⟨hlo, hhi⟩ := digitsOf_range Limbs c hc scalar _ hmem
    rw [digitAt_partitionScalar Limbs c scalar j hc hL (by omega)]
    exact signedDigit_encodeDigit c (by omega) h64 _ hlo hhi
  unfold reexpand
  rw [hmap, map_range_getD, digitsOf, weighted_signedDigits, Nat.mul_comm c, hmul,
    Nat.mul_comm Limbs 64, Nat.mod_eq_of_lt hv, Nat.add_zero]

/-- The final carry is 0 or 1. -/
theorem finalCarry_range (Limbs c : Nat) (scalar : Element) :
    0 ≤ finalCarry Limbs c scalar ∧ finalCarry Limbs c scalar ≤ 1 := by
  have key : ∀ n s carry, carry ≤ 1 →
      0 ≤ (signedDigits c n s carry).getD n 0 ∧ (signedDigits c n s carry).getD n 0 ≤ 1 := by
    intro n
    induction n with
    | zero =>
      intro s carry hcarry
      rw [signedDigits, List.getD_cons_zero]
      omega
    | succ n ih =>
      intro s carry hcarry
      rw [signedDigits]
      split
      · rw [List.getD_cons_succ]; exact ih _ 1 (le_refl _)
      · rw [List.getD_cons_succ]; exact ih _ 0 (by omega)
  exact key _ _ 0 (by omega)

/-- What a path of width `c` reads back from the partition of a scalar: the scalar, less
`2^(64·Limbs)` when its most significant window leaves a carry for the extra slot, which no
chunk reads. -/
theorem readback_partitionScalar (Limbs c : Nat) (scalar : Element) (hc : c ∈ implementedCs)
    (hL : Limbs * 64 < 2 ^ 63) (hv : scalar.value < 2 ^ (64 * Limbs)) :
    readback Limbs c (partitionScalar Limbs c scalar)
      = (scalar.value : Int) - 2 ^ (64 * Limbs) * finalCarry Limbs c scalar := by
  obtain ⟨h2, h64, hdiv⟩ := implementedCs_facts c hc
  obtain ⟨hnb, hmul⟩ := partitionChunks_eq Limbs c hc
  obtain ⟨hc0, hc1⟩ := finalCarry_range Limbs c scalar
  have hre := reexpand_partitionScalar Limbs c scalar hc hL hv
  have hpos : (0 : Int) < 2 ^ (c - 1) := by positivity
  have hp2 : (2 : Int) ≤ 2 ^ (c - 1) := by
    have : 2 ^ 1 ≤ 2 ^ (c - 1) := Nat.pow_le_pow_right (by decide) (by omega)
    exact_mod_cast this
  unfold reexpand at hre
  rw [List.range_succ, List.map_append, weighted_append, List.map_singleton,
    digitAt_partitionScalar Limbs c scalar _ hc hL (le_refl _),
    signedDigit_encodeDigit c (by omega) h64 _
      (by unfold finalCarry at hc0; omega) (by unfold finalCarry at hc1; omega)] at hre
  unfold readback
  rw [← hnb, ← hre]
  simp only [List.length_map, List.length_range, weighted, smul_zero, add_zero,
    nsmul_eq_mul, Nat.cast_pow, Nat.cast_ofNat]
  unfold finalCarry
  have hexp : 64 * Limbs = c * partitionChunks Limbs c := by
    rw [Nat.mul_comm c, hmul, Nat.mul_comm]
  rw [hexp]
  ring

/-- The final carry of the signed digits is 0 when the value, with the carry that enters, is at
most the largest value whose digits are all `2^(c-1) - 1`. -/
theorem signedDigits_carry_zero (c : Nat) (h1 : 1 ≤ c) :
    ∀ n s carry, carry ≤ 1
      → s + carry ≤ packDigits c (List.replicate n (2 ^ (c - 1) - 1))
      → (signedDigits c n s carry).getD n 0 = 0 := by
  have hpowN : 2 ^ c = 2 * 2 ^ (c - 1) := by
    rw [← pow_succ']; congr 1; omega
  have hp1 : 1 ≤ 2 ^ (c - 1) := Nat.one_le_two_pow
  intro n
  induction n with
  | zero =>
    intro s carry _ hle
    rw [List.replicate_zero, packDigits] at hle
    rw [signedDigits, List.getD_cons_zero]
    omega
  | succ n ih =>
    intro s carry hcarry hle
    rw [List.replicate_succ, packDigits] at hle
    have hdm := Nat.div_add_mod s (2 ^ c)
    have hmod : s % 2 ^ c < 2 ^ c := Nat.mod_lt _ (Nat.two_pow_pos c)
    rw [signedDigits]
    split
    · rename_i hge
      rw [List.getD_cons_succ]
      apply ih _ 1 (le_refl _)
      by_contra hnot
      have hT : packDigits c (List.replicate n (2 ^ (c - 1) - 1)) ≤ s / 2 ^ c := by omega
      have := Nat.mul_le_mul_left (2 ^ c) hT
      omega
    · rename_i hge
      rw [List.getD_cons_succ]
      apply ih _ 0 (by omega)
      by_contra hnot
      have hT : packDigits c (List.replicate n (2 ^ (c - 1) - 1)) + 1 ≤ s / 2 ^ c := by omega
      have := Nat.mul_le_mul_left (2 ^ c) hT
      rw [Nat.mul_add] at this
      omega

/-- A scalar of at most `maxExact` leaves no final carry. -/
theorem finalCarry_eq_zero (Limbs c : Nat) (scalar : Element) (hc : c ∈ implementedCs)
    (hle : scalar.value ≤ maxExact Limbs c) : finalCarry Limbs c scalar = 0 := by
  obtain ⟨h2, _, _⟩ := implementedCs_facts c hc
  obtain ⟨hnb, _⟩ := partitionChunks_eq Limbs c hc
  unfold finalCarry digitsOf
  apply signedDigits_carry_zero c (by omega) _ _ 0 (by omega)
  rw [Nat.add_zero, hnb]
  exact hle

/-- What a path of width `c` reads back from the partition of a scalar of at most `maxExact`:
the scalar. -/
theorem readback_partitionScalar_exact (Limbs c : Nat) (scalar : Element)
    (hc : c ∈ implementedCs) (hL : Limbs * 64 < 2 ^ 63) (hv : scalar.value < 2 ^ (64 * Limbs))
    (hle : scalar.value ≤ maxExact Limbs c) :
    readback Limbs c (partitionScalar Limbs c scalar) = (scalar.value : Int) := by
  rw [readback_partitionScalar Limbs c scalar hc hL hv, finalCarry_eq_zero Limbs c scalar hc hle,
    mul_zero, sub_zero]

/-- Whatever the stored scalar, a path of width `c` reads back at most `maxExact`: every digit
the accumulator reads is at most `2^(c-1) - 1`. -/
theorem readback_le_maxExact (Limbs c : Nat) (pScalar : Element) (h1 : 1 ≤ c) (h64 : c ≤ 64)
    (hlen : Limbs ≤ pScalar.length) :
    readback Limbs c pScalar ≤ (maxExact Limbs c : Int) := by
  have hp1 : 1 ≤ 2 ^ (c - 1) := Nat.one_le_two_pow
  have key : ∀ ds : List Int, (∀ d ∈ ds, d ≤ ((2 ^ (c - 1) - 1 : Nat) : Int)) →
      weighted c ds ≤ (packDigits c (List.replicate ds.length (2 ^ (c - 1) - 1)) : Int) := by
    intro ds
    induction ds with
    | nil => intro _; simp [weighted, packDigits]
    | cons d ds ih =>
      intro h
      have hd := h d (List.mem_cons_self _ _)
      have hds := ih (fun x hx => h x (List.mem_cons_of_mem _ hx))
      rw [weighted_int_cons, List.length_cons, List.replicate_succ, packDigits]
      push_cast
      have hpos : (0 : Int) ≤ 2 ^ c := by positivity
      have := mul_le_mul_of_nonneg_left hds hpos
      push_cast at this hd
      linarith
  have hall : ∀ d ∈ (List.range (Limbs * 64 / c)).map
      (fun j => signedDigit c (digitAt Limbs c j pScalar)),
      d ≤ ((2 ^ (c - 1) - 1 : Nat) : Int) := by
    intro d hd
    obtain ⟨j, hj, rfl⟩ := List.mem_map.mp hd
    rw [List.mem_range] at hj
    have hjc : j * c < 64 * Limbs := by
      have h2 : (j + 1) * c ≤ Limbs * 64 := by
        rw [← Nat.le_div_iff_mul_le (by omega)]
        omega
      rw [Nat.add_mul] at h2
      omega
    have hlt := digitAt_lt Limbs j c pScalar h1 h64 hjc hlen
    rw [signedDigit_eq c _ h1 h64 hlt]
    split <;> omega
  have := key _ hall
  rw [List.length_map, List.length_range] at this
  unfold readback maxExact
  exact this

/-- Every digit the scan reads from the partition of the scalar 0 is 0. -/
theorem digitAt_partitionScalar_zero (Limbs c j : Nat) (scalar : Element)
    (hs : scalar.value = 0) : digitAt Limbs c j (partitionScalar Limbs c scalar) = 0 := by
  have hpack : ∀ n, packDigits c ((signedDigits c n 0 0).map (encodeDigit c)) = 0 := by
    intro n
    induction n with
    | zero => simp [signedDigits, packDigits, encodeDigit]
    | succ n ih =>
      rw [signedDigits]
      have hnot : ¬ 2 ^ (c - 1) ≤ 0 % 2 ^ c + 0 := by
        have := @Nat.one_le_two_pow (c - 1)
        rw [Nat.zero_mod]
        omega
      rw [if_neg hnot, List.map_cons, packDigits, Nat.zero_div, ih]
      simp [encodeDigit]
  have hwords : ∀ (n i w : Nat), (wordsOf n 0)[i]? = some w → w = 0 := by
    intro n
    induction n with
    | zero => intro i w h; simp [wordsOf] at h
    | succ n ih =>
      intro i w h
      rw [wordsOf] at h
      cases i with
      | zero => simp at h; exact h.symm
      | succ i =>
        rw [List.getElem?_cons_succ, Nat.zero_div] at h
        exact ih i w h
  unfold digitAt partitionScalar digitsOf
  rw [hs, hpack]
  generalize ((partitionChunks Limbs c + 1) * c + 63) / 64 = N
  unfold selectBits
  cases h1 : (wordsOf N 0)[(mkSelector Limbs j c).index]? with
  | none => rfl
  | some w =>
    have hw := hwords N _ w h1
    subst hw
    have hlow : shrU64 (0 &&& (mkSelector Limbs j c).mask) (mkSelector Limbs j c).shift = 0 := by
      unfold shrU64
      rw [Nat.zero_and]
      split <;> simp
    simp only [hlow]
    split
    · cases h2 : (wordsOf N 0)[(mkSelector Limbs j c).index + 1]? with
      | none => rfl
      | some w1 =>
        have hw1 := hwords N _ w1 h2
        subst hw1
        have hhigh : shlU64 (0 &&& (mkSelector Limbs j c).maskHigh)
            (mkSelector Limbs j c).shiftHigh = 0 := by
          unfold shlU64
          rw [Nat.zero_and]
          split <;> simp
        simp only [hhigh]
        rfl
    · rfl

theorem readback_partitionScalar_zero (Limbs c : Nat) (scalar : Element)
    (hs : scalar.value = 0) : readback Limbs c (partitionScalar Limbs c scalar) = 0 := by
  have hz : signedDigit c 0 = 0 := by
    unfold signedDigit
    rw [Nat.zero_and, if_pos rfl]
    rfl
  unfold readback
  simp only [digitAt_partitionScalar_zero Limbs c _ scalar hs, hz]
  exact weighted_map_zero c _

end Bw761

namespace Bw761

/-! ## `MultiExp` -/

section MultiExp

variable {G : Type} [AddCommGroup G] [DecidableEq G]

/-- `MultiExp` runs the path of the width the loop chose, one of the implemented ones. -/
theorem MultiExp_eq_msmCX (Limbs : Nat) (points : List G) (scalars : List Element) :
    ∃ c, c ∈ implementedCs ∧ bestC Limbs points.length = c
      ∧ MultiExp Limbs points scalars = msmCX c Limbs points scalars := by
  unfold MultiExp
  rcases bestC_cases Limbs points.length with h | h | h
  · rw [h]; exact ⟨4, by decide, rfl, rfl⟩
  · rw [h]; exact ⟨8, by decide, rfl, rfl⟩
  · rw [h]; exact ⟨16, by decide, rfl, rfl⟩

/-- The result of a path of width `c`: every scalar counts with its value, less `2^(64·Limbs)`
when it leaves a final carry. -/
theorem msmCX_eq_value (c Limbs : Nat) (points : List G) (scalars : List Element)
    (hc : c ∈ implementedCs) (hL : 1 ≤ Limbs) (hL64 : Limbs * 64 < 2 ^ 63)
    (hp : scalars.length ≤ points.length) (hwf : ∀ s ∈ scalars, s.wellFormed Limbs) :
    msmCX c Limbs points scalars
      = some ((scalars.zip points).map fun sp =>
          ((sp.1.value : Int) - 2 ^ (64 * Limbs) * finalCarry Limbs c sp.1) • sp.2).sum := by
  obtain ⟨h2, h64, _⟩ := implementedCs_facts c hc
  rw [msmCX_eq c Limbs points scalars (by omega) h64 hL hp]
  congr 2
  apply List.map_congr_left
  intro sp hsp
  have hmem : sp.1 ∈ scalars := (List.of_mem_zip (show (sp.1, sp.2) ∈ scalars.zip points from hsp)).1
  rw [readback_partitionScalar Limbs c sp.1 hc hL64 (value_lt Limbs sp.1 (hwf _ hmem))]

/-- A path of width `c` returns the naive sum when every scalar is at most `maxExact`. -/
theorem msmCX_eq_naiveSum (c Limbs : Nat) (points : List G) (scalars : List Element)
    (hc : c ∈ implementedCs) (hL : 1 ≤ Limbs) (hL64 : Limbs * 64 < 2 ^ 63)
    (hp : scalars.length ≤ points.length) (hwf : ∀ s ∈ scalars, s.wellFormed Limbs)
    (hex : ∀ s ∈ scalars, s.value ≤ maxExact Limbs c) :
    msmCX c Limbs points scalars = some (naiveSum points scalars) := by
  obtain ⟨h2, h64, _⟩ := implementedCs_facts c hc
  rw [msmCX_eq c Limbs points scalars (by omega) h64 hL hp]
  unfold naiveSum
  congr 2
  apply List.map_congr_left
  intro sp hsp
  have hmem : sp.1 ∈ scalars := (List.of_mem_zip (show (sp.1, sp.2) ∈ scalars.zip points from hsp)).1
  rw [readback_partitionScalar_exact Limbs c sp.1 hc hL64 (value_lt Limbs sp.1 (hwf _ hmem))
    (hex _ hmem), natCast_zsmul]

/-- One point `P = 1` of the integers and one stored scalar of `Limbs` words: whatever the
stored scalar, a path of width `c` returns at most `maxExact`. -/
theorem msmCXOn_le_maxExact (c Limbs : Nat) (pScalar : Element) (hc : c ∈ implementedCs)
    (hL : 1 ≤ Limbs) (hwf : pScalar.wellFormed Limbs) :
    ∃ r : Int, msmCXOn c Limbs [(1 : Int)] [pScalar] = some r ∧ r ≤ (maxExact Limbs c : Int) := by
  obtain ⟨h2, h64, _⟩ := implementedCs_facts c hc
  have hlen : Limbs ≤ pScalar.length := le_of_eq hwf.1.symm
  refine ⟨_, msmCXOn_eq c Limbs [(1 : Int)] [pScalar] (by omega) h64 hL (le_refl _)
    (fun sc hsc => by rw [List.mem_singleton] at hsc; rw [hsc]; exact hlen), ?_⟩
  have := readback_le_maxExact Limbs c pScalar (by omega) h64 hlen
  simpa using this

theorem packDigits_replicate_ge (c d : Nat) :
    ∀ n, d * 2 ^ (c * n) ≤ packDigits c (List.replicate (n + 1) d) := by
  intro n
  induction n with
  | zero =>
    rw [List.replicate_succ, packDigits, Nat.mul_zero, Nat.pow_zero, Nat.mul_one]
    exact Nat.le_add_right _ _
  | succ n ih =>
    rw [List.replicate_succ, packDigits]
    have h := Nat.mul_le_mul_left (2 ^ c) ih
    have e : d * 2 ^ (c * (n + 1)) = 2 ^ c * (d * 2 ^ (c * n)) := by
      rw [Nat.mul_succ, pow_add]; ring
    omega

/-- Every scalar whose two most significant bits are clear is at most `maxExact`. -/
theorem maxExact_ge (Limbs c : Nat) (hc : c ∈ implementedCs) (hL : 1 ≤ Limbs) :
    2 ^ (64 * Limbs - 2) ≤ maxExact Limbs c := by
  obtain ⟨h2, h64, _⟩ := implementedCs_facts c hc
  obtain ⟨hnb, hmul⟩ := partitionChunks_eq Limbs c hc
  have hK : 1 ≤ Limbs * 64 / c := by
    rw [Nat.le_div_iff_mul_le (by omega)]
    omega
  obtain ⟨n, hn⟩ : ∃ n, Limbs * 64 / c = n + 1 := ⟨Limbs * 64 / c - 1, by omega⟩
  have hge := packDigits_replicate_ge c (2 ^ (c - 1) - 1) n
  have hH : 2 ^ (c - 1) = 2 * 2 ^ (c - 2) := by
    rw [← pow_succ']; congr 1; omega
  have hp : 1 ≤ 2 ^ (c - 2) := Nat.one_le_two_pow
  have hd : 2 ^ (c - 2) ≤ 2 ^ (c - 1) - 1 := by omega
  have hexp : 64 * Limbs - 2 = c - 2 + c * n := by
    have h1 : (n + 1) * c = Limbs * 64 := by rw [← hn, ← hnb]; exact hmul
    rw [Nat.add_mul, Nat.one_mul, Nat.mul_comm n c] at h1
    omega
  unfold maxExact
  rw [hn, hexp, pow_add]
  exact le_trans (Nat.mul_le_mul_right _ hd) hge

/-- A path of width `c` returns the identity when every scalar is 0. -/
theorem msmCX_zero (c Limbs : Nat) (points : List G) (scalars : List Element)
    (hc : c ∈ implementedCs) (hL : 1 ≤ Limbs) (hp : scalars.length ≤ points.length)
    (hz : ∀ s ∈ scalars, s.value = 0) :
    msmCX c Limbs points scalars = some 0 := by
  obtain ⟨h2, h64, _⟩ := implementedCs_facts c hc
  rw [msmCX_eq c Limbs points scalars (by omega) h64 hL hp]
  congr 1
  apply List.sum_eq_zero
  intro x hx
  obtain ⟨sp, hsp, rfl⟩ := List.mem_map.mp hx
  have hmem : sp.1 ∈ scalars := (List.of_mem_zip (show (sp.1, sp.2) ∈ scalars.zip points from hsp)).1
  rw [readback_partitionScalar_zero Limbs c sp.1 (hz _ hmem), zero_smul]

/-- With at least as many points as scalars no chunk panics. -/
theorem MultiExp_isSome (Limbs : Nat) (points : List G) (scalars : List Element)
    (hL : 1 ≤ Limbs) (hp : scalars.length ≤ points.length) :
    ∃ r, MultiExp Limbs points scalars = some r := by
  obtain ⟨c, hc, _, hM⟩ := MultiExp_eq_msmCX Limbs points scalars
  obtain ⟨h2, h64, _⟩ := implementedCs_facts c hc
  exact ⟨_, hM.trans (msmCX_eq c Limbs points scalars (by omega) h64 hL hp)⟩

end MultiExp

end Bw761

namespace Bw761

/-! ## The claims about `MultiExp` and the partition -/

theorem bestC_small (Limbs n : Nat) (hL : 1 ≤ Limbs) (hn : n ≤ 112)
    (h : Limbs * 64 * (n + 2 ^ 15) < 2 ^ 53) : bestC Limbs n = 4 := by
  rw [bestC_eq Limbs n hL (by omega) (roundToFloat64_exact _ h), if_pos hn]

/-- C9. For every `c` in `{4, 8, 16}` and every scalar of `fr.Limbs` 64-bit words, partitioning
the scalar into signed `c`-bit digits (least-significant chunk first, a window value that with
the carry reaches `2^(c-1)` becomes `value - 2^c` with a carry of 1 into the next chunk) and
re-expanding the stored digits as the bucket accumulator reads them (sign bit clear: `+digit`;
sign bit set: `-((digit & ^msb) + 1)`), over every slot with the extra most-significant one, as
the sum over `j` of `digit_j·2^(c·j)`, gives back the scalar. -/
theorem partition_roundtrip (Limbs c : Nat) (scalar : Element) (hc : c ∈ implementedCs)
    (hL : Limbs * 64 < 2 ^ 63) (hwf : scalar.wellFormed Limbs) :
    reexpand Limbs c (partitionScalar Limbs c scalar) = (scalar.value : Int) :=
  reexpand_partitionScalar Limbs c scalar hc hL (value_lt Limbs scalar hwf)

set_option maxRecDepth 100000 in
theorem partition_roundtrip_witness :
    4 ∈ implementedCs ∧ 6 * 64 < 2 ^ 63
      ∧ Element.wellFormed 6 [8, 0, 0, 0, 0, 9223372036854775808]
      ∧ (digitsOf 6 4 [8, 0, 0, 0, 0, 9223372036854775808]).getD 0 0 = -8
      ∧ finalCarry 6 4 [8, 0, 0, 0, 0, 9223372036854775808] = 1
      ∧ reexpand 6 4 (partitionScalar 6 4 [8, 0, 0, 0, 0, 9223372036854775808])
          = ((Element.value [8, 0, 0, 0, 0, 9223372036854775808] : Nat) : Int) :=
  ⟨by decide, by decide, by decide, by decide, by decide,
    partition_roundtrip 6 4 [8, 0, 0, 0, 0, 9223372036854775808] (by decide) (by decide)
      (by decide)⟩

section Claims

variable {G : Type} [AddCommGroup G] [DecidableEq G]

set_option maxRecDepth 100000 in
set_option exponentiation.threshold 512 in
/-- C1 (as stated, refuted). One point `P` and the scalar `2^383` (a single bit, in the most
significant window): the loop chooses `c = 4`, the most significant window holds 8 and is
stored as the digit `-8` with a carry for the extra slot, which no chunk reads, since `msmC4`
runs `fr.Limbs·64/4 = 96` chunks: `MultiExp` returns `-2^383·P` where the naive sum is
`2^383·P`. No stored scalar of six words makes the 96 chunks return `2^383·P`. -/
theorem MultiExp_naiveSum_counterexample :
    [(1 : Int)] ≠ [] ∧ [(1 : Int)].length = [[0, 0, 0, 0, 0, 9223372036854775808]].length
      ∧ Element.wellFormed 6 [0, 0, 0, 0, 0, 9223372036854775808]
      ∧ naiveSum [(1 : Int)] [[0, 0, 0, 0, 0, 9223372036854775808]] = 2 ^ 383
      ∧ MultiExp 6 [(1 : Int)] [[0, 0, 0, 0, 0, 9223372036854775808]] = some (-(2 ^ 383))
      ∧ ∀ pScalar : Element, pScalar.wellFormed 6 →
          msmCXOn 4 6 [(1 : Int)] [pScalar] ≠ some (2 ^ 383) := by
  have hb : bestC 6 1 = 4 := bestC_small 6 1 (by decide) (by decide) (by decide)
  have h4 := msmCX_eq_value 4 6 [(1 : Int)] [[0, 0, 0, 0, 0, 9223372036854775808]] (by decide)
    (by decide) (by decide) (by decide) (by decide)
  have hfc : finalCarry 6 4 [0, 0, 0, 0, 0, 9223372036854775808] = 1 := by decide
  have hval : Element.value [0, 0, 0, 0, 0, 9223372036854775808] = 2 ^ 383 := by decide
  have hlen : [(1 : Int)].length = 1 := rfl
  have hmax : maxExact 6 4 < 2 ^ 383 := by decide
  refine ⟨by decide, by decide, by decide, ?_, ?_, ?_⟩
  · unfold naiveSum
    simp only [List.zip_cons_cons, List.zip_nil_right, List.map_cons, List.map_nil,
      List.sum_cons, List.sum_nil, hval]
    norm_num
  · have e4 : msmC4 6 [(1 : Int)] [[0, 0, 0, 0, 0, 9223372036854775808]]
        = some (-(2 ^ 383)) := by
      show msmCX 4 6 _ _ = _
      rw [h4]
      simp only [List.zip_cons_cons, List.zip_nil_right, List.map_cons, List.map_nil,
        List.sum_cons, List.sum_nil, hval, hfc]
      norm_num
    unfold MultiExp
    rw [hlen, hb]
    exact e4
  · intro pScalar hwf h
    obtain ⟨r, hr, hle⟩ := msmCXOn_le_maxExact 4 6 pScalar (by decide) (by decide) hwf
    rw [hr] at h
    have hre : r = 2 ^ 383 := Option.some.inj h
    have hmax1 : (maxExact 6 4 : Int) < 2 ^ 383 := by exact_mod_cast hmax
    omega

/-- C1 (amended). For all lists of points and scalars of equal length in which every scalar is
at most the largest value that the `fr.Limbs·64/c` windows of the chosen width `c` hold in
signed digits (every window `2^(c-1) - 1`), so that its most significant window leaves no
carry, `MultiExp(points, scalars)` returns the naive sum of `scalars[i]·points[i]`. -/
theorem MultiExp_eq_naiveSum (Limbs : Nat) (points : List G) (scalars : List Element)
    (hL : 1 ≤ Limbs) (hL64 : Limbs * 64 < 2 ^ 63) (hlen : points.length = scalars.length)
    (hwf : ∀ s ∈ scalars, s.wellFormed Limbs)
    (hex : ∀ s ∈ scalars, s.value ≤ maxExact Limbs (bestC Limbs points.length)) :
    MultiExp Limbs points scalars = some (naiveSum points scalars) := by
  obtain ⟨c, hc, hb, hM⟩ := MultiExp_eq_msmCX Limbs points scalars
  rw [hb] at hex
  rw [hM]
  exact msmCX_eq_naiveSum c Limbs points scalars hc hL hL64 (by omega) hwf hex

set_option maxRecDepth 100000 in
theorem MultiExp_eq_naiveSum_witness :
    1 ≤ 6 ∧ 6 * 64 < 2 ^ 63
      ∧ [(5 : Int), 7, -3].length
          = [[8, 0, 0, 0, 0, 0], [28476, 0, 0, 0, 0, 5],
              [18446744073709551615, 0, 0, 0, 0, 0]].length
      ∧ (∀ s ∈ [[8, 0, 0, 0, 0, 0], [28476, 0, 0, 0, 0, 5],
            [18446744073709551615, 0, 0, 0, 0, 0]],
          Element.wellFormed 6 s)
      ∧ (∀ s ∈ [[8, 0, 0, 0, 0, 0], [28476, 0, 0, 0, 0, 5],
            [18446744073709551615, 0, 0, 0, 0, 0]],
          Element.value s ≤ maxExact 6 4)
      ∧ MultiExp 6 [(5 : Int), 7, -3]
            [[8, 0, 0, 0, 0, 0], [28476, 0, 0, 0, 0, 5],
              [18446744073709551615, 0, 0, 0, 0, 0]]
          = some (naiveSum [(5 : Int), 7, -3]
              [[8, 0, 0, 0, 0, 0], [28476, 0, 0, 0, 0, 5],
                [18446744073709551615, 0, 0, 0, 0, 0]]) :=
  ⟨by decide, by decide, by decide, by decide, by decide,
    MultiExp_eq_naiveSum 6 [(5 : Int), 7, -3]
      [[8, 0, 0, 0, 0, 0], [28476, 0, 0, 0, 0, 5], [18446744073709551615, 0, 0, 0, 0, 0]]
      (by decide) (by decide) (by decide) (by decide)
      (by
        have hlen : [(5 : Int), 7, -3].length = 3 := rfl
        rw [hlen, bestC_small 6 3 (by decide) (by decide) (by decide)]
        decide)⟩

set_option maxRecDepth 100000 in
/-- C6 (as stated, refuted). Two points and one scalar: the lengths differ, and `MultiExp`
returns a result (the second point is never read). -/
theorem MultiExp_mismatch_counterexample :
    [(1 : Int), 5].length ≠ [[3, 0, 0, 0, 0, 0]].length
      ∧ MultiExp 6 [(1 : Int), 5] [[3, 0, 0, 0, 0, 0]] = some 3 := by
  have hb : bestC 6 2 = 4 := bestC_small 6 2 (by decide) (by decide) (by decide)
  have h4 := msmCX_eq_naiveSum 4 6 [(1 : Int), 5] [[3, 0, 0, 0, 0, 0]] (by decide) (by decide)
    (by decide) (by decide) (by decide) (by decide)
  have hn : naiveSum [(1 : Int), 5] [[3, 0, 0, 0, 0, 0]] = 3 := by decide
  have hlen : [(1 : Int), 5].length = 2 := rfl
  refine ⟨by decide, ?_⟩
  unfold MultiExp
  rw [hlen, hb, ← hn]
  exact h4

/-- C6 (amended). `MultiExp(points, scalars)` fails only if `len(points) != len(scalars)`, and
then only with fewer points than scalars: every call with at least as many points as scalars,
so every call with equal lengths, returns a result. -/
theorem MultiExp_fails_only_if_fewer_points (Limbs : Nat) (points : List G)
    (scalars : List Element) (hL : 1 ≤ Limbs) :
    (scalars.length ≤ points.length → ∃ r, MultiExp Limbs points scalars = some r)
      ∧ (MultiExp Limbs points scalars = none → points.length < scalars.length) := by
  refine ⟨MultiExp_isSome Limbs points scalars hL, ?_⟩
  intro hnone
  by_contra hnot
  obtain ⟨r, hr⟩ := MultiExp_isSome Limbs points scalars hL (by omega)
  rw [hr] at hnone
  exact Option.noConfusion hnone

theorem MultiExp_fails_only_if_fewer_points_witness :
    1 ≤ 6
      ∧ ([[3, 0, 0, 0, 0, 0]].length ≤ [(1 : Int), 5].length →
          ∃ r, MultiExp 6 [(1 : Int), 5] [[3, 0, 0, 0, 0, 0]] = some r)
      ∧ (MultiExp 6 [(1 : Int), 5] [[3, 0, 0, 0, 0, 0]] = none →
          [(1 : Int), 5].length < [[3, 0, 0, 0, 0, 0]].length) :=
  ⟨by decide, MultiExp_fails_only_if_fewer_points 6 [(1 : Int), 5] [[3, 0, 0, 0, 0, 0]]
    (by decide)⟩

/-- C7. For every list of points and every list of scalars of the same length in which every
scalar is 0, `MultiExp` returns the group identity. -/
theorem MultiExp_zero_scalars (Limbs : Nat) (points : List G) (scalars : List Element)
    (hL : 1 ≤ Limbs) (hlen : points.length = scalars.length)
    (hz : ∀ s ∈ scalars, s = List.replicate Limbs 0) :
    MultiExp Limbs points scalars = some 0 := by
  obtain ⟨c, hc, _, hM⟩ := MultiExp_eq_msmCX Limbs points scalars
  have hval : ∀ n, Element.value (List.replicate n 0) = 0 := by
    intro n
    induction n with
    | zero => rfl
    | succ n ih => rw [List.replicate_succ, Element.value, ih, Nat.mul_zero]
  rw [hM]
  exact msmCX_zero c Limbs points scalars hc hL (by omega)
    (fun s hs => by rw [hz s hs]; exact hval Limbs)

theorem MultiExp_zero_scalars_witness :
    1 ≤ 6 ∧ [(5 : Int), 7].length = [[0, 0, 0, 0, 0, 0], [0, 0, 0, 0, 0, 0]].length
      ∧ (∀ s ∈ [[0, 0, 0, 0, 0, 0], [0, 0, 0, 0, 0, 0]], s = List.replicate 6 0)
      ∧ MultiExp 6 [(5 : Int), 7] [[0, 0, 0, 0, 0, 0], [0, 0, 0, 0, 0, 0]] = some 0 :=
  ⟨by decide, by decide, by decide,
    MultiExp_zero_scalars 6 [(5 : Int), 7] [[0, 0, 0, 0, 0, 0], [0, 0, 0, 0, 0, 0]]
      (by decide) (by decide) (by decide)⟩

set_option maxRecDepth 100000 in
set_option exponentiation.threshold 512 in
/-- C8 (as stated, refuted). One point `P` and the scalar `127·2^376` (the most significant
byte `0x7F`): with `c = 8` and `c = 16` no window leaves a final carry and `msmC8`, `msmC16`
return `127·2^376·P`; with `c = 4` the window `0xF` carries into the most significant window,
which holds `7 + 1 = 8` and leaves a carry for the extra slot that none of the 96 chunks
reads, and `msmC4` returns `(127·2^376 - 2^384)·P`. No stored scalar of six words makes the 96
chunks of `msmC4` return what `msmC8` returns. -/
theorem msmCX_invariance_counterexample :
    [(1 : Int)].length = [[0, 0, 0, 0, 0, 9151314442816847872]].length
      ∧ Element.wellFormed 6 [0, 0, 0, 0, 0, 9151314442816847872]
      ∧ msmC8 6 [(1 : Int)] [[0, 0, 0, 0, 0, 9151314442816847872]] = some (127 * 2 ^ 376)
      ∧ msmC16 6 [(1 : Int)] [[0, 0, 0, 0, 0, 9151314442816847872]] = some (127 * 2 ^ 376)
      ∧ msmC4 6 [(1 : Int)] [[0, 0, 0, 0, 0, 9151314442816847872]]
          = some (127 * 2 ^ 376 - 2 ^ 384)
      ∧ ∀ pScalar : Element, pScalar.wellFormed 6 →
          msmCXOn 4 6 [(1 : Int)] [pScalar]
            ≠ msmC8 6 [(1 : Int)] [[0, 0, 0, 0, 0, 9151314442816847872]] := by
  have h4 := msmCX_eq_value 4 6 [(1 : Int)] [[0, 0, 0, 0, 0, 9151314442816847872]] (by decide)
    (by decide) (by decide) (by decide) (by decide)
  have h8 := msmCX_eq_value 8 6 [(1 : Int)] [[0, 0, 0, 0, 0, 9151314442816847872]] (by decide)
    (by decide) (by decide) (by decide) (by decide)
  have h16 := msmCX_eq_value 16 6 [(1 : Int)] [[0, 0, 0, 0, 0, 9151314442816847872]]
    (by decide) (by decide) (by decide) (by decide) (by decide)
  have hfc4 : finalCarry 6 4 [0, 0, 0, 0, 0, 9151314442816847872] = 1 := by decide
  have hfc8 : finalCarry 6 8 [0, 0, 0, 0, 0, 9151314442816847872] = 0 := by decide
  have hfc16 : finalCarry 6 16 [0, 0, 0, 0, 0, 9151314442816847872] = 0 := by decide
  have hval : Element.value [0, 0, 0, 0, 0, 9151314442816847872] = 127 * 2 ^ 376 := by decide
  have hmax : maxExact 6 4 < 127 * 2 ^ 376 := by decide
  have e8 : msmC8 6 [(1 : Int)] [[0, 0, 0, 0, 0, 9151314442816847872]]
      = some (127 * 2 ^ 376) := by
    show msmCX 8 6 _ _ = _
    rw [h8]
    simp only [List.zip_cons_cons, List.zip_nil_right, List.map_cons, List.map_nil,
      List.sum_cons, List.sum_nil, hval, hfc8]
    norm_num
  refine ⟨by decide, by decide, e8, ?_, ?_, ?_⟩
  · show msmCX 16 6 _ _ = _
    rw [h16]
    simp only [List.zip_cons_cons, List.zip_nil_right, List.map_cons, List.map_nil,
      List.sum_cons, List.sum_nil, hval, hfc16]
    norm_num
  · show msmCX 4 6 _ _ = _
    rw [h4]
    simp only [List.zip_cons_cons, List.zip_nil_right, List.map_cons, List.map_nil,
      List.sum_cons, List.sum_nil, hval, hfc4]
    norm_num
  · intro pScalar hwf h
    obtain ⟨r, hr, hle⟩ := msmCXOn_le_maxExact 4 6 pScalar (by decide) (by decide) hwf
    rw [hr, e8] at h
    have hre : r = 127 * 2 ^ 376 := Option.some.inj h
    have hmax1 : (maxExact 6 4 : Int) < 127 * 2 ^ 376 := by exact_mod_cast hmax
    omega

/-- C8 (amended). For all lists of points and scalars of equal length in which every scalar is,
for each width `c` in `{4, 8, 16}`, at most the largest value that the `fr.Limbs·64/c` windows
hold in signed digits (every window `2^(c-1) - 1`), so that no most significant window leaves a
carry, the paths `msmC4`, `msmC8` and `msmC16` return the same group element. -/
theorem msmCX_invariance (Limbs : Nat) (points : List G) (scalars : List Element)
    (hL : 1 ≤ Limbs) (hL64 : Limbs * 64 < 2 ^ 63) (hlen : points.length = scalars.length)
    (hwf : ∀ s ∈ scalars, s.wellFormed Limbs)
    (hex : ∀ c ∈ implementedCs, ∀ s ∈ scalars, s.value ≤ maxExact Limbs c) :
    msmC4 Limbs points scalars = msmC8 Limbs points scalars
      ∧ msmC8 Limbs points scalars = msmC16 Limbs points scalars := by
  have h4 := msmCX_eq_naiveSum 4 Limbs points scalars (by decide) hL hL64 (by omega) hwf
    (hex 4 (by decide))
  have h8 := msmCX_eq_naiveSum 8 Limbs points scalars (by decide) hL hL64 (by omega) hwf
    (hex 8 (by decide))
  have h16 := msmCX_eq_naiveSum 16 Limbs points scalars (by decide) hL hL64 (by omega) hwf
    (hex 16 (by decide))
  unfold msmC4 msmC8 msmC16
  rw [h4, h8, h16]
  exact ⟨rfl, rfl⟩

set_option maxRecDepth 100000 in
theorem msmCX_invariance_witness :
    1 ≤ 6 ∧ 6 * 64 < 2 ^ 63
      ∧ [(5 : Int), 7].length = [[8, 0, 0, 0, 0, 0], [28476, 0, 0, 0, 0, 5]].length
      ∧ (∀ s ∈ [[8, 0, 0, 0, 0, 0], [28476, 0, 0, 0, 0, 5]], Element.wellFormed 6 s)
      ∧ (∀ c ∈ implementedCs, ∀ s ∈ [[8, 0, 0, 0, 0, 0], [28476, 0, 0, 0, 0, 5]],
          Element.value s ≤ maxExact 6 c)
      ∧ (msmC4 6 [(5 : Int), 7] [[8, 0, 0, 0, 0, 0], [28476, 0, 0, 0, 0, 5]]
            = msmC8 6 [(5 : Int), 7] [[8, 0, 0, 0, 0, 0], [28476, 0, 0, 0, 0, 5]]
          ∧ msmC8 6 [(5 : Int), 7] [[8, 0, 0, 0, 0, 0], [28476, 0, 0, 0, 0, 5]]
            = msmC16 6 [(5 : Int), 7] [[8, 0, 0, 0, 0, 0], [28476, 0, 0, 0, 0, 5]]) :=
  ⟨by decide, by decide, by decide, by decide, by decide,
    msmCX_invariance 6 [(5 : Int), 7] [[8, 0, 0, 0, 0, 0], [28476, 0, 0, 0, 0, 5]]
      (by decide) (by decide) (by decide) (by decide) (by decide)⟩

end Claims

end Bw761

namespace Bw761

/-! ## The number of chunks and the digit of a chunk -/

set_option maxRecDepth 100000 in
/-- C11 (as stated, refuted). For `c = 4` and six 64-bit words a path has 96 chunks, the 96
windows of the scalar, and not `ceil(384 / 4) + 1 = 97`: there is no extra chunk. -/
theorem chChunks_count_counterexample :
    4 ∈ implementedCs
      ∧ (chChunks 4 6 ([] : List Int) []).length = 96
      ∧ nbChunks 4 6 = 96
      ∧ partitionChunks 6 4 + 1 = 97 := by
  refine ⟨by decide, ?_, by decide, by decide⟩
  rw [chChunks, List.length_map, List.length_range]
  decide

/-- C11 (amended). For each `c` in `{4, 8, 16}`, the number of chunks that `msmC4`, `msmC8`,
`msmC16` allocate and process is `fr.Limbs·64 / c`, which is `ceil(scalar_bits / c)` for
`scalar_bits = 64·fr.Limbs`: the `c`-bit windows of the scalar and no extra chunk. -/
theorem chChunks_count {G : Type} [AddCommGroup G] [DecidableEq G] (c Limbs : Nat)
    (points : List G) (scalars : List Element) (hc : c ∈ implementedCs) :
    (chChunks c Limbs points scalars).length = nbChunks c Limbs
      ∧ nbChunks c Limbs = partitionChunks Limbs c := by
  constructor
  · rw [chChunks, List.length_map, List.length_range]
  · rw [nbChunks, (partitionChunks_eq Limbs c hc).1]

theorem chChunks_count_witness :
    16 ∈ implementedCs
      ∧ (chChunks 16 6 [(5 : Int)] [[3, 0, 0, 0, 0, 0]]).length = nbChunks 16 6
      ∧ nbChunks 16 6 = partitionChunks 6 16 :=
  ⟨by decide, chChunks_count 16 6 [(5 : Int)] [[3, 0, 0, 0, 0, 0]] (by decide)⟩

theorem testBit_value (scalar : Element) (hw : ∀ w ∈ scalar, w < 2 ^ 64) (n : Nat) :
    (Element.value scalar).testBit n = (scalar.getD (n / 64) 0).testBit (n % 64) := by
  induction scalar generalizing n with
  | nil => simp [Element.value]
  | cons w ws ih =>
    have hw0 : w < 2 ^ 64 := hw w (List.mem_cons_self _ _)
    have hws : ∀ x ∈ ws, x < 2 ^ 64 := fun x hx => hw x (List.mem_cons_of_mem _ hx)
    rw [Element.value, Nat.add_comm, Nat.testBit_mul_pow_two_add _ hw0]
    by_cases hn : n < 64
    · rw [if_pos hn, Nat.div_eq_of_lt hn, Nat.mod_eq_of_lt hn]
      rfl
    · rw [if_neg hn, ih hws]
      have e1 : n / 64 = (n - 64) / 64 + 1 := by omega
      have e2 : (n - 64) % 64 = n % 64 := by omega
      rw [e1, e2]
      rfl

theorem testBit_windowMask (c shift k : Nat) :
    (((2 ^ c - 1) <<< shift) % 2 ^ 64).testBit k
      = (decide (k < 64) && (decide (k ≥ shift) && decide (k - shift < c))) := by
  rw [Nat.testBit_mod_two_pow, Nat.testBit_shiftLeft, Nat.testBit_two_pow_sub_one]

theorem testBit_window (V jc c i : Nat) :
    (V / 2 ^ jc % 2 ^ c).testBit i = (decide (i < c) && V.testBit (jc + i)) := by
  rw [Nat.testBit_mod_two_pow, ← Nat.shiftRight_eq_div_pow, Nat.testBit_shiftRight]

/-- The digit of a chunk, bit by bit: the single-word read. -/
theorem selectBits_single_testBit (Limbs chunk c : Nat) (scalar : Element) (h1 : 1 ≤ c)
    (h63 : c ≤ 63) (hj : chunk * c < 64 * Limbs) (hL : 64 * Limbs < 2 ^ 64)
    (hwf : scalar.wellFormed Limbs)
    (hm : (mkSelector Limbs chunk c).multiWordSelect = false) :
    selectBits (mkSelector Limbs chunk c) scalar
      = some (scalar.value / 2 ^ (chunk * c) % 2 ^ c) := by
  obtain ⟨hlen, hw⟩ := hwf
  have hu : u64 (chunk * c) = chunk * c := Nat.mod_eq_of_lt (by omega)
  have hidx : chunk * c / 64 < scalar.length := by omega
  have hshift : chunk * c % 64 < 64 := Nat.mod_lt _ (by decide)
  have hm' : (decide (64 % c ≠ 0) && decide (subU64 64 c < (mkSelector Limbs chunk c).shift)
      && decide ((mkSelector Limbs chunk c).index < Limbs - 1)) = false := hm
  rw [mkSelector_shift, mkSelector_index, hu, subU64_eq 64 c (by omega) (by decide)] at hm'
  have hcut : chunk * c % 64 + c ≤ 64 ∨ Limbs ≤ chunk * c / 64 + 1 := by
    by_contra hcon
    have h3 : 64 - c < chunk * c % 64 ∧ chunk * c / 64 < Limbs - 1 := by omega
    have h4 : 64 % c ≠ 0 := by
      intro hdiv
      have := shift_add_le chunk c hdiv
      omega
    simp [h3.1, h3.2, h4] at hm'
  unfold selectBits
  rw [mkSelector_index, hu, List.getElem?_eq_getElem hidx]
  simp only [hm, mkSelector_shift, mkSelector_mask Limbs chunk c h1 (by omega), hu]
  unfold shrU64
  rw [if_pos hshift]
  simp only [Bool.false_eq_true, if_false, Option.some.injEq]
  apply Nat.eq_of_testBit_eq
  intro i
  rw [Nat.testBit_shiftRight, Nat.testBit_and, testBit_windowMask, testBit_window,
    testBit_value scalar hw]
  have hdm : 64 * (chunk * c / 64) + chunk * c % 64 = chunk * c := Nat.div_add_mod _ _
  by_cases hi : i < c
  · by_cases h64 : chunk * c % 64 + i < 64
    · have e1 : (chunk * c + i) / 64 = chunk * c / 64 := by omega
      have e2 : (chunk * c + i) % 64 = chunk * c % 64 + i := by omega
      have e3 : chunk * c % 64 + i - chunk * c % 64 < c := by omega
      have e4 : chunk * c % 64 + i ≥ chunk * c % 64 := by omega
      rw [e1, e2, List.getD_eq_getElem?_getD, List.getElem?_eq_getElem hidx]
      simp [hi, h64, e3]
    · have hlast : Limbs ≤ chunk * c / 64 + 1 := by
        rcases hcut with h | h
        · omega
        · exact h
      have e1 : (chunk * c + i) / 64 = chunk * c / 64 + 1 := by omega
      have hnone : scalar.getD (chunk * c / 64 + 1) 0 = 0 := by
        rw [List.getD_eq_getElem?_getD, List.getElem?_eq_none (by omega)]
        rfl
      rw [e1, hnone]
      simp [h64]
  · simp [hi]

/-- The digit of a chunk, bit by bit: the read over two words. -/
theorem selectBits_multi_testBit (Limbs chunk c : Nat) (scalar : Element) (h1 : 1 ≤ c)
    (h63 : c ≤ 63) (hj : chunk * c < 64 * Limbs) (hL : 64 * Limbs < 2 ^ 64)
    (hwf : scalar.wellFormed Limbs)
    (hm : (mkSelector Limbs chunk c).multiWordSelect = true) :
    selectBits (mkSelector Limbs chunk c) scalar
      = some (scalar.value / 2 ^ (chunk * c) % 2 ^ c) := by
  obtain ⟨hlen, hw⟩ := hwf
  have hu : u64 (chunk * c) = chunk * c := Nat.mod_eq_of_lt (by omega)
  obtain ⟨hi1, hgt, hmh, hsh⟩ := mkSelector_multi Limbs chunk c (by omega) hm
  rw [hu] at hi1 hgt hmh hsh
  have hidx : chunk * c / 64 < scalar.length := by omega
  have hidx1 : chunk * c / 64 + 1 < scalar.length := by omega
  have hshift : chunk * c % 64 < 64 := Nat.mod_lt _ (by decide)
  have hdm : 64 * (chunk * c / 64) + chunk * c % 64 = chunk * c := Nat.div_add_mod _ _
  unfold selectBits
  rw [mkSelector_index, hu, List.getElem?_eq_getElem hidx]
  simp only [hm, mkSelector_shift, mkSelector_mask Limbs chunk c h1 (by omega), hu, hmh, hsh,
    if_true, List.getElem?_eq_getElem hidx1]
  unfold shrU64
  rw [if_pos hshift]
  -- the low part is below `2^(64 - shift)`, the high part is a multiple of it
  have hlo : (scalar[chunk * c / 64] &&& (2 ^ c - 1) <<< (chunk * c % 64) % 2 ^ 64)
      >>> (chunk * c % 64) < 2 ^ (64 - chunk * c % 64) := by
    refine lt_of_le_of_lt (low_bits_le _ _ _) ?_
    rw [Nat.div_lt_iff_lt_mul (Nat.two_pow_pos _), ← pow_add]
    have : 64 - chunk * c % 64 + chunk * c % 64 = 64 := by omega
    rw [this]
    exact Nat.mod_lt _ (by decide)
  have hx : scalar[chunk * c / 64 + 1] &&& (2 ^ (chunk * c % 64 + c - 64) - 1)
      < 2 ^ (chunk * c % 64 + c - 64) := by
    rw [Nat.and_pow_two_sub_one_eq_mod]
    exact Nat.mod_lt _ (Nat.two_pow_pos _)
  have hsplit : 2 ^ c = 2 ^ (64 - chunk * c % 64) * 2 ^ (chunk * c % 64 + c - 64) := by
    rw [← pow_add]
    congr 1
    omega
  have hc64 : 2 ^ c < 2 ^ 64 := Nat.pow_lt_pow_right (by decide) (by omega)
  have hprod : 2 ^ (64 - chunk * c % 64)
        * (scalar[chunk * c / 64 + 1] &&& (2 ^ (chunk * c % 64 + c - 64) - 1))
      + 2 ^ (64 - chunk * c % 64) ≤ 2 ^ c := by
    rw [hsplit, ← Nat.mul_succ]
    exact Nat.mul_le_mul_left _ hx
  have hhi : shlU64 (scalar[chunk * c / 64 + 1] &&& (2 ^ (chunk * c % 64 + c - 64) - 1))
        (64 - chunk * c % 64)
      = 2 ^ (64 - chunk * c % 64)
          * (scalar[chunk * c / 64 + 1] &&& (2 ^ (chunk * c % 64 + c - 64) - 1)) := by
    have hlt : (scalar[chunk * c / 64 + 1] &&& (2 ^ (chunk * c % 64 + c - 64) - 1))
        * 2 ^ (64 - chunk * c % 64) < 2 ^ 64 := by
      have hpos : 0 < 2 ^ (64 - chunk * c % 64) := Nat.two_pow_pos _
      rw [Nat.mul_comm]
      omega
    unfold shlU64
    rw [if_pos (by omega), Nat.shiftLeft_eq, Nat.mod_eq_of_lt hlt, Nat.mul_comm]
  rw [hhi, Nat.add_comm]
  have hsum : u64 (2 ^ (64 - chunk * c % 64)
        * (scalar[chunk * c / 64 + 1] &&& (2 ^ (chunk * c % 64 + c - 64) - 1))
      + (scalar[chunk * c / 64] &&& (2 ^ c - 1) <<< (chunk * c % 64) % 2 ^ 64)
          >>> (chunk * c % 64))
      = 2 ^ (64 - chunk * c % 64)
        * (scalar[chunk * c / 64 + 1] &&& (2 ^ (chunk * c % 64 + c - 64) - 1))
      + (scalar[chunk * c / 64] &&& (2 ^ c - 1) <<< (chunk * c % 64) % 2 ^ 64)
          >>> (chunk * c % 64) := by
    have hpos : 0 < 2 ^ (64 - chunk * c % 64) := Nat.two_pow_pos _
    unfold u64
    exact Nat.mod_eq_of_lt (by omega)
  rw [hsum]
  simp only [Option.some.injEq]
  apply Nat.eq_of_testBit_eq
  intro i
  rw [Nat.testBit_mul_pow_two_add _ hlo, testBit_window, testBit_value scalar hw]
  by_cases hi : i < 64 - chunk * c % 64
  · rw [if_pos hi, Nat.testBit_shiftRight, Nat.testBit_and, testBit_windowMask]
    have e1 : (chunk * c + i) / 64 = chunk * c / 64 := by omega
    have e2 : (chunk * c + i) % 64 = chunk * c % 64 + i := by omega
    have e3 : chunk * c % 64 + i - chunk * c % 64 < c := by omega
    have e4 : chunk * c % 64 + i < 64 := by omega
    have e5 : i < c := by omega
    rw [e1, e2, List.getD_eq_getElem?_getD, List.getElem?_eq_getElem hidx]
    simp [e3, e4, e5]
  · rw [if_neg hi, Nat.testBit_and, Nat.testBit_two_pow_sub_one]
    by_cases hic : i < c
    · have e1 : (chunk * c + i) / 64 = chunk * c / 64 + 1 := by omega
      have e2 : (chunk * c + i) % 64 = i - (64 - chunk * c % 64) := by omega
      have e3 : i - (64 - chunk * c % 64) < chunk * c % 64 + c - 64 := by omega
      rw [e1, e2, List.getD_eq_getElem?_getD, List.getElem?_eq_getElem hidx1]
      simp [e3, hic]
    · have e3 : ¬ i - (64 - chunk * c % 64) < chunk * c % 64 + c - 64 := by omega
      simp [e3, hic]

/-- C20. For every window width `c` with `1 ≤ c ≤ 63`, every chunk `j` with `j·c < 64·fr.Limbs`
and every scalar of `fr.Limbs` little-endian 64-bit words with integer value `S`, the digit
`bits` that `msmProcessChunkG1` extracts is `floor(S / 2^(j·c)) mod 2^c`, whether the window
lies in one word, straddles two, or is cut off by the end of the last word; for `c` in
`{4, 8, 16}` the two-word path is never taken. -/
theorem selectBits_eq_window (Limbs chunk c : Nat) (scalar : Element) (h1 : 1 ≤ c)
    (h63 : c ≤ 63) (hj : chunk * c < 64 * Limbs) (hL : 64 * Limbs < 2 ^ 64)
    (hwf : scalar.wellFormed Limbs) :
    selectBits (mkSelector Limbs chunk c) scalar
        = some (scalar.value / 2 ^ (chunk * c) % 2 ^ c)
      ∧ (c ∈ implementedCs → (mkSelector Limbs chunk c).multiWordSelect = false) := by
  constructor
  · cases hm : (mkSelector Limbs chunk c).multiWordSelect with
    | false => exact selectBits_single_testBit Limbs chunk c scalar h1 h63 hj hL hwf hm
    | true => exact selectBits_multi_testBit Limbs chunk c scalar h1 h63 hj hL hwf hm
  · intro hc
    exact mkSelector_single Limbs chunk c (implementedCs_facts c hc).2.2

theorem selectBits_eq_window_witness :
    1 ≤ 5 ∧ 5 ≤ 63 ∧ 12 * 5 < 64 * 2 ∧ 64 * 2 < 2 ^ 64
      ∧ Element.wellFormed 2 [2 ^ 63 + 5, 3]
      ∧ (mkSelector 2 12 5).multiWordSelect = true
      ∧ (selectBits (mkSelector 2 12 5) [2 ^ 63 + 5, 3]
            = some (Element.value [2 ^ 63 + 5, 3] / 2 ^ (12 * 5) % 2 ^ 5)
          ∧ (5 ∈ implementedCs → (mkSelector 2 12 5).multiWordSelect = false)) :=
  ⟨by decide, by decide, by decide, by decide, by decide, by decide,
    selectBits_eq_window 2 12 5 [2 ^ 63 + 5, 3] (by decide) (by decide) (by decide) (by decide)
      (by decide)⟩

end Bw761

namespace Iop

/-! ## Multivariate polynomials: evaluation, `AddMonomial`, `Degree` -/

theorem wrapInt_eq (x : Int) (h0 : 0 ≤ x) (h1 : x < 2 ^ 63) : wrapInt x = x := by
  unfold wrapInt
  omega

theorem sum_nonneg_of_forall (es : List Int) (h : ∀ e ∈ es, 0 ≤ e) : 0 ≤ es.sum := by
  induction es with
  | nil => simp
  | cons e es ih =>
    rw [List.sum_cons]
    have h1 := h e (List.mem_cons_self _ _)
    have h2 := ih (fun a ha => h a (List.mem_cons_of_mem _ ha))
    omega

theorem degreeInner_eq (es : List Int) (h : ∀ e ∈ es, 0 ≤ e) :
    ∀ t : Int, 0 ≤ t → t + es.sum < 2 ^ 63 → degreeInner es t = t + es.sum := by
  induction es with
  | nil => intro t _ _; simp [degreeInner]
  | cons e es ih =>
    intro t ht hs
    rw [List.sum_cons] at hs
    have h1 := h e (List.mem_cons_self _ _)
    have h2 := sum_nonneg_of_forall es (fun a ha => h a (List.mem_cons_of_mem _ ha))
    rw [degreeInner, wrapInt_eq (t + e) (by omega) (by omega),
      ih (fun a ha => h a (List.mem_cons_of_mem _ ha)) (t + e) (by omega) (by omega),
      List.sum_cons]
    omega

theorem totalDegree_nonneg {F : Type} (m : MultivariatePolynomial F) : 0 ≤ totalDegree m := by
  unfold totalDegree
  induction m with
  | nil => simp
  | cons a m ih =>
    simp only [List.map_cons, List.foldr_cons]
    exact le_max_of_le_right ih

theorem totalDegree_lt {F : Type} (m : MultivariatePolynomial F)
    (hfit : ∀ mono ∈ m, mono.exponents.sum < 2 ^ 63) : totalDegree m < 2 ^ 63 := by
  unfold totalDegree
  induction m with
  | nil => simp
  | cons a m ih =>
    simp only [List.map_cons, List.foldr_cons]
    exact max_lt (hfit a (List.mem_cons_self _ _))
      (ih (fun x hx => hfit x (List.mem_cons_of_mem _ hx)))

theorem degreeLoop_eq {F : Type} (m : MultivariatePolynomial F)
    (hnn : ∀ mono ∈ m, ∀ e ∈ mono.exponents, 0 ≤ e)
    (hfit : ∀ mono ∈ m, mono.exponents.sum < 2 ^ 63) :
    ∀ r : Int, 0 ≤ r → degreeLoop m r = max r (totalDegree m) := by
  induction m with
  | nil =>
    intro r hr
    simp [degreeLoop, totalDegree, hr]
  | cons a m ih =>
    intro r hr
    have ha := degreeInner_eq a.exponents (hnn a (List.mem_cons_self _ _)) 0 (le_refl 0)
      (by rw [Int.zero_add]; exact hfit a (List.mem_cons_self _ _))
    rw [Int.zero_add] at ha
    have hs := sum_nonneg_of_forall a.exponents (hnn a (List.mem_cons_self _ _))
    have hm : (if a.exponents.sum > r then a.exponents.sum else r) = max r a.exponents.sum := by
      by_cases hgt : a.exponents.sum > r
      · rw [if_pos hgt, max_eq_right (le_of_lt hgt)]
      · rw [if_neg hgt, max_eq_left (not_lt.mp hgt)]
    have hT : totalDegree (a :: m) = max a.exponents.sum (totalDegree m) := by
      simp [totalDegree]
    show degreeLoop m (if degreeInner a.exponents 0 > r then degreeInner a.exponents 0 else r)
      = max r (totalDegree (a :: m))
    rw [ha, hm, ih (fun x hx => hnn x (List.mem_cons_of_mem _ hx))
      (fun x hx => hfit x (List.mem_cons_of_mem _ hx)) _ (le_max_of_le_left hr), hT, max_assoc]

/-- C12 (failing input). The polynomial with the single monomial `1·X₀^6`, evaluated at
`x = [2]` over the integers: `monomial.evaluate` passes the index `i = 0` to `Exp` instead of
the exponent 6, so `Evaluate` returns `1`, while the value of the monomial is `2^6 = 64`. -/
theorem Evaluate_large_exponent :
    Evaluate ([⟨1, [6]⟩] : MultivariatePolynomial Int) [2] = some 1
      ∧ (monomial.value ⟨1, [6]⟩ [2] : Int) = 64 := by
  constructor
  · simp [Evaluate, evaluateSum, monomial.evaluate, monomial.evaluateLoop]
  · simp [monomial.value]

/-- C13. `m.AddMonomial(c, e)` returns `ErrInconsistantNumberOfVariable` if and only if `m` is
not empty and `len(e)` differs from the number of exponents of the first monomial of `m`; when
it returns the error `m` is unchanged, and when it returns nil `m` is the old `m` with the
monomial `(c, e)` appended at the end. -/
theorem AddMonomial_spec {F : Type} (m : MultivariatePolynomial F) (c : F) (e : List Int) :
    ((AddMonomial m c e).2 = some Error.ErrInconsistantNumberOfVariable
        ↔ ∃ m0 ms, m = m0 :: ms ∧ m0.exponents.length ≠ e.length)
      ∧ ((AddMonomial m c e).2 = some Error.ErrInconsistantNumberOfVariable
          → (AddMonomial m c e).1 = m)
      ∧ ((AddMonomial m c e).2 = none → (AddMonomial m c e).1 = m ++ [⟨c, e⟩])
      ∧ ((AddMonomial m c e).2 = none
          ∨ (AddMonomial m c e).2 = some Error.ErrInconsistantNumberOfVariable) := by
  cases m with
  | nil => simp [AddMonomial]
  | cons m0 ms =>
    by_cases h : m0.exponents.length = e.length
    · simp [AddMonomial, h]
    · simp [AddMonomial, h]

/-- C14. Every polynomial reachable from the empty one by calls of `AddMonomial`, whether they
succeed or fail, has all of its monomials carrying exponent lists of the same length. -/
theorem Reachable_same_length {F : Type} (m : MultivariatePolynomial F) (h : Reachable m) :
    ∀ a ∈ m, ∀ b ∈ m, a.exponents.length = b.exponents.length := by
  have key : ∀ m : MultivariatePolynomial F, Reachable m →
      ∀ a ∈ m, a.exponents.length = (m.head?.map fun x => x.exponents.length).getD 0 := by
    intro m hm
    induction hm with
    | empty => intro a ha; simp at ha
    | add m c e _ ih =>
      cases m with
      | nil =>
        intro a ha
        simp [AddMonomial] at ha
        simp [AddMonomial, ha]
      | cons m0 ms =>
        by_cases hl : m0.exponents.length = e.length
        · intro a ha
          have hA : (AddMonomial (m0 :: ms) c e).1 = m0 :: (ms ++ [⟨c, e⟩]) := by
            simp [AddMonomial, hl]
          rw [hA] at ha ⊢
          simp only [List.mem_cons, List.mem_append, List.mem_singleton, List.not_mem_nil,
            or_false] at ha
          show a.exponents.length = m0.exponents.length
          rcases ha with ha | ha | ha
          · rw [ha]
          · exact ih a (List.mem_cons_of_mem _ ha)
          · rw [ha, hl]
        · intro a ha
          have hA : (AddMonomial (m0 :: ms) c e).1 = m0 :: ms := by
            simp [AddMonomial, hl]
          rw [hA] at ha ⊢
          exact ih a ha
  intro a ha b hb
  rw [key m h a ha, key m h b hb]

theorem Reachable_same_length_witness :
    Reachable (AddMonomial (AddMonomial ([] : MultivariatePolynomial Int) 3 [1, 2]).1 5 [0, 7]).1
      ∧ (AddMonomial (AddMonomial ([] : MultivariatePolynomial Int) 3 [1, 2]).1 5 [0, 7]).1
          = [⟨3, [1, 2]⟩, ⟨5, [0, 7]⟩]
      ∧ ∀ a ∈ (AddMonomial (AddMonomial ([] : MultivariatePolynomial Int) 3 [1, 2]).1 5 [0, 7]).1,
          ∀ b ∈ (AddMonomial (AddMonomial ([] : MultivariatePolynomial Int) 3 [1, 2]).1 5
              [0, 7]).1,
            a.exponents.length = b.exponents.length :=
  ⟨Reachable.add _ 5 [0, 7] (Reachable.add _ 3 [1, 2] Reachable.empty), rfl,
    Reachable_same_length _
      (Reachable.add _ 5 [0, 7] (Reachable.add _ 3 [1, 2] Reachable.empty))⟩

/-- C15 (counterexample). The polynomial with the single monomial `X₀^(2^62)·X₁^(2^62)` has
non-negative exponents and total degree `2^63`, but the sum `t` of `Degree` is an `int` and
wraps to `-2^63`, so `Degree` returns 0. -/
theorem Degree_overflow_counterexample :
    (∀ mono ∈ ([⟨1, [2 ^ 62, 2 ^ 62]⟩] : MultivariatePolynomial Int),
        ∀ e ∈ mono.exponents, 0 ≤ e)
      ∧ Degree ([⟨1, [2 ^ 62, 2 ^ 62]⟩] : MultivariatePolynomial Int) = 0
      ∧ totalDegree ([⟨1, [2 ^ 62, 2 ^ 62]⟩] : MultivariatePolynomial Int) = 2 ^ 63 := by
  refine ⟨?_, ?_, ?_⟩
  · intro mono hm e he
    simp only [List.mem_singleton] at hm
    subst hm
    simp only [List.mem_cons, List.mem_singleton, List.not_mem_nil, or_false] at he
    rcases he with he | he <;> rw [he] <;> decide
  · decide
  · decide

/-- C15 (amended). For every polynomial `m` with non-negative exponents whose sum, in every
monomial, is below `2^63`, `m.Degree()` is the total degree: the maximum over the monomials of
the sum of the exponents, and 0 when `m` has no monomial. -/
theorem Degree_eq_totalDegree {F : Type} (m : MultivariatePolynomial F)
    (hnn : ∀ mono ∈ m, ∀ e ∈ mono.exponents, 0 ≤ e)
    (hfit : ∀ mono ∈ m, mono.exponents.sum < 2 ^ 63) :
    (Degree m : Int) = totalDegree m ∧ (m = [] → Degree m = 0) := by
  have h0 := totalDegree_nonneg m
  have h1 := totalDegree_lt m hfit
  have hd : degreeLoop m 0 = totalDegree m := by
    rw [degreeLoop_eq m hnn hfit 0 (le_refl 0), max_eq_right h0]
  constructor
  · unfold Degree
    rw [hd]
    omega
  · intro hm
    subst hm
    rfl

theorem Degree_eq_totalDegree_witness :
    (∀ mono ∈ ([⟨1, [1, 2]⟩, ⟨4, [3, 0]⟩] : MultivariatePolynomial Int),
        ∀ e ∈ mono.exponents, 0 ≤ e)
      ∧ (∀ mono ∈ ([⟨1, [1, 2]⟩, ⟨4, [3, 0]⟩] : MultivariatePolynomial Int),
          mono.exponents.sum < 2 ^ 63)
      ∧ Degree ([⟨1, [1, 2]⟩, ⟨4, [3, 0]⟩] : MultivariatePolynomial Int) = 3
      ∧ ((Degree ([⟨1, [1, 2]⟩, ⟨4, [3, 0]⟩] : MultivariatePolynomial Int) : Int)
            = totalDegree ([⟨1, [1, 2]⟩, ⟨4, [3, 0]⟩] : MultivariatePolynomial Int)
          ∧ (([⟨1, [1, 2]⟩, ⟨4, [3, 0]⟩] : MultivariatePolynomial Int) = []
            → Degree ([⟨1, [1, 2]⟩, ⟨4, [3, 0]⟩] : MultivariatePolynomial Int) = 0)) :=
  ⟨by simp, by simp, by decide,
    Degree_eq_totalDegree _ (by simp) (by simp)⟩

end Iop

namespace Iop

/-! ## `ToLagrange` and `ToCanonical` -/

section Memory

variable {F : Type}

theorem set_length_append {α : Type} (vs : List α) (v w : α) :
    (vs ++ [v]).set vs.length w = vs ++ [w] := by
  induction vs with
  | nil => rfl
  | cons a vs ih => simp [ih]

theorem onCopy_eq (mem : Memory F) (p : Nat) (P : Polynomial) (setForm : Form → Form)
    (f : List F → List F) (v : List F) (hp : mem.polys[p]? = some P)
    (hv : mem.vectors[P.Coefficients]? = some v) :
    onCopy mem p setForm f
      = some (⟨mem.vectors ++ [f v], mem.polys ++ [⟨mem.vectors.length, setForm P.Form⟩]⟩,
          mem.polys.length) := by
  unfold onCopy
  rw [hp]
  simp only [copyPoly, hv, transform]
  rw [List.getElem?_append_right (le_refl _)]
  simp [set_length_append]

theorem inPlace_eq (mem : Memory F) (p : Nat) (P : Polynomial) (setForm : Form → Form)
    (f : List F → List F) (v : List F) (hp : mem.polys[p]? = some P)
    (hv : mem.vectors[P.Coefficients]? = some v) :
    inPlace mem p setForm f
      = some (⟨mem.vectors.set P.Coefficients (f v),
          mem.polys.set p ⟨P.Coefficients, setForm P.Form⟩⟩, p) := by
  unfold inPlace
  rw [hp]
  simp only [transform, hv]

theorem getElem?_set_of_some {α : Type} (l : List α) (i : Nat) (a b : α) (h : l[i]? = some a) :
    (l.set i b)[i]? = some b := by
  have hi : i < l.length := by
    by_contra hc
    rw [List.getElem?_eq_none (not_lt.mp hc)] at h
    exact Option.noConfusion h
  exact List.getElem?_set_self hi

theorem lt_of_getElem?_some {α : Type} (l : List α) (i : Nat) (a : α) (h : l[i]? = some a) :
    i < l.length := by
  by_contra hc
  rw [List.getElem?_eq_none (not_lt.mp hc)] at h
  exact Option.noConfusion h

/-- The result of a function of the shape `onCopy` on a valid pointer. -/
theorem onCopy_result (mem : Memory F) (p : Nat) (P : Polynomial) (setForm : Form → Form)
    (f : List F → List F) (hv : validPointer mem p P) :
    ∃ mem1, onCopy mem p setForm f = some (mem1, mem.polys.length)
      ∧ mem1.polys[mem.polys.length]? = some ⟨mem.vectors.length, setForm P.Form⟩
      ∧ lockedFrame mem mem1 p P mem.polys.length := by
  obtain ⟨hp, ha⟩ := hv
  have hpl := lt_of_getElem?_some _ _ _ hp
  refine ⟨_, onCopy_eq mem p P setForm f _ hp (List.getElem?_eq_getElem ha), ?_, ?_⟩
  · show (mem.polys ++ [_])[mem.polys.length]? = _
    rw [List.getElem?_append_right (le_refl _)]
    simp
  · refine ⟨?_, ?_, ?_, Or.inr ⟨rfl, ?_,
      ⟨⟨mem.vectors.length, setForm P.Form⟩, ?_, rfl, ?_⟩⟩⟩
    · show (mem.polys ++ [_])[p]? = _
      rw [List.getElem?_append_left hpl]
      exact hp
    · show (mem.vectors ++ [_])[P.Coefficients]? = _
      rw [List.getElem?_append_left ha]
    · intro a h
      show (mem.vectors ++ [_])[a]? = _
      rw [List.getElem?_append_left h]
    · omega
    · show (mem.polys ++ [_])[mem.polys.length]? = _
      rw [List.getElem?_append_right (le_refl _)]
      simp
    · show (mem.vectors ++ [_]).length = _
      simp

/-- The result of a function of the shape `inPlace` on a valid pointer. -/
theorem inPlace_result (mem : Memory F) (p : Nat) (P : Polynomial) (setForm : Form → Form)
    (f : List F → List F) (hv : validPointer mem p P) :
    ∃ mem1, inPlace mem p setForm f = some (mem1, p)
      ∧ mem1.polys[p]? = some ⟨P.Coefficients, setForm P.Form⟩ := by
  obtain ⟨hp, ha⟩ := hv
  refine ⟨_, inPlace_eq mem p P setForm f _ hp (List.getElem?_eq_getElem ha), ?_⟩
  exact getElem?_set_of_some _ _ _ _ hp

theorem lockedFrame_refl (mem : Memory F) (p : Nat) (P : Polynomial)
    (hp : mem.polys[p]? = some P) : lockedFrame mem mem p P p :=
  ⟨hp, rfl, fun _ _ => rfl, Or.inl ⟨rfl, rfl, rfl⟩⟩

/-- The result of `ToLagrange` on a valid pointer, in each of the 12 forms. -/
theorem ToLagrange_result (d : Domain F) (mem : Memory F) (p : Nat) (P : Polynomial)
    (hv : validPointer mem p P) :
    ∃ mem1 q Q, ToLagrange d mem p = some (mem1, q) ∧ mem1.polys[q]? = some Q
      ∧ Q.Form.Basis = Basis.Lagrange
      ∧ (P.Form.Status = Status.Locked → lockedFrame mem mem1 p P q) := by
  have hp := hv.1
  obtain ⟨a, b, l, s⟩ := P
  cases b <;> cases l <;> cases s <;>
    first
    | (have hT : ToLagrange d mem p = toLagrangeId d mem p := by
        unfold ToLagrange; rw [hp]; rfl
       rw [hT, toLagrangeId, hp]
       exact ⟨mem, p, _, rfl, hp, rfl, fun _ => lockedFrame_refl mem p _ hp⟩)
    | (have hT : ∃ sf f, ToLagrange d mem p = onCopy mem p sf f
          ∧ ∀ x, (sf x).Basis = Basis.Lagrange := by
        unfold ToLagrange; rw [hp]; exact ⟨_, _, rfl, fun _ => rfl⟩
       obtain ⟨sf, f, hT, hsf⟩ := hT
       obtain ⟨mem1, h1, h2, h3⟩ := onCopy_result mem p _ sf f hv
       rw [hT]
       exact ⟨mem1, _, _, h1, h2, hsf _, fun _ => h3⟩)
    | (have hT : ∃ sf f, ToLagrange d mem p = inPlace mem p sf f
          ∧ ∀ x, (sf x).Basis = Basis.Lagrange := by
        unfold ToLagrange; rw [hp]; exact ⟨_, _, rfl, fun _ => rfl⟩
       obtain ⟨sf, f, hT, hsf⟩ := hT
       obtain ⟨mem1, h1, h2⟩ := inPlace_result mem p _ sf f hv
       rw [hT]
       exact ⟨mem1, _, _, h1, h2, hsf _, fun h => Status.noConfusion h⟩)

/-- The result of `ToCanonical` on a valid pointer, in each of the 12 forms. -/
theorem ToCanonical_result (d : Domain F) (mem : Memory F) (p : Nat) (P : Polynomial)
    (hv : validPointer mem p P) :
    ∃ mem1 q Q, ToCanonical d mem p = some (mem1, q) ∧ mem1.polys[q]? = some Q
      ∧ Q.Form.Basis = Basis.Canonical
      ∧ (P.Form.Status = Status.Locked → lockedFrame mem mem1 p P q) := by
  have hp := hv.1
  obtain ⟨a, b, l, s⟩ := P
  cases b <;> cases l <;> cases s <;>
    first
    | (have hT : ToCanonical d mem p = toCanonicalId d mem p := by
        unfold ToCanonical; rw [hp]; rfl
       rw [hT, toCanonicalId, hp]
       exact ⟨mem, p, _, rfl, hp, rfl, fun _ => lockedFrame_refl mem p _ hp⟩)
    | (have hT : ∃ sf f, ToCanonical d mem p = onCopy mem p sf f
          ∧ ∀ x, (sf x).Basis = Basis.Canonical := by
        unfold ToCanonical; rw [hp]; exact ⟨_, _, rfl, fun _ => rfl⟩
       obtain ⟨sf, f, hT, hsf⟩ := hT
       obtain ⟨mem1, h1, h2, h3⟩ := onCopy_result mem p _ sf f hv
       rw [hT]
       exact ⟨mem1, _, _, h1, h2, hsf _, fun _ => h3⟩)
    | (have hT : ∃ sf f, ToCanonical d mem p = inPlace mem p sf f
          ∧ ∀ x, (sf x).Basis = Basis.Canonical := by
        unfold ToCanonical; rw [hp]; exact ⟨_, _, rfl, fun _ => rfl⟩
       obtain ⟨sf, f, hT, hsf⟩ := hT
       obtain ⟨mem1, h1, h2⟩ := inPlace_result mem p _ sf f hv
       rw [hT]
       exact ⟨mem1, _, _, h1, h2, hsf _, fun h => Status.noConfusion h⟩)

/-- C16. For every polynomial `p` in any of the 12 forms (a valid pointer into the memory),
`p.ToLagrange(d)` returns a polynomial whose `Basis` is `Lagrange` and `p.ToCanonical(d)`
returns a polynomial whose `Basis` is `Canonical`. -/
theorem ToLagrange_ToCanonical_basis (d : Domain F) (mem : Memory F) (p : Nat)
    (P : Polynomial) (hv : validPointer mem p P) :
    (∃ mem1 q Q, ToLagrange d mem p = some (mem1, q) ∧ mem1.polys[q]? = some Q
        ∧ Q.Form.Basis = Basis.Lagrange)
      ∧ (∃ mem1 q Q, ToCanonical d mem p = some (mem1, q) ∧ mem1.polys[q]? = some Q
        ∧ Q.Form.Basis = Basis.Canonical) := by
  obtain ⟨m1, q1, Q1, h1, h2, h3, _⟩ := ToLagrange_result d mem p P hv
  obtain ⟨m2, q2, Q2, k1, k2, k3, _⟩ := ToCanonical_result d mem p P hv
  exact ⟨⟨m1, q1, Q1, h1, h2, h3⟩, ⟨m2, q2, Q2, k1, k2, k3⟩⟩

theorem ToLagrange_ToCanonical_basis_witness :
    validPointer (⟨[[1, 2]], [⟨0, ⟨Basis.LagrangeCoset, Layout.Regular, Status.Unlocked⟩⟩]⟩ :
        Memory Int) 0 ⟨0, ⟨Basis.LagrangeCoset, Layout.Regular, Status.Unlocked⟩⟩
      ∧ ((∃ mem1 q Q,
            ToLagrange (⟨fun a _ _ => a.reverse, fun a _ _ => a⟩ : Domain Int)
                ⟨[[1, 2]], [⟨0, ⟨Basis.LagrangeCoset, Layout.Regular, Status.Unlocked⟩⟩]⟩ 0
              = some (mem1, q)
            ∧ mem1.polys[q]? = some Q ∧ Q.Form.Basis = Basis.Lagrange)
        ∧ (∃ mem1 q Q,
            ToCanonical (⟨fun a _ _ => a.reverse, fun a _ _ => a⟩ : Domain Int)
                ⟨[[1, 2]], [⟨0, ⟨Basis.LagrangeCoset, Layout.Regular, Status.Unlocked⟩⟩]⟩ 0
              = some (mem1, q)
            ∧ mem1.polys[q]? = some Q ∧ Q.Form.Basis = Basis.Canonical)) :=
  ⟨⟨rfl, by decide⟩, ToLagrange_ToCanonical_basis _ _ 0 _ ⟨rfl, by decide⟩⟩

/-- C17 (failing input). On a polynomial in the form `{Canonical, Regular, Locked}`,
`ToLagrange` returns a copy whose `Layout` is `BitReverse`, and on a polynomial in the form
`{Lagrange, Regular, Locked}`, `ToCanonical` returns a copy whose `Layout` is `BitReverse`,
whatever the transforms of the domain: the result is bit reversed. -/
theorem ToLagrange_ToCanonical_bit_reversed (d : Domain Int) :
    ToLagrange d ⟨[[1, 2]], [⟨0, ⟨Basis.Canonical, Layout.Regular, Status.Locked⟩⟩]⟩ 0
        = some (⟨[[1, 2], d.FFT [1, 2] Decimation.DIF false],
            [⟨0, ⟨Basis.Canonical, Layout.Regular, Status.Locked⟩⟩,
              ⟨1, ⟨Basis.Lagrange, Layout.BitReverse, Status.Unlocked⟩⟩]⟩, 1)
      ∧ ToCanonical d ⟨[[1, 2]], [⟨0, ⟨Basis.Lagrange, Layout.Regular, Status.Locked⟩⟩]⟩ 0
        = some (⟨[[1, 2], d.FFTInverse [1, 2] Decimation.DIF false],
            [⟨0, ⟨Basis.Lagrange, Layout.Regular, Status.Locked⟩⟩,
              ⟨1, ⟨Basis.Canonical, Layout.BitReverse, Status.Unlocked⟩⟩]⟩, 1) :=
  ⟨rfl, rfl⟩

/-- C18. For every polynomial `p` whose `Status` is `Locked` (any basis, any layout), a call
of `p.ToLagrange(d)` or `p.ToCanonical(d)` leaves the coefficient vector of `p` and its
`Basis`, `Layout` and `Status` unchanged: the call either returns `p` with the memory as it
was, or a new polynomial whose coefficients are a new vector. -/
theorem Locked_unchanged (d : Domain F) (mem : Memory F) (p : Nat) (P : Polynomial)
    (hv : validPointer mem p P) (hL : P.Form.Status = Status.Locked) :
    (∃ mem1 q, ToLagrange d mem p = some (mem1, q) ∧ lockedFrame mem mem1 p P q)
      ∧ (∃ mem1 q, ToCanonical d mem p = some (mem1, q) ∧ lockedFrame mem mem1 p P q) := by
  obtain ⟨m1, q1, _, h1, _, _, h4⟩ := ToLagrange_result d mem p P hv
  obtain ⟨m2, q2, _, k1, _, _, k4⟩ := ToCanonical_result d mem p P hv
  exact ⟨⟨m1, q1, h1, h4 hL⟩, ⟨m2, q2, k1, k4 hL⟩⟩

theorem Locked_unchanged_witness :
    validPointer (⟨[[1, 2]], [⟨0, ⟨Basis.LagrangeCoset, Layout.BitReverse, Status.Locked⟩⟩]⟩ :
        Memory Int) 0 ⟨0, ⟨Basis.LagrangeCoset, Layout.BitReverse, Status.Locked⟩⟩
      ∧ (⟨0, ⟨Basis.LagrangeCoset, Layout.BitReverse, Status.Locked⟩⟩ : Polynomial).Form.Status
          = Status.Locked
      ∧ ((∃ mem1 q,
            ToLagrange (⟨fun a _ _ => a.reverse, fun a _ _ => a⟩ : Domain Int)
                ⟨[[1, 2]], [⟨0, ⟨Basis.LagrangeCoset, Layout.BitReverse, Status.Locked⟩⟩]⟩ 0
              = some (mem1, q)
            ∧ lockedFrame
                ⟨[[1, 2]], [⟨0, ⟨Basis.LagrangeCoset, Layout.BitReverse, Status.Locked⟩⟩]⟩
                mem1 0 ⟨0, ⟨Basis.LagrangeCoset, Layout.BitReverse, Status.Locked⟩⟩ q)
        ∧ (∃ mem1 q,
            ToCanonical (⟨fun a _ _ => a.reverse, fun a _ _ => a⟩ : Domain Int)
                ⟨[[1, 2]], [⟨0, ⟨Basis.LagrangeCoset, Layout.BitReverse, Status.Locked⟩⟩]⟩ 0
              = some (mem1, q)
            ∧ lockedFrame
                ⟨[[1, 2]], [⟨0, ⟨Basis.LagrangeCoset, Layout.BitReverse, Status.Locked⟩⟩]⟩
                mem1 0 ⟨0, ⟨Basis.LagrangeCoset, Layout.BitReverse, Status.Locked⟩⟩ q)) :=
  ⟨⟨rfl, by decide⟩, rfl, Locked_unchanged _ _ 0 _ ⟨rfl, by decide⟩ rfl⟩

end Memory

end Iop

namespace Bw761

/-! ## The thresholds of the window width -/

section Thresholds

variable {G : Type} [AddCommGroup G] [DecidableEq G]

/-- The hypotheses on the largest product, as facts about natural numbers. -/
theorem fit_exact_nat (Limbs n : Nat)
    (hfit : ((Limbs * 64 * (n + 2 ^ 15) : Nat) : Int) < 2 ^ 63)
    (hexact : float64OfInt ((Limbs * 64 * (n + 2 ^ 15) : Nat) : Int)
      = ((Limbs * 64 * (n + 2 ^ 15) : Nat) : ℚ)) :
    Limbs * 64 * (n + 2 ^ 15) < 2 ^ 63
      ∧ roundToFloat64 (Limbs * 64 * (n + 2 ^ 15)) = Limbs * 64 * (n + 2 ^ 15) := by
  constructor
  · exact_mod_cast hfit
  · rw [float64OfInt_natCast] at hexact
    exact_mod_cast hexact

/-- C21. For a scalar of at least one word and every number of points `n` for which the largest
product `64·fr.Limbs·(n + 2^15)` fits an `int` and converts exactly to `float64`, the width
chosen by `MultiExp` is 4 for `n ≤ 112`, 8 for `113 ≤ n ≤ 32512` and 16 for `n ≥ 32513`,
whatever the number of words; it does not decrease when `n` grows; and `MultiExp` runs the path
of that width. -/
theorem bestC_thresholds (Limbs n : Nat) (hL : 1 ≤ Limbs)
    (hfit : ((Limbs * 64 * (n + 2 ^ 15) : Nat) : Int) < 2 ^ 63)
    (hexact : float64OfInt ((Limbs * 64 * (n + 2 ^ 15) : Nat) : Int)
      = ((Limbs * 64 * (n + 2 ^ 15) : Nat) : ℚ)) :
    (n ≤ 112 → bestC Limbs n = 4)
      ∧ (113 ≤ n → n ≤ 32512 → bestC Limbs n = 8)
      ∧ (32513 ≤ n → bestC Limbs n = 16)
      ∧ (∀ m, m ≤ n
          → float64OfInt ((Limbs * 64 * (m + 2 ^ 15) : Nat) : Int)
              = ((Limbs * 64 * (m + 2 ^ 15) : Nat) : ℚ)
          → bestC Limbs m ≤ bestC Limbs n)
      ∧ ∀ (points : List G) (scalars : List Element), points.length = n →
          MultiExp Limbs points scalars
            = msmCX (if n ≤ 112 then 4 else if n ≤ 32512 then 8 else 16) Limbs points
                scalars := by
  obtain ⟨hfit1, hexact1⟩ := fit_exact_nat Limbs n hfit hexact
  have hb := bestC_eq Limbs n hL hfit1 hexact1
  refine ⟨?_, ?_, ?_, ?_, ?_⟩
  · intro h
    rw [hb, if_pos h]
  · intro h1 h2
    rw [hb, if_neg (by omega), if_pos h2]
  · intro h
    rw [hb, if_neg (by omega), if_neg (by omega)]
  · intro m hm hexm
    have hfitm : ((Limbs * 64 * (m + 2 ^ 15) : Nat) : Int) < 2 ^ 63 := by
      have hle : Limbs * 64 * (m + 2 ^ 15) ≤ Limbs * 64 * (n + 2 ^ 15) :=
        Nat.mul_le_mul_left _ (by omega)
      have : Limbs * 64 * (m + 2 ^ 15) < 2 ^ 63 := lt_of_le_of_lt hle hfit1
      exact_mod_cast this
    obtain ⟨hfit2, hexact2⟩ := fit_exact_nat Limbs m hfitm hexm
    rw [hb, bestC_eq Limbs m hL hfit2 hexact2]
    by_cases h1 : n ≤ 112
    · rw [if_pos h1, if_pos (le_trans hm h1)]
    · rw [if_neg h1]
      by_cases h2 : n ≤ 32512
      · rw [if_pos h2]
        by_cases h3 : m ≤ 112
        · rw [if_pos h3]; decide
        · rw [if_neg h3, if_pos (le_trans hm h2)]
      · rw [if_neg h2]
        by_cases h3 : m ≤ 112
        · rw [if_pos h3]; decide
        · rw [if_neg h3]
          by_cases h4 : m ≤ 32512
          · rw [if_pos h4]; decide
          · rw [if_neg h4]
  · intro points scalars hlen
    obtain ⟨c, _, hc, hM⟩ := MultiExp_eq_msmCX Limbs points scalars
    rw [hM, ← hc, hlen, hb]

theorem bestC_thresholds_witness :
    1 ≤ 6
      ∧ (((6 * 64 * (113 + 2 ^ 15) : Nat) : Int) < 2 ^ 63)
      ∧ float64OfInt ((6 * 64 * (113 + 2 ^ 15) : Nat) : Int)
          = ((6 * 64 * (113 + 2 ^ 15) : Nat) : ℚ)
      ∧ ((113 ≤ 112 → bestC 6 113 = 4)
        ∧ (113 ≤ 113 → 113 ≤ 32512 → bestC 6 113 = 8)
        ∧ (32513 ≤ 113 → bestC 6 113 = 16)
        ∧ (∀ m, m ≤ 113
            → float64OfInt ((6 * 64 * (m + 2 ^ 15) : Nat) : Int)
                = ((6 * 64 * (m + 2 ^ 15) : Nat) : ℚ)
            → bestC 6 m ≤ bestC 6 113)
        ∧ ∀ (points : List Int) (scalars : List Element), points.length = 113 →
            MultiExp 6 points scalars
              = msmCX (if 113 ≤ 112 then 4 else if 113 ≤ 32512 then 8 else 16) 6 points
                  scalars) :=
  ⟨by decide, by decide,
    by rw [float64OfInt_natCast, roundToFloat64_exact _ (by decide)],
    bestC_thresholds 6 113 (by decide) (by decide)
      (by rw [float64OfInt_natCast, roundToFloat64_exact _ (by decide)])⟩

end Thresholds

end Bw761
